import Mathlib

/-!
# Verification of the path.jerryio command engine

A shallow embedding of the editable-document command engine of the
path.jerryio editor (`src/types/Command.tsx`) and proofs about it.

Mutable JS objects are modelled by a heap keyed by numeric uids:
`Control`s, `Segment`s, `Keyframe`s and `Path`s are referenced by `Nat`
ids, and JavaScript reference identity (`===`) becomes equality of ids.
The geometry classes themselves (`Path.tsx`) are not part of the given
sources, so their accessors (`Segment.first`, `Segment.last`, vector
arithmetic) are modelled from the spec; every command algorithm is
translated from `Command.tsx`.
-/

namespace PathJerryio

/-- Modelled from the spec: a control point is a 2D point with a heading
(for end-point controls) and visibility/lock flags.  The uid is *not*
stored here: controls live in a heap `Nat → Control` and the uid is the
key, so JS reference identity is id equality. -/
structure Control where
  x : ℚ
  y : ℚ
  heading : ℚ := 0
  isEndPoint : Bool := false
  visible : Bool := true
  lock : Bool := false
  deriving DecidableEq, Repr

instance : Inhabited Control := ⟨{ x := 0, y := 0 }⟩

/-- Modelled from the spec: a keyframe (speed-profile marker) with a
position along the segment and a value. -/
structure Keyframe where
  xPos : ℚ
  yPos : ℚ
  deriving DecidableEq, Repr

instance : Inhabited Keyframe := ⟨{ xPos := 0, yPos := 0 }⟩

/-- The mutable geometry graph, modelled as heaps keyed by uid.
`segCtrls s` is the control list of the segment with uid `s`;
`segKfs s` is its keyframe (speedProfiles) list; `pathSegs p` is the
segment list of the path with uid `p`; `paths` is the editor's path
collection.  Modelled from the spec: a Segment is an ordered list of
controls plus an ordered keyframe list, a Path is an ordered sequence
of segments. -/
structure GeomState where
  ctrl : Nat → Control
  segCtrls : Nat → List Nat
  segKfs : Nat → List Nat
  kf : Nat → Keyframe
  pathSegs : Nat → List Nat
  paths : List Nat

@[ext] theorem GeomState.ext {a b : GeomState}
    (h1 : a.ctrl = b.ctrl) (h2 : a.segCtrls = b.segCtrls)
    (h3 : a.segKfs = b.segKfs) (h4 : a.kf = b.kf)
    (h5 : a.pathSegs = b.pathSegs) (h6 : a.paths = b.paths) : a = b := by
  cases a; cases b; simp_all

/-- Modelled from the spec: `segment.first` is the first element of the
control list (as a uid, i.e. by reference). -/
def firstCu (sc : Nat → List Nat) (s : Nat) : Nat := (sc s).headI

/-- Modelled from the spec: `segment.last` is the last element of the
control list (as a uid, i.e. by reference). -/
def lastCu (sc : Nat → List Nat) (s : Nat) : Nat := (sc s).getLastD 0

/-- Modelled from the spec: assigning `segment.last = c` replaces the
final element of the control list. -/
def setLast (l : List Nat) (c : Nat) : List Nat := l.dropLast ++ [c]

/-- The central sharing invariant of the spec: adjacent segments of a
path share their endpoint control by reference,
`segment[i].last === segment[i+1].first`. -/
def Linked (sc : Nat → List Nat) (l : List Nat) : Prop :=
  List.Chain' (fun a b => lastCu sc a = firstCu sc b) l

/-- Executable check for `Linked`. -/
def linkedB (sc : Nat → List Nat) : List Nat → Bool
  | [] => true
  | [_] => true
  | a :: b :: t => (lastCu sc a == firstCu sc b) && linkedB sc (b :: t)

theorem linkedB_iff (sc : Nat → List Nat) :
    ∀ l, linkedB sc l = true ↔ Linked sc l
  | [] => by simp [linkedB, Linked]
  | [a] => by simp [linkedB, Linked]
  | a :: b :: t => by
    rw [Linked, List.chain'_cons]
    have ih := linkedB_iff sc (b :: t)
    rw [Linked] at ih
    simp [linkedB, ← ih]

instance (sc : Nat → List Nat) (l : List Nat) : Decidable (Linked sc l) :=
  decidable_of_iff _ (linkedB_iff sc l)

/-- Spec: a segment has 2 controls (linear) or 4 controls (cubic). -/
def SegLenOk (sc : Nat → List Nat) (s : Nat) : Prop :=
  (sc s).length = 2 ∨ (sc s).length = 4

instance (sc : Nat → List Nat) (s : Nat) : Decidable (SegLenOk sc s) := by
  unfold SegLenOk; infer_instance

/-- Well-formedness of the geometry graph, stated on the structural
components only (the path collection, each path's segment uid list and
each segment's control uid list): paths are distinct, a path's segments
are distinct, no segment is shared between two paths (spec: "no entity
is shared across two Paths"), segments have 2 or 4 controls, and every
path satisfies the sharing invariant. -/
def WFs (ps : List Nat) (pseg : Nat → List Nat) (sc : Nat → List Nat) : Prop :=
  ps.Nodup ∧
  (∀ p ∈ ps, (pseg p).Nodup) ∧
  (∀ p ∈ ps, ∀ q ∈ ps, p ≠ q → ∀ s ∈ pseg p, s ∉ pseg q) ∧
  (∀ p ∈ ps, ∀ s ∈ pseg p, SegLenOk sc s) ∧
  (∀ p ∈ ps, Linked sc (pseg p))

instance (ps : List Nat) (pseg : Nat → List Nat) (sc : Nat → List Nat) :
    Decidable (WFs ps pseg sc) := by
  unfold WFs; infer_instance

def WF (st : GeomState) : Prop := WFs st.paths st.pathSegs st.segCtrls

instance (st : GeomState) : Decidable (WF st) := by
  unfold WF; infer_instance

/-- Vector/arithmetic helpers, modelled from the spec's
ownership-agnostic control arithmetic (`divide`, `add`):
`p.divide(Control(2,2)).add(q.divide(Control(2,2)))` is the midpoint. -/
def midXY (a b : Control) : ℚ × ℚ := (a.x / 2 + b.x / 2, a.y / 2 + b.y / 2)

/-- `new Control(x, y)`: a plain (non-endpoint) control at the given
coordinates. -/
def mkControl (p : ℚ × ℚ) : Control := { x := p.1, y := p.2 }

/-! ## SplitSegment (`Command.tsx` lines 334-402) -/

/-- The constructor arguments of `SplitSegment` plus the uids of the
objects it allocates (`a`, `c` and the new `Segment`); in JS these are
fresh objects, here fresh ids. -/
structure SplitSegment where
  path : Nat
  originalSegment : Nat
  point : Nat
  aUid : Nat
  cUid : Nat
  newSegUid : Nat

/-- The instance fields `SplitSegment.execute` fills in:
`previousOriginalSegmentControls`, `newOriginalSegmentControls`,
`newSegment` and `_entities`. -/
structure SplitRecord where
  previousOriginalSegmentControls : List Nat := []
  newOriginalSegmentControls : List Nat := []
  newSegment : Option Nat := none
  entities : List Nat := []
  deriving DecidableEq, Repr

/-- `SplitSegment.execute`: records the current controls, locates the
segment in the path (early return when absent), then splits a 2-control
segment at the point or a 4-control segment with the de Casteljau-style
midpoint blend, splicing the new segment in right after the original. -/
def SplitSegment.execute (c : SplitSegment) (st : GeomState) :
    GeomState × SplitRecord :=
  let prev := st.segCtrls c.originalSegment
  let segs := st.pathSegs c.path
  if c.originalSegment ∈ segs then
    let idx := segs.indexOf c.originalSegment
    if prev.length = 2 then
      let lastC := lastCu st.segCtrls c.originalSegment
      let sc1 := Function.update st.segCtrls c.originalSegment (setLast prev c.point)
      let sc2 := Function.update sc1 c.newSegUid [c.point, lastC]
      let ps1 := Function.update st.pathSegs c.path (segs.insertIdx (idx + 1) c.newSegUid)
      ({ st with segCtrls := sc2, pathSegs := ps1 },
       { previousOriginalSegmentControls := prev,
         newOriginalSegmentControls := setLast prev c.point,
         newSegment := some c.newSegUid,
         entities := [c.point] })
    else if prev.length = 4 then
      let p0 := prev.getD 0 0
      let p1 := prev.getD 1 0
      let p2 := prev.getD 2 0
      let p3 := prev.getD 3 0
      let aData := mkControl (midXY (st.ctrl p1) (st.ctrl c.point))
      let cData := mkControl (midXY (st.ctrl p2) (st.ctrl c.point))
      let newOrig := [p0, p1, c.aUid, c.point]
      let cc1 := Function.update (Function.update st.ctrl c.aUid aData) c.cUid cData
      let sc1 := Function.update st.segCtrls c.originalSegment newOrig
      let sc2 := Function.update sc1 c.newSegUid [c.point, c.cUid, p2, p3]
      let ps1 := Function.update st.pathSegs c.path (segs.insertIdx (idx + 1) c.newSegUid)
      ({ st with ctrl := cc1, segCtrls := sc2, pathSegs := ps1 },
       { previousOriginalSegmentControls := prev,
         newOriginalSegmentControls := newOrig,
         newSegment := some c.newSegUid,
         entities := [c.aUid, c.point, c.cUid] })
    else
      (st, { previousOriginalSegmentControls := prev,
             newOriginalSegmentControls := prev })
  else
    (st, { previousOriginalSegmentControls := prev })

/-- `SplitSegment.undo`: restores the captured control list of the
original segment and splices the new segment out.  JS looks the new
segment up with `indexOf`; when it is absent (`indexOf` gives `-1`),
`splice(-1, 1)` removes the final element, and the same happens when
`newSegment` is still `undefined` (only reachable by violating the
documented precondition that `execute` ran first). -/
def SplitSegment.undo (c : SplitSegment) (r : SplitRecord) (st : GeomState) :
    GeomState :=
  let sc1 := Function.update st.segCtrls c.originalSegment r.previousOriginalSegmentControls
  let st1 := { st with segCtrls := sc1 }
  let segs := st1.pathSegs c.path
  match r.newSegment with
  | some n =>
    if n ∈ segs then
      { st1 with pathSegs := Function.update st1.pathSegs c.path (segs.eraseIdx (segs.indexOf n)) }
    else
      { st1 with pathSegs := Function.update st1.pathSegs c.path segs.dropLast }
  | none =>
    { st1 with pathSegs := Function.update st1.pathSegs c.path segs.dropLast }

/-- `SplitSegment.redo`: re-installs the captured new control list and
re-inserts the captured segment object right after the original segment
(no recomputation; the comment in the source says "Instead of executing,
we just add the segment back").  When the original segment is absent JS
`indexOf` gives `-1` and `splice(0, 0, x)` inserts at the front. -/
def SplitSegment.redo (c : SplitSegment) (r : SplitRecord) (st : GeomState) :
    GeomState :=
  let segs := st.pathSegs c.path
  let pos := if c.originalSegment ∈ segs then segs.indexOf c.originalSegment + 1 else 0
  let sc1 := Function.update st.segCtrls c.originalSegment r.newOriginalSegmentControls
  let st1 := { st with segCtrls := sc1 }
  match r.newSegment with
  | some n =>
    { st1 with pathSegs := Function.update st1.pathSegs c.path (segs.insertIdx pos n) }
  | none => st1

/-! ### List helper lemmas -/

theorem indexOf_insertIdx_self {l : List Nat} {a : Nat} {n : Nat}
    (ha : a ∉ l) (hn : n ≤ l.length) :
    (l.insertIdx n a).indexOf a = n := by
  induction l generalizing n with
  | nil =>
    have h0 : n = 0 := Nat.le_zero.mp hn
    subst h0
    simp [List.indexOf_cons]
  | cons x xs ih =>
    cases n with
    | zero => simp [List.indexOf_cons]
    | succ m =>
      have hx : (x == a) = false := by
        refine beq_eq_false_iff_ne.mpr fun h => ?_
        exact ha (h ▸ List.mem_cons_self x xs)
      have hm : m ≤ xs.length := Nat.le_of_succ_le_succ hn
      have ha' : a ∉ xs := fun h => ha (List.mem_cons_of_mem x h)
      simp [List.indexOf_cons, ih ha' hm, hx]

/-- C5: splitting a cubic segment with controls `[p0, p1, p2, p3]` at point
`X` (`c.point`) rewrites the segment to `[p0, p1, a, X]` and splices a new
segment `[X, c, p2, p3]` immediately after it, where `a` and `c` hold the
midpoints of `p1`/`p2` with `X`, and `X` is shared by reference (same uid)
between the two segments; undo restores the original four controls and
removes the spliced-in segment, and redo reproduces the exact post-split
state by re-inserting the same segment and control objects. -/
theorem splitSegment_cubic_roundtrip
    (st : GeomState) (c : SplitSegment) (p0 p1 p2 p3 : Nat)
    (hmem : c.originalSegment ∈ st.pathSegs c.path)
    (hctrl : st.segCtrls c.originalSegment = [p0, p1, p2, p3])
    (hfresh : c.newSegUid ∉ st.pathSegs c.path)
    (hsegNe : c.originalSegment ≠ c.newSegUid)
    (hac : c.aUid ≠ c.cUid) :
    (c.execute st).1.segCtrls c.originalSegment = [p0, p1, c.aUid, c.point] ∧
    (c.execute st).1.segCtrls c.newSegUid = [c.point, c.cUid, p2, p3] ∧
    (c.execute st).1.pathSegs c.path =
      (st.pathSegs c.path).insertIdx
        ((st.pathSegs c.path).indexOf c.originalSegment + 1) c.newSegUid ∧
    (c.execute st).1.ctrl c.aUid = mkControl (midXY (st.ctrl p1) (st.ctrl c.point)) ∧
    (c.execute st).1.ctrl c.cUid = mkControl (midXY (st.ctrl p2) (st.ctrl c.point)) ∧
    c.undo (c.execute st).2 (c.execute st).1 =
      { st with
          ctrl := (c.execute st).1.ctrl,
          segCtrls := Function.update st.segCtrls c.newSegUid [c.point, c.cUid, p2, p3] } ∧
    c.redo (c.execute st).2 (c.undo (c.execute st).2 (c.execute st).1) =
      (c.execute st).1 := by
  have hidx : (st.pathSegs c.path).indexOf c.originalSegment < (st.pathSegs c.path).length :=
    List.indexOf_lt_length.mpr hmem
  have hsc : (c.execute st).1.segCtrls =
      Function.update (Function.update st.segCtrls c.originalSegment [p0, p1, c.aUid, c.point])
        c.newSegUid [c.point, c.cUid, p2, p3] := by
    simp [SplitSegment.execute, hctrl, hmem]
  have hps : (c.execute st).1.pathSegs =
      Function.update st.pathSegs c.path
        ((st.pathSegs c.path).insertIdx
          ((st.pathSegs c.path).indexOf c.originalSegment + 1) c.newSegUid) := by
    simp [SplitSegment.execute, hctrl, hmem]
  have hcc : (c.execute st).1.ctrl =
      Function.update
        (Function.update st.ctrl c.aUid (mkControl (midXY (st.ctrl p1) (st.ctrl c.point))))
        c.cUid (mkControl (midXY (st.ctrl p2) (st.ctrl c.point))) := by
    simp [SplitSegment.execute, hctrl, hmem]
  have hrec : (c.execute st).2 =
      { previousOriginalSegmentControls := [p0, p1, p2, p3],
        newOriginalSegmentControls := [p0, p1, c.aUid, c.point],
        newSegment := some c.newSegUid,
        entities := [c.aUid, c.point, c.cUid] } := by
    simp [SplitSegment.execute, hctrl, hmem]
  have hkfs : (c.execute st).1.segKfs = st.segKfs := by
    simp [SplitSegment.execute, hctrl, hmem]
  have hkf : (c.execute st).1.kf = st.kf := by
    simp [SplitSegment.execute, hctrl, hmem]
  have hpaths : (c.execute st).1.paths = st.paths := by
    simp [SplitSegment.execute, hctrl, hmem]
  have hle : (st.pathSegs c.path).indexOf c.originalSegment + 1 ≤ (st.pathSegs c.path).length :=
    hidx
  have hmem2 : c.newSegUid ∈ (st.pathSegs c.path).insertIdx
      ((st.pathSegs c.path).indexOf c.originalSegment + 1) c.newSegUid :=
    (List.mem_insertIdx hle).mpr (Or.inl rfl)
  have hio : ((st.pathSegs c.path).insertIdx
      ((st.pathSegs c.path).indexOf c.originalSegment + 1) c.newSegUid).indexOf c.newSegUid =
      (st.pathSegs c.path).indexOf c.originalSegment + 1 :=
    indexOf_insertIdx_self hfresh hle
  have hscOrig : (Function.update st.segCtrls c.newSegUid [c.point, c.cUid, p2, p3])
      c.originalSegment = [p0, p1, p2, p3] := by
    rw [Function.update_noteq hsegNe, hctrl]
  have hundo : c.undo (c.execute st).2 (c.execute st).1 =
      { st with
          ctrl := (c.execute st).1.ctrl,
          segCtrls := Function.update st.segCtrls c.newSegUid [c.point, c.cUid, p2, p3] } := by
    simp only [SplitSegment.undo, hrec]
    simp only [hps, hsc, Function.update_same, hmem2, if_true, hio,
      List.eraseIdx_insertIdx]
    refine GeomState.ext ?_ ?_ ?_ ?_ ?_ ?_ <;>
      simp only [hsc, hps, hkfs, hkf, hpaths]
    · rw [Function.update_comm hsegNe, Function.update_idem, ← hscOrig,
        Function.update_eq_self]
    · rw [Function.update_idem, Function.update_eq_self]
  refine ⟨?_, ?_, ?_, ?_, ?_, hundo, ?_⟩
  · rw [hsc, Function.update_noteq hsegNe, Function.update_same]
  · rw [hsc, Function.update_same]
  · rw [hps, Function.update_same]
  · rw [hcc, Function.update_noteq hac, Function.update_same]
  · rw [hcc, Function.update_same]
  · rw [hundo]
    simp only [SplitSegment.redo, hrec]
    simp only [hmem, if_true]
    refine GeomState.ext ?_ ?_ ?_ ?_ ?_ ?_ <;>
      simp only [hsc, hps, hcc, hkfs, hkf, hpaths]
    all_goals first
      | rfl
      | rw [Function.update_comm hsegNe]

/-- Concrete geometry for the split witness: one path (uid 1) holding one
cubic segment (uid 7) with controls 100-103. -/
def splitWitnessState : GeomState where
  ctrl := fun n => { x := (n : ℚ), y := 0 }
  segCtrls := fun n => if n = 7 then [100, 101, 102, 103] else []
  segKfs := fun _ => []
  kf := fun _ => default
  pathSegs := fun n => if n = 1 then [7] else []
  paths := [1]

def splitWitnessCmd : SplitSegment :=
  { path := 1, originalSegment := 7, point := 104, aUid := 200, cUid := 201,
    newSegUid := 8 }

theorem splitSegment_cubic_roundtrip_witness :
    (splitWitnessCmd.execute splitWitnessState).1.segCtrls 7 = [100, 101, 200, 104] ∧
    splitWitnessCmd.redo (splitWitnessCmd.execute splitWitnessState).2
      (splitWitnessCmd.undo (splitWitnessCmd.execute splitWitnessState).2
        (splitWitnessCmd.execute splitWitnessState).1) =
      (splitWitnessCmd.execute splitWitnessState).1 := by
  have h := splitSegment_cubic_roundtrip splitWitnessState splitWitnessCmd 100 101 102 103
    (by decide) (by decide) (by decide) (by decide) (by decide)
  exact ⟨h.1, h.2.2.2.2.2.2⟩

/-! ## RemovePathsAndEndControls (`Command.tsx` lines 594-734) -/

/-- One entry of the `affectedSegments` list recorded by
`RemovePathsAndEndControls.removeControl`. -/
structure RemoveRecord where
  index : Nat
  seg : Nat
  path : Nat
  linkNeeded : Bool
  deriving DecidableEq, Repr

/-- The search loop of `removeControl`: the first index whose segment has
the control as its `first` (pointer comparison) or which is the last
segment and has it as its `last`. -/
def findRemoveIdxAux (sc : Nat → List Nat) (control : Nat) :
    List Nat → Nat → Option Nat
  | [], _ => none
  | s :: rest, i =>
    if firstCu sc s = control ∨ (rest = [] ∧ lastCu sc s = control) then some i
    else findRemoveIdxAux sc control rest (i + 1)

/-- `removeControl`: finds the segment owning the control, repairs the link
(`prev.last = segment.last`, pointer assignment) when the control is the
first control of a non-first segment, and splices the segment out. -/
def removeControlStep (st : GeomState) (path control : Nat) :
    GeomState × Option RemoveRecord :=
  let segs := st.pathSegs path
  match findRemoveIdxAux st.segCtrls control segs 0 with
  | none => (st, none)
  | some i =>
    let s := segs.getD i 0
    let linkNeeded := decide (firstCu st.segCtrls s = control) && decide (i ≠ 0)
    let st1 :=
      if linkNeeded then
        let prev := segs.getD (i - 1) 0
        let v := setLast (st.segCtrls prev) (lastCu st.segCtrls s)
        { st with segCtrls := Function.update st.segCtrls prev v }
      else st
    ({ st1 with pathSegs := Function.update st1.pathSegs path (segs.eraseIdx i) },
     some ⟨i, s, path, linkNeeded⟩)

/-- The per-record part of `RemovePathsAndEndControls.undo`: re-insert the
segment at its recorded index, then restore the link
(`prev.last = segment.first`, pointer assignment). -/
def removeUndoStep (st : GeomState) (r : RemoveRecord) : GeomState :=
  let segs' := (st.pathSegs r.path).insertIdx r.index r.seg
  let st1 := { st with pathSegs := Function.update st.pathSegs r.path segs' }
  if r.linkNeeded then
    let prev := segs'.getD (r.index - 1) 0
    let v := setLast (st1.segCtrls prev) (firstCu st1.segCtrls r.seg)
    { st1 with segCtrls := Function.update st1.segCtrls prev v }
  else st1

/-- The per-record part of `RemovePathsAndEndControls.redo`: splice the
segment out at its recorded index and re-apply the link
(`prev.last = segment.last`). -/
def removeRedoStep (st : GeomState) (r : RemoveRecord) : GeomState :=
  let segs' := (st.pathSegs r.path).eraseIdx r.index
  let st1 := { st with pathSegs := Function.update st.pathSegs r.path segs' }
  if r.linkNeeded then
    let prev := segs'.getD (r.index - 1) 0
    let v := setLast (st1.segCtrls prev) (lastCu st1.segCtrls r.seg)
    { st1 with segCtrls := Function.update st1.segCtrls prev v }
  else st1

/-- `removePath`: locate the path in the collection (`indexOf`, no-op when
absent), splice it out and record its index. -/
def removePathStep (st : GeomState) (p : Nat) : GeomState × Option (Nat × Nat) :=
  if p ∈ st.paths then
    ({ st with paths := st.paths.eraseIdx (st.paths.indexOf p) },
     some (st.paths.indexOf p, p))
  else (st, none)

/-- The command's inputs after its constructor ran: the paths to remove and
the `(path, end control)` requests (the constructor only filters the uid
list into these two lists). -/
structure RemovePathsAndEndControls where
  removalPaths : List Nat
  removalEndControls : List (Nat × Nat)
  deriving DecidableEq, Repr

/-- The instance fields `execute` fills in (`affectedPaths`,
`affectedSegments`). -/
structure RemoveRecs where
  affectedPaths : List (Nat × Nat) := []
  affectedSegments : List RemoveRecord := []
  deriving DecidableEq, Repr

def removePathsPhase (st : GeomState) (ps : List Nat) :
    GeomState × List (Nat × Nat) :=
  ps.foldl (fun acc p =>
    match removePathStep acc.1 p with
    | (st', some r) => (st', acc.2 ++ [r])
    | (st', none) => (st', acc.2)) (st, [])

def removeControlsPhase (st : GeomState) (cs : List (Nat × Nat)) :
    GeomState × List RemoveRecord :=
  cs.foldl (fun acc pc =>
    match removeControlStep acc.1 pc.1 pc.2 with
    | (st', some r) => (st', acc.2 ++ [r])
    | (st', none) => (st', acc.2)) (st, [])

/-- `RemovePathsAndEndControls.execute`: all path removals, then all end
control removals; failed lookups are skipped and record nothing. -/
def RemovePathsAndEndControls.execute (c : RemovePathsAndEndControls)
    (st : GeomState) : GeomState × RemoveRecs :=
  let r1 := removePathsPhase st c.removalPaths
  let r2 := removeControlsPhase r1.1 c.removalEndControls
  (r2.1, { affectedPaths := r1.2, affectedSegments := r2.2 })

/-- `RemovePathsAndEndControls.undo`: walk `affectedPaths` backwards
re-inserting each path at its index, then walk `affectedSegments`
backwards re-inserting each segment and restoring the link. -/
def RemovePathsAndEndControls.undo (r : RemoveRecs) (st : GeomState) :
    GeomState :=
  let st1 := r.affectedPaths.reverse.foldl
    (fun st pr => { st with paths := st.paths.insertIdx pr.1 pr.2 }) st
  r.affectedSegments.reverse.foldl removeUndoStep st1

/-- `RemovePathsAndEndControls.redo`: replay the recorded removals in
order. -/
def RemovePathsAndEndControls.redo (r : RemoveRecs) (st : GeomState) :
    GeomState :=
  let st1 := r.affectedPaths.foldl
    (fun st pr => { st with paths := st.paths.eraseIdx pr.1 }) st
  r.affectedSegments.foldl removeRedoStep st1

/-! ### More list helpers -/

theorem setLast_getLastD {l : List Nat} (h : l ≠ []) : setLast l (l.getLastD 0) = l := by
  rw [setLast]
  rw [List.getLastD_eq_getLast?, List.getLast?_eq_getLast l h, Option.getD_some]
  exact List.dropLast_append_getLast h

theorem getLastD_setLast (l : List Nat) (c : Nat) : (setLast l c).getLastD 0 = c := by
  rw [setLast, List.getLastD_eq_getLast?, List.getLast?_concat, Option.getD_some]

theorem dropLast_setLast (l : List Nat) (c : Nat) : (setLast l c).dropLast = l.dropLast := by
  rw [setLast, List.dropLast_concat]

theorem headI_setLast {l : List Nat} (h : 2 ≤ l.length) (c : Nat) :
    (setLast l c).headI = l.headI := by
  match l, h with
  | a :: b :: t, _ => simp [setLast]

theorem insertIdx_eraseIdx_getD {l : List Nat} {i : Nat} (h : i < l.length) :
    (l.eraseIdx i).insertIdx i (l.getD i 0) = l := by
  induction l generalizing i with
  | nil => simp at h
  | cons x xs ih =>
    cases i with
    | zero => simp
    | succ m =>
      have hm : m < xs.length := Nat.lt_of_succ_lt_succ h
      rw [List.getD_cons_succ, List.eraseIdx_cons_succ, List.insertIdx_succ_cons, ih hm]

/-! ### Linked-chain lemmas -/

theorem chain'_congr_of_mem {R S : Nat → Nat → Prop} :
    ∀ {l : List Nat}, (∀ x ∈ l, ∀ y ∈ l, (R x y ↔ S x y)) →
      (List.Chain' R l ↔ List.Chain' S l)
  | [], _ => by simp
  | [_], _ => by simp
  | a :: b :: t, h => by
    rw [List.chain'_cons, List.chain'_cons]
    constructor
    · rintro ⟨hab, ht⟩
      refine ⟨(h a (by simp) b (by simp)).mp hab, ?_⟩
      exact (chain'_congr_of_mem fun x hx y hy =>
        h x (List.mem_cons_of_mem a hx) y (List.mem_cons_of_mem a hy)).mp ht
    · rintro ⟨hab, ht⟩
      refine ⟨(h a (by simp) b (by simp)).mpr hab, ?_⟩
      exact (chain'_congr_of_mem fun x hx y hy =>
        h x (List.mem_cons_of_mem a hx) y (List.mem_cons_of_mem a hy)).mpr ht

/-- The sharing invariant only looks at the control lists of the segments
in the list, so heaps agreeing there give the same invariant. -/
theorem linked_congr {sc sc' : Nat → List Nat} {l : List Nat}
    (h : ∀ x ∈ l, sc' x = sc x) : Linked sc' l ↔ Linked sc l :=
  chain'_congr_of_mem fun x hx y hy => by
    simp only [lastCu, firstCu, h x hx, h y hy]

theorem linked_update_notmem {sc : Nat → List Nat} {l : List Nat} {a : Nat}
    {v : List Nat} (ha : a ∉ l) :
    Linked (Function.update sc a v) l ↔ Linked sc l :=
  linked_congr fun x hx => by
    have hne : x ≠ a := fun heq => ha (heq ▸ hx)
    exact Function.update_noteq hne _ _

theorem linked_append_iff {sc : Nat → List Nat} {l₁ l₂ : List Nat} :
    Linked sc (l₁ ++ l₂) ↔
      Linked sc l₁ ∧ Linked sc l₂ ∧
        ∀ x ∈ l₁.getLast?, ∀ y ∈ l₂.head?, lastCu sc x = firstCu sc y :=
  List.chain'_append

theorem linked_tail {sc : Nat → List Nat} {a : Nat} {l : List Nat}
    (h : Linked sc (a :: l)) : Linked sc l :=
  (List.chain'_cons'.mp h).2

theorem linked_dropLast {sc : Nat → List Nat} {l : List Nat}
    (h : Linked sc l) : Linked sc l.dropLast := by
  have := List.Chain'.prefix h (l.dropLast_prefix)
  exact this

/-! ### removeControl characterization -/

theorem findRemoveIdxAux_spec (sc : Nat → List Nat) (control : Nat) :
    ∀ (l : List Nat) (k i : Nat), i < l.length →
      (firstCu sc (l.getD i 0) = control ∨
        (i = l.length - 1 ∧ lastCu sc (l.getD i 0) = control)) →
      (∀ j < i, firstCu sc (l.getD j 0) ≠ control) →
      findRemoveIdxAux sc control l k = some (k + i)
  | [], _, i, hi, _, _ => by simp at hi
  | s :: rest, k, 0, _, hq, _ => by
    have hcond : firstCu sc s = control ∨ (rest = [] ∧ lastCu sc s = control) := by
      rcases hq with h | ⟨h1, h2⟩
      · exact Or.inl h
      · refine Or.inr ⟨?_, h2⟩
        have h1' : rest.length = 0 := by simpa using h1.symm
        exact List.length_eq_zero.mp h1'
    simp [findRemoveIdxAux, hcond]
  | s :: rest, k, m + 1, hi, hq, hnot => by
    have hm : m < rest.length := Nat.lt_of_succ_lt_succ hi
    have hs : firstCu sc s ≠ control := by
      have := hnot 0 (Nat.succ_pos m)
      simpa using this
    have hrest : rest ≠ [] := by
      intro h
      rw [h] at hm; simp at hm
    have hcond : ¬ (firstCu sc s = control ∨ (rest = [] ∧ lastCu sc s = control)) := by
      rintro (h | ⟨h1, _⟩)
      · exact hs h
      · exact hrest h1
    have hq' : firstCu sc (rest.getD m 0) = control ∨
        (m = rest.length - 1 ∧ lastCu sc (rest.getD m 0) = control) := by
      rcases hq with h | ⟨h1, h2⟩
      · exact Or.inl (by simpa using h)
      · have hlen : (s :: rest).length = rest.length + 1 := by simp
        refine Or.inr ⟨by omega, by simpa using h2⟩
    have hnot' : ∀ j < m, firstCu sc (rest.getD j 0) ≠ control := by
      intro j hj
      have := hnot (j + 1) (Nat.succ_lt_succ hj)
      simpa using this
    have := findRemoveIdxAux_spec sc control rest (k + 1) m hm hq' hnot'
    simp only [findRemoveIdxAux, hcond, if_false]
    rw [this]
    congr 1
    omega

theorem removeControlStep_repair (st : GeomState) (p control i : Nat)
    (hi : i < (st.pathSegs p).length) (h1 : 1 ≤ i)
    (hfirst : firstCu st.segCtrls ((st.pathSegs p).getD i 0) = control)
    (hnot : ∀ j < i, firstCu st.segCtrls ((st.pathSegs p).getD j 0) ≠ control) :
    removeControlStep st p control =
      ({ st with
           segCtrls := Function.update st.segCtrls ((st.pathSegs p).getD (i - 1) 0)
             (setLast (st.segCtrls ((st.pathSegs p).getD (i - 1) 0))
               (lastCu st.segCtrls ((st.pathSegs p).getD i 0))),
           pathSegs := Function.update st.pathSegs p ((st.pathSegs p).eraseIdx i) },
       some ⟨i, (st.pathSegs p).getD i 0, p, true⟩) := by
  have hfind : findRemoveIdxAux st.segCtrls control (st.pathSegs p) 0 = some i := by
    simpa using findRemoveIdxAux_spec st.segCtrls control (st.pathSegs p) 0 i hi
      (Or.inl hfirst) hnot
  have hne : i ≠ 0 := by omega
  simp only [removeControlStep, hfind]
  have hcond : (decide (firstCu st.segCtrls ((st.pathSegs p).getD i 0) = control) &&
      decide (i ≠ 0)) = true := by
    rw [hfirst]; simp [hne]
  rw [hcond]
  simp

/-- Link-repair surgery: removing segment `i ≥ 1` after re-pointing
segment `i-1`'s last control at segment `i`'s last control keeps the
sharing invariant. -/
theorem take_succ_getElem {l : List Nat} {j : Nat} (hj : j < l.length) :
    l.take (j + 1) = l.take j ++ [l[j]] := by
  induction l generalizing j with
  | nil => simp at hj
  | cons x xs ih =>
    cases j with
    | zero => simp
    | succ m =>
      have ihm := ih (Nat.lt_of_succ_lt_succ hj)
      simp only [List.take_succ_cons, List.getElem_cons_succ, List.cons_append]
      rw [ihm]

theorem linked_eraseIdx_repair {sc : Nat → List Nat} {l : List Nat} {i : Nat}
    (hi : i < l.length) (h1 : 1 ≤ i) (hnodup : l.Nodup) (hlink : Linked sc l)
    (hplen : 2 ≤ (sc (l.getD (i - 1) 0)).length) :
    Linked (Function.update sc (l.getD (i - 1) 0)
        (setLast (sc (l.getD (i - 1) 0)) (lastCu sc (l.getD i 0))))
      (l.eraseIdx i) := by
  have hi1 : i - 1 < l.length := by omega
  have hd : l = l.take (i - 1) ++ l.getD (i - 1) 0 :: l.getD i 0 :: l.drop (i + 1) := by
    conv_lhs => rw [← List.take_append_drop (i - 1) l]
    congr 1
    rw [List.drop_eq_getElem_cons hi1, List.getD_eq_getElem l 0 hi1]
    congr 1
    have : i - 1 + 1 = i := by omega
    rw [this, List.drop_eq_getElem_cons hi, List.getD_eq_getElem l 0 hi]
  have he : l.eraseIdx i = l.take (i - 1) ++ l.getD (i - 1) 0 :: l.drop (i + 1) := by
    obtain ⟨j, rfl⟩ : ∃ j, i = j + 1 := ⟨i - 1, by omega⟩
    have hj : j < l.length := by omega
    simp only [Nat.add_sub_cancel]
    rw [List.eraseIdx_eq_take_drop_succ, List.getD_eq_getElem l 0 hj,
      take_succ_getElem hj, List.append_assoc, List.singleton_append]
  set prevSeg := l.getD (i - 1) 0 with hprev
  set s := l.getD i 0 with hs
  set A := l.take (i - 1) with hA
  set B := l.drop (i + 1) with hB
  set sc' := Function.update sc prevSeg (setLast (sc prevSeg) (lastCu sc s)) with hsc'
  have hnd : (A ++ prevSeg :: s :: B).Nodup := hd ▸ hnodup
  have hPrevNotA : prevSeg ∉ A := by
    intro hmem
    have := List.disjoint_of_nodup_append hnd
    exact this hmem (by simp)
  have hPrevNotB : prevSeg ∉ B := by
    have := (List.nodup_append.mp hnd).2.1
    simp only [List.nodup_cons] at this
    exact fun hmem => this.1 (by simp [hmem])
  have hPrevNeS : prevSeg ≠ s := by
    have := (List.nodup_append.mp hnd).2.1
    simp only [List.nodup_cons] at this
    exact fun heq => this.1 (by simp [heq])
  have hlink' : Linked sc (A ++ prevSeg :: s :: B) := hd ▸ hlink
  rw [he]
  rw [Linked, List.chain'_append] at hlink' ⊢
  obtain ⟨hA1, hmid, hbridge⟩ := hlink'
  rw [List.chain'_cons'] at hmid
  obtain ⟨hps, hmid2⟩ := hmid
  rw [List.chain'_cons'] at hmid2
  obtain ⟨hsB, hBchain⟩ := hmid2
  have hscPrev : sc' prevSeg = setLast (sc prevSeg) (lastCu sc s) := by
    rw [hsc', Function.update_same]
  have hscOther : ∀ x, x ≠ prevSeg → sc' x = sc x := fun x hx => by
    rw [hsc', Function.update_noteq hx]
  refine ⟨?_, ?_, ?_⟩
  · -- chain within A is untouched
    have : Linked sc' A ↔ Linked sc A :=
      linked_congr fun x hx => hscOther x (fun heq => hPrevNotA (heq ▸ hx))
    exact this.mpr hA1
  · -- chain from the repaired prev into B
    rw [List.chain'_cons']
    constructor
    · intro y hy
      have hyB : y ∈ B := List.mem_of_mem_head? hy
      have hyne : y ≠ prevSeg := fun heq => hPrevNotB (heq ▸ hyB)
      have h1' : lastCu sc' prevSeg = lastCu sc s := by
        rw [lastCu, hscPrev, getLastD_setLast, lastCu]
      have h2' : firstCu sc' y = firstCu sc y := by
        rw [firstCu, hscOther y hyne, firstCu]
      rw [h1', h2']
      exact hsB y hy
    · have : Linked sc' B ↔ Linked sc B :=
        linked_congr fun x hx => hscOther x (fun heq => hPrevNotB (heq ▸ hx))
      exact this.mpr hBchain
  · -- bridge from A to the repaired prev
    intro x hx y hy
    have hxA : x ∈ A := List.mem_of_mem_getLast? hx
    have hxne : x ≠ prevSeg := fun heq => hPrevNotA (heq ▸ hxA)
    have hy' : prevSeg = y := by simpa using hy
    subst hy'
    have h1' : lastCu sc' x = lastCu sc x := by
      rw [lastCu, hscOther x hxne, lastCu]
    have h2' : firstCu sc' prevSeg = firstCu sc prevSeg := by
      rw [firstCu, hscPrev, headI_setLast hplen, firstCu]
    rw [h1', h2']
    exact hbridge x hx prevSeg (by simp)

/-- C1: with at least two segments, removing the end control shared
between segment `i-1` and segment `i` (`i ≥ 1`) deletes segment `i`,
re-points segment `i-1`'s last control at segment `i`'s former last
control (recording `linkNeeded`), keeps the path linked, and `undo`
restores the exact original state: the same segment uid at the same
index and the pre-splice shared endpoint. -/
theorem removePathsAndEndControls_linkRepair_roundtrip
    (st : GeomState) (p control i : Nat)
    (hlen2 : 2 ≤ (st.pathSegs p).length)
    (hi : i < (st.pathSegs p).length) (h1 : 1 ≤ i)
    (hfirst : firstCu st.segCtrls ((st.pathSegs p).getD i 0) = control)
    (hshared : lastCu st.segCtrls ((st.pathSegs p).getD (i - 1) 0) = control)
    (hnot : ∀ j < i, firstCu st.segCtrls ((st.pathSegs p).getD j 0) ≠ control)
    (hnodup : (st.pathSegs p).Nodup)
    (hlink : Linked st.segCtrls (st.pathSegs p))
    (hplen : 2 ≤ (st.segCtrls ((st.pathSegs p).getD (i - 1) 0)).length) :
    (RemovePathsAndEndControls.execute ⟨[], [(p, control)]⟩ st).2 =
      ⟨[], [⟨i, (st.pathSegs p).getD i 0, p, true⟩]⟩ ∧
    (RemovePathsAndEndControls.execute ⟨[], [(p, control)]⟩ st).1.pathSegs p =
      (st.pathSegs p).eraseIdx i ∧
    (RemovePathsAndEndControls.execute ⟨[], [(p, control)]⟩ st).1.segCtrls
        ((st.pathSegs p).getD (i - 1) 0) =
      setLast (st.segCtrls ((st.pathSegs p).getD (i - 1) 0))
        (lastCu st.segCtrls ((st.pathSegs p).getD i 0)) ∧
    lastCu (RemovePathsAndEndControls.execute ⟨[], [(p, control)]⟩ st).1.segCtrls
        ((st.pathSegs p).getD (i - 1) 0) =
      lastCu st.segCtrls ((st.pathSegs p).getD i 0) ∧
    Linked (RemovePathsAndEndControls.execute ⟨[], [(p, control)]⟩ st).1.segCtrls
      ((RemovePathsAndEndControls.execute ⟨[], [(p, control)]⟩ st).1.pathSegs p) ∧
    RemovePathsAndEndControls.undo
      (RemovePathsAndEndControls.execute ⟨[], [(p, control)]⟩ st).2
      (RemovePathsAndEndControls.execute ⟨[], [(p, control)]⟩ st).1 = st := by
  have hi1 : i - 1 < (st.pathSegs p).length := by omega
  have hstep := removeControlStep_repair st p control i hi h1 hfirst hnot
  have hne : (st.pathSegs p).getD (i - 1) 0 ≠ (st.pathSegs p).getD i 0 := by
    rw [List.getD_eq_getElem _ 0 hi1, List.getD_eq_getElem _ 0 hi]
    intro h
    have := (List.Nodup.getElem_inj_iff hnodup).mp h
    omega
  have hexe : RemovePathsAndEndControls.execute ⟨[], [(p, control)]⟩ st =
      ({ st with
           segCtrls := Function.update st.segCtrls ((st.pathSegs p).getD (i - 1) 0)
             (setLast (st.segCtrls ((st.pathSegs p).getD (i - 1) 0))
               (lastCu st.segCtrls ((st.pathSegs p).getD i 0))),
           pathSegs := Function.update st.pathSegs p ((st.pathSegs p).eraseIdx i) },
       ⟨[], [⟨i, (st.pathSegs p).getD i 0, p, true⟩]⟩) := by
    simp [RemovePathsAndEndControls.execute, removePathsPhase, removeControlsPhase, hstep]
  rw [hexe]
  have hscPrev : (Function.update st.segCtrls ((st.pathSegs p).getD (i - 1) 0)
      (setLast (st.segCtrls ((st.pathSegs p).getD (i - 1) 0))
        (lastCu st.segCtrls ((st.pathSegs p).getD i 0))))
      ((st.pathSegs p).getD (i - 1) 0) =
      setLast (st.segCtrls ((st.pathSegs p).getD (i - 1) 0))
        (lastCu st.segCtrls ((st.pathSegs p).getD i 0)) := Function.update_same _ _ _
  refine ⟨rfl, by simp, by simpa using hscPrev, ?_, ?_, ?_⟩
  · have hgoal : lastCu (Function.update st.segCtrls ((st.pathSegs p).getD (i - 1) 0)
        (setLast (st.segCtrls ((st.pathSegs p).getD (i - 1) 0))
          (lastCu st.segCtrls ((st.pathSegs p).getD i 0))))
        ((st.pathSegs p).getD (i - 1) 0) = lastCu st.segCtrls ((st.pathSegs p).getD i 0) := by
      rw [lastCu, hscPrev, getLastD_setLast]
    exact hgoal
  · simp only [Function.update_same]
    exact linked_eraseIdx_repair hi h1 hnodup hlink hplen
  · -- undo restores the original state exactly
    simp only [RemovePathsAndEndControls.undo, List.reverse_cons, List.reverse_nil,
      List.nil_append, List.foldl_cons, List.foldl_nil]
    have hsegs' : (Function.update st.pathSegs p ((st.pathSegs p).eraseIdx i)) p =
        (st.pathSegs p).eraseIdx i :=
      Function.update_same _ _ _
    have hins : List.insertIdx i ((st.pathSegs p).getD i 0)
        ((st.pathSegs p).eraseIdx i) = st.pathSegs p :=
      insertIdx_eraseIdx_getD hi
    have hv : setLast
        (setLast (st.segCtrls ((st.pathSegs p).getD (i - 1) 0))
          (lastCu st.segCtrls ((st.pathSegs p).getD i 0))) control =
        st.segCtrls ((st.pathSegs p).getD (i - 1) 0) := by
      rw [setLast, dropLast_setLast, ← setLast, ← hshared, lastCu, setLast_getLastD]
      intro hempty
      rw [hempty] at hplen
      simp at hplen
    have hfc : firstCu (Function.update st.segCtrls ((st.pathSegs p).getD (i - 1) 0)
        (setLast (st.segCtrls ((st.pathSegs p).getD (i - 1) 0))
          (lastCu st.segCtrls ((st.pathSegs p).getD i 0))))
        ((st.pathSegs p).getD i 0) = control := by
      rw [firstCu, Function.update_noteq hne.symm]
      exact hfirst
    have hbig : (List.insertIdx i ((st.pathSegs p).getD i 0)
        (Function.update st.pathSegs p ((st.pathSegs p).eraseIdx i) p)).getD (i - 1) 0 =
        (st.pathSegs p).getD (i - 1) 0 := by
      rw [hsegs', hins]
    simp only [removeUndoStep, hbig, hsegs', hins, Function.update_same, if_true]
    refine GeomState.ext rfl ?_ rfl rfl ?_ rfl
    · rw [hbig]
      simp only [Function.update_same, hfc, hv, Function.update_idem]
      exact Function.update_eq_self _ _
    · simp only [Function.update_idem]
      exact Function.update_eq_self _ _

/-- Concrete geometry for the link-repair witness: path 1 holds segments
10 and 11 sharing end control 101. -/
def removeWitnessState : GeomState where
  ctrl := fun n => { x := (n : ℚ), y := 0 }
  segCtrls := fun n => if n = 10 then [100, 101] else if n = 11 then [101, 102] else []
  segKfs := fun _ => []
  kf := fun _ => default
  pathSegs := fun n => if n = 1 then [10, 11] else []
  paths := [1]

theorem removePathsAndEndControls_linkRepair_roundtrip_witness :
    (RemovePathsAndEndControls.execute ⟨[], [(1, 101)]⟩ removeWitnessState).2 =
      ⟨[], [⟨1, 11, 1, true⟩]⟩ ∧
    RemovePathsAndEndControls.undo
      (RemovePathsAndEndControls.execute ⟨[], [(1, 101)]⟩ removeWitnessState).2
      (RemovePathsAndEndControls.execute ⟨[], [(1, 101)]⟩ removeWitnessState).1 =
      removeWitnessState := by
  have h := removePathsAndEndControls_linkRepair_roundtrip removeWitnessState 1 101 1
    (by decide) (by decide) (by decide) (by decide) (by decide)
    (by decide) (by decide) (by decide) (by decide)
  exact ⟨h.1, h.2.2.2.2.2⟩

/-! ## CommandHistory (`Command.tsx` lines 5-122) -/

/-- A history entry (`Execution` in the source): title, command, timestamp
(`Date.now()`, passed in explicitly here) and merge timeout. -/
structure Execution (C : Type) where
  title : String
  command : C
  time : Int
  mergeTimeout : Int
  deriving DecidableEq, Repr

/-- How the history sees commands: whether a `merge` method exists
(`isMergeable`, duck-typed property probe), what `pending.merge(new)` does
(`none` models returning `false`, `some m` models returning `true` with
the pending command mutated to `m`), the document mutations
`execute`/`undo`/`redo` perform, and the `entities` list (`none` when the
command is not an `InteractiveEntitiesCommand`). -/
structure CmdSpec (C D : Type) where
  mergeable : C → Bool
  merge : C → C → Option C
  run : C → D → D
  runUndo : C → D → D
  runRedo : C → D → D
  entities : C → Option (List Nat)

/-- `CommandHistory` state: the pending entry (`lastExecution`), the undo
stack (`history`), the redo stack (`redoHistory`), the modification
counter (`saveStepCounter`), plus the document the commands mutate and
the app selection (`app.setSelected`). -/
structure CommandHistory (C D : Type) where
  lastExecution : Option (Execution C) := none
  history : List C := []
  redoHistory : List C := []
  saveStepCounter : Int := 0
  doc : D
  selected : List Nat := []
  deriving DecidableEq

/-- `CommandHistory.commit`: flush the pending entry onto the undo stack,
bump the counter, and drop the oldest entry (`shift`) when over
`appPreferences.maxHistory`. -/
def commitH {C D : Type} (maxHistory : Nat) (s : CommandHistory C D) :
    CommandHistory C D :=
  match s.lastExecution with
  | none => s
  | some e =>
    let h := s.history ++ [e.command]
    { s with
        history := if maxHistory < h.length then h.tail else h,
        saveStepCounter := s.saveStepCounter + 1,
        lastExecution := none }

/-- `CommandHistory.execute`: run the command, then fold it into the
pending entry when the titles match, both commands are mergeable, the
elapsed time is strictly below the merge timeout and `pending.merge(new)`
returns true — otherwise commit the pending entry and make the new
command pending.  The source also compares
`typeof exe.command === typeof this.lastExecution.command`; for any two
class instances JS `typeof` yields `"object"`, so that comparison is
always true and contributes no condition.  The redo stack is cleared in
both cases. -/
def executeH {C D : Type} (spec : CmdSpec C D) (maxHistory : Nat)
    (s : CommandHistory C D) (title : String) (command : C) (now : Int)
    (mergeTimeout : Int) : CommandHistory C D :=
  let s0 := { s with doc := spec.run command s.doc }
  let merged : Option (CommandHistory C D) :=
    match s0.lastExecution with
    | none => none
    | some last =>
      if title = last.title ∧ spec.mergeable command = true ∧
          spec.mergeable last.command = true ∧ now - last.time < mergeTimeout then
        match spec.merge last.command command with
        | some m =>
          some { s0 with lastExecution := some { last with command := m, time := now } }
        | none => none
      else none
  match merged with
  | some s' => { s' with redoHistory := [] }
  | none =>
    let s1 := commitH maxHistory s0
    { s1 with
        lastExecution := some { title := title, command := command, time := now,
                                mergeTimeout := mergeTimeout },
        redoHistory := [] }

/-- `CommandHistory.undo`: commit first, then pop the undo stack, run the
command's `undo`, push it onto the redo stack, decrement the counter and
update the selection when the command reports entities. -/
def undoH {C D : Type} (spec : CmdSpec C D) (maxHistory : Nat)
    (s : CommandHistory C D) : CommandHistory C D :=
  let s1 := commitH maxHistory s
  match s1.history.getLast? with
  | none => s1
  | some command =>
    let s2 := { s1 with
        history := s1.history.dropLast,
        doc := spec.runUndo command s1.doc,
        redoHistory := s1.redoHistory ++ [command],
        saveStepCounter := s1.saveStepCounter - 1 }
    match spec.entities command with
    | some es => { s2 with selected := es }
    | none => s2

/-- `CommandHistory.redo`: pop the redo stack, run the command's `redo`,
push it back onto the undo stack (no capacity trim here), increment the
counter and update the selection. -/
def redoH {C D : Type} (spec : CmdSpec C D) (s : CommandHistory C D) :
    CommandHistory C D :=
  match s.redoHistory.getLast? with
  | none => s
  | some command =>
    let s1 := { s with
        redoHistory := s.redoHistory.dropLast,
        doc := spec.runRedo command s.doc,
        history := s.history ++ [command],
        saveStepCounter := s.saveStepCounter + 1 }
    match spec.entities command with
    | some es => { s1 with selected := es }
    | none => s1

/-- `CommandHistory.save`: commit, then reset the counter. -/
def saveH {C D : Type} (maxHistory : Nat) (s : CommandHistory C D) :
    CommandHistory C D :=
  { commitH maxHistory s with saveStepCounter := 0 }

/-- `CommandHistory.isModified`: commit, then report whether the counter
is nonzero; returns the post-commit state together with the answer. -/
def isModifiedH {C D : Type} (maxHistory : Nat) (s : CommandHistory C D) :
    CommandHistory C D × Bool :=
  let s1 := commitH maxHistory s
  (s1, decide (s1.saveStepCounter ≠ 0))

/-- The public operations a caller can interleave. -/
inductive HistOp (C : Type) where
  | execute (title : String) (command : C) (now : Int) (mergeTimeout : Int)
  | commit
  | undo
  | redo
  | save
  | isModified

def applyOp {C D : Type} (spec : CmdSpec C D) (maxHistory : Nat)
    (s : CommandHistory C D) : HistOp C → CommandHistory C D
  | .execute t c now mt => executeH spec maxHistory s t c now mt
  | .commit => commitH maxHistory s
  | .undo => undoH spec maxHistory s
  | .redo => redoH spec s
  | .save => saveH maxHistory s
  | .isModified => (isModifiedH maxHistory s).1

def applyOps {C D : Type} (spec : CmdSpec C D) (maxHistory : Nat)
    (s : CommandHistory C D) (ops : List (HistOp C)) : CommandHistory C D :=
  ops.foldl (applyOp spec maxHistory) s

/-- The reachable-state invariant behind the capacity bound: a pending
entry implies an empty redo stack, and the two stacks together never
exceed the capacity. -/
def HistInv {C D : Type} (maxHistory : Nat) (s : CommandHistory C D) : Prop :=
  (s.lastExecution.isSome → s.redoHistory = []) ∧
  s.history.length + s.redoHistory.length ≤ maxHistory

/-- C10: `undo()` with no pending entry and an empty undo stack, and
`redo()` with an empty redo stack, are safe no-ops at the public
interface: the whole state — document (geometry graph), both stacks,
modification counter and selection — is returned unchanged and no
exception can occur (the operations are total). -/
theorem commandHistory_undo_redo_empty_noop {C D : Type} (spec : CmdSpec C D)
    (maxHistory : Nat) (s : CommandHistory C D) :
    (s.lastExecution = none → s.history = [] → undoH spec maxHistory s = s) ∧
    (s.redoHistory = [] → redoH spec s = s) := by
  constructor
  · intro hpend hhist
    simp [undoH, commitH, hpend, hhist]
  · intro hredo
    simp [redoH, hredo]

def unitSpec : CmdSpec Unit Unit where
  mergeable := fun _ => false
  merge := fun _ _ => none
  run := fun _ d => d
  runUndo := fun _ d => d
  runRedo := fun _ d => d
  entities := fun _ => none

def emptyUnitHistory : CommandHistory Unit Unit where
  doc := ()

theorem commandHistory_undo_redo_empty_noop_witness :
    undoH unitSpec 50 emptyUnitHistory = emptyUnitHistory ∧
    redoH unitSpec emptyUnitHistory = emptyUnitHistory := by
  have h := commandHistory_undo_redo_empty_noop unitSpec 50 emptyUnitHistory
  exact ⟨h.1 (by decide) (by decide), h.2 (by decide)⟩

/-- Two different concrete command classes for the merge demonstration:
`shape 0` stands for `UpdateInstancesProperties` (whose `merge` returns
true unconditionally and with an empty target list touches nothing) and
`shape 1` for a command of a different class, e.g. `DragControls`. -/
structure DemoCmd where
  shape : Nat
  deriving DecidableEq, Repr

def demoSpec : CmdSpec DemoCmd Unit where
  mergeable := fun _ => true
  merge := fun pending _new => some pending
  run := fun _ d => d
  runUndo := fun _ d => d
  runRedo := fun _ d => d
  entities := fun _ => none

/-- The pending entry: an `UpdateInstancesProperties([], {})`-like command
executed under title "X" at time 0 with the default 500 ms window. -/
def demoPending : CommandHistory DemoCmd Unit where
  lastExecution := some { title := "X", command := { shape := 0 }, time := 0,
                          mergeTimeout := 500 }
  doc := ()

/-- C3 (code bug): executing a command of a *different concrete class*
(shape 1) with the same title inside the merge window folds it into the
pending entry (only the pending entry's timestamp changes and nothing is
committed), because `typeof exe.command === typeof last.command` compares
`"object"` with `"object"` and `UpdateInstancesProperties.merge` returns
true unconditionally — the same-concrete-class condition the claim states
is never enforced by the code. -/
theorem commandHistory_merge_ignores_concrete_class :
    ({ shape := 0 } : DemoCmd).shape ≠ ({ shape := 1 } : DemoCmd).shape ∧
    executeH demoSpec 50 demoPending "X" { shape := 1 } 100 500 =
      { demoPending with
          lastExecution := some { title := "X", command := { shape := 0 }, time := 100,
                                  mergeTimeout := 500 } } := by
  constructor
  · decide
  · rfl

theorem commitH_lastExecution_none {C D : Type} (N : Nat) (s : CommandHistory C D) :
    (commitH N s).lastExecution = none ∨ commitH N s = s := by
  match hs : s.lastExecution with
  | none => right; simp [commitH, hs]
  | some e => left; simp [commitH, hs]

theorem commitH_pending_none {C D : Type} (N : Nat) (s : CommandHistory C D)
    (h : s.lastExecution = none) : commitH N s = s := by
  simp [commitH, h]

theorem saveH_lastExecution {C D : Type} (N : Nat) (s : CommandHistory C D) :
    (saveH N s).lastExecution = none := by
  unfold saveH commitH
  match hs : s.lastExecution with
  | none => simp [hs]
  | some e => simp [hs]

theorem list_trim_getLast? {α : Type} (l : List α) (c : α) (N : Nat) (hN : 1 ≤ N) :
    (if N < (l ++ [c]).length then (l ++ [c]).tail else l ++ [c]).getLast? = some c := by
  split
  · next hlt =>
    cases l with
    | nil =>
      simp only [List.nil_append, List.length_cons, List.length_nil] at hlt
      omega
    | cons a t =>
      simp [List.getLast?_concat]
  · next => simp [List.getLast?_concat]

theorem undoH_counter_nil {C D : Type} (spec : CmdSpec C D) (N : Nat)
    (s : CommandHistory C D) (h : (commitH N s).history = []) :
    (undoH spec N s).saveStepCounter = (commitH N s).saveStepCounter := by
  unfold undoH
  have hl : (commitH N s).history.getLast? = none := by simp [h]
  simp [hl]

theorem undoH_counter_pop {C D : Type} (spec : CmdSpec C D) (N : Nat)
    (s : CommandHistory C D) (h : (commitH N s).history ≠ []) :
    (undoH spec N s).saveStepCounter = (commitH N s).saveStepCounter - 1 := by
  unfold undoH
  match hl : (commitH N s).history.getLast? with
  | none =>
    exact absurd (by simpa using hl) h
  | some cmd =>
    cases he : spec.entities cmd <;> simp [hl, he]

theorem redoH_counter_nil {C D : Type} (spec : CmdSpec C D)
    (s : CommandHistory C D) (h : s.redoHistory = []) :
    (redoH spec s).saveStepCounter = s.saveStepCounter := by
  unfold redoH
  have hl : s.redoHistory.getLast? = none := by simp [h]
  simp [hl]

theorem redoH_counter_pop {C D : Type} (spec : CmdSpec C D)
    (s : CommandHistory C D) (h : s.redoHistory ≠ []) :
    (redoH spec s).saveStepCounter = s.saveStepCounter + 1 := by
  unfold redoH
  match hl : s.redoHistory.getLast? with
  | none =>
    exact absurd (by simpa using hl) h
  | some cmd =>
    cases he : spec.entities cmd <;> simp [hl, he]

/-- C8: `isModified()` first commits the pending entry and then reports
whether the net modification counter is nonzero; the counter is bumped by
every commit of a pending entry and by every (non-empty) redo,
decremented by every (non-empty) undo, and reset by `save()`.
Consequently `isModified()` is false right after `save()`, true after a
newly executed command is committed, false again after undoing back to
the save point, and across interleaved undo/redo around a save it is true
one step below the save point and false after redoing back — all driven
by the counter, not by the undo stack being empty. -/
theorem commandHistory_isModified_counter {C D : Type} (spec : CmdSpec C D)
    (N : Nat) :
    (∀ s : CommandHistory C D,
      isModifiedH N s = (commitH N s, decide ((commitH N s).saveStepCounter ≠ 0))) ∧
    (∀ s : CommandHistory C D,
      (saveH N s).saveStepCounter = 0 ∧ (isModifiedH N (saveH N s)).2 = false) ∧
    (∀ (s : CommandHistory C D) (e : Execution C), s.lastExecution = some e →
      (commitH N s).saveStepCounter = s.saveStepCounter + 1) ∧
    (∀ s : CommandHistory C D, s.lastExecution = none → commitH N s = s) ∧
    (∀ s : CommandHistory C D, (commitH N s).history = [] →
      (undoH spec N s).saveStepCounter = (commitH N s).saveStepCounter) ∧
    (∀ s : CommandHistory C D, (commitH N s).history ≠ [] →
      (undoH spec N s).saveStepCounter = (commitH N s).saveStepCounter - 1) ∧
    (∀ s : CommandHistory C D, s.redoHistory = [] →
      (redoH spec s).saveStepCounter = s.saveStepCounter) ∧
    (∀ s : CommandHistory C D, s.redoHistory ≠ [] →
      (redoH spec s).saveStepCounter = s.saveStepCounter + 1) ∧
    (∀ (s : CommandHistory C D) (t : String) (c : C) (now mt : Int),
      (isModifiedH N (executeH spec N (saveH N s) t c now mt)).2 = true) ∧
    (∀ (s : CommandHistory C D) (t : String) (c : C) (now mt : Int), 1 ≤ N →
      (isModifiedH N (undoH spec N (executeH spec N (saveH N s) t c now mt))).2 = false) ∧
    (∀ s : CommandHistory C D, (saveH N s).history ≠ [] →
      (isModifiedH N (undoH spec N (saveH N s))).2 = true ∧
      (isModifiedH N (redoH spec (undoH spec N (saveH N s)))).2 = false) := by
  have hsavePend : ∀ s : CommandHistory C D, (saveH N s).lastExecution = none :=
    saveH_lastExecution N
  have hsaveCtr : ∀ s : CommandHistory C D, (saveH N s).saveStepCounter = 0 := by
    intro s; simp [saveH]
  have hexecPend : ∀ (s : CommandHistory C D) t c now mt,
      s.lastExecution = none →
      executeH spec N s t c now mt =
        { s with
            doc := spec.run c s.doc,
            lastExecution := some { title := t, command := c, time := now,
                                    mergeTimeout := mt },
            redoHistory := [] } := by
    intro s t c now mt hp
    unfold executeH
    simp only [hp]
    rw [commitH_pending_none]
    simp [hp]
  refine ⟨fun s => rfl, ?_, ?_, ?_, undoH_counter_nil spec N, undoH_counter_pop spec N,
    redoH_counter_nil spec, redoH_counter_pop spec, ?_, ?_, ?_⟩
  · intro s
    refine ⟨hsaveCtr s, ?_⟩
    rw [isModifiedH]
    simp [commitH_pending_none N (saveH N s) (hsavePend s), hsaveCtr s]
  · intro s e he
    simp [commitH, he]
  · intro s hp
    exact commitH_pending_none N s hp
  · -- modified right after save-then-execute
    intro s t c now mt
    rw [hexecPend (saveH N s) t c now mt (hsavePend s)]
    rw [isModifiedH]
    simp [commitH, hsaveCtr s]
  · -- undoing the committed command returns to the save point
    intro s t c now mt hN
    set S := saveH N s with hS
    rw [hexecPend S t c now mt (hsavePend s)]
    rw [isModifiedH]
    unfold undoH
    simp only [commitH]
    have hlast := list_trim_getLast? S.history c N hN
    have hSctr : S.saveStepCounter = 0 := hsaveCtr s
    simp only [hlast]
    cases he : spec.entities c <;>
      simp [he, commitH, hSctr]
  · -- undo below the save point, then redo back
    intro s hne
    set S := saveH N s with hS
    have hcommitS : commitH N S = S := commitH_pending_none N S (hsavePend s)
    have hSpend : S.lastExecution = none := hsavePend s
    have hSctr : S.saveStepCounter = 0 := hsaveCtr s
    constructor
    · rw [isModifiedH]
      have h1 : (undoH spec N S).saveStepCounter = S.saveStepCounter - 1 := by
        rw [undoH_counter_pop spec N S (by rw [hcommitS]; exact hne), hcommitS]
      have h2 : (undoH spec N S).lastExecution = none := by
        unfold undoH
        rw [hcommitS]
        match hl : S.history.getLast? with
        | none => simp [List.getLast?_eq_none_iff] at hl; exact absurd hl hne
        | some cmd =>
          cases he : spec.entities cmd <;> simp [hl, he, hSpend]
      rw [commitH_pending_none N _ h2, h1, hSctr]
      rfl
    · rw [isModifiedH]
      have h2 : (undoH spec N S).lastExecution = none := by
        unfold undoH
        rw [hcommitS]
        match hl : S.history.getLast? with
        | none => simp [List.getLast?_eq_none_iff] at hl; exact absurd hl hne
        | some cmd =>
          cases he : spec.entities cmd <;> simp [hl, he, hSpend]
      have h1 : (undoH spec N S).saveStepCounter = S.saveStepCounter - 1 := by
        rw [undoH_counter_pop spec N S (by rw [hcommitS]; exact hne), hcommitS]
      have h3 : (undoH spec N S).redoHistory ≠ [] := by
        unfold undoH
        rw [hcommitS]
        match hl : S.history.getLast? with
        | none => simp [List.getLast?_eq_none_iff] at hl; exact absurd hl hne
        | some cmd =>
          cases he : spec.entities cmd <;> simp [hl, he]
      have h4 : (redoH spec (undoH spec N S)).saveStepCounter = S.saveStepCounter := by
        rw [redoH_counter_pop spec _ h3, h1]
        omega
      have h5 : (redoH spec (undoH spec N S)).lastExecution = none := by
        unfold redoH
        match hl : (undoH spec N S).redoHistory.getLast? with
        | none => simp [h2]
        | some cmd =>
          cases he : spec.entities cmd <;> simp [hl, he, h2]
      rw [commitH_pending_none N _ h5, h4, hSctr]
      rfl

def c8WitnessState : CommandHistory Unit Unit where
  history := [()]
  doc := ()

theorem commandHistory_isModified_counter_witness :
    (isModifiedH 50 (undoH unitSpec 50 (executeH unitSpec 50
      (saveH 50 c8WitnessState) "T" () 0 500))).2 = false ∧
    (isModifiedH 50 (undoH unitSpec 50 (saveH 50 c8WitnessState))).2 = true ∧
    (isModifiedH 50 (redoH unitSpec (undoH unitSpec 50 (saveH 50 c8WitnessState)))).2 =
      false := by
  have h := commandHistory_isModified_counter unitSpec 50
  have h10 := h.2.2.2.2.2.2.2.2.2.1 c8WitnessState "T" () 0 500 (by decide)
  have h11 := h.2.2.2.2.2.2.2.2.2.2 c8WitnessState (by decide)
  exact ⟨h10, h11.1, h11.2⟩

theorem commitH_lastExecution {C D : Type} (N : Nat) (s : CommandHistory C D) :
    (commitH N s).lastExecution = s.lastExecution ∨
      (commitH N s).lastExecution = none := by
  match hs : s.lastExecution with
  | none => left; rw [commitH_pending_none N s hs, hs]
  | some e => right; simp [commitH, hs]

theorem commitH_pend_none {C D : Type} (N : Nat) (s : CommandHistory C D) :
    (commitH N s).lastExecution = none := by
  match hs : s.lastExecution with
  | none => rw [commitH_pending_none N s hs]; exact hs
  | some e => simp [commitH, hs]

theorem commitH_redoHistory {C D : Type} (N : Nat) (s : CommandHistory C D) :
    (commitH N s).redoHistory = s.redoHistory := by
  match hs : s.lastExecution with
  | none => rw [commitH_pending_none N s hs]
  | some e => simp [commitH, hs]

theorem commitH_inv {C D : Type} {N : Nat} {s : CommandHistory C D}
    (h : HistInv N s) : HistInv N (commitH N s) := by
  obtain ⟨h1, h2⟩ := h
  match hs : s.lastExecution with
  | none => rw [commitH_pending_none N s hs]; exact ⟨h1, h2⟩
  | some e =>
    have hred : s.redoHistory = [] := h1 (by simp [hs])
    constructor
    · intro hp
      rw [commitH_pend_none] at hp
      simp at hp
    · rw [commitH_redoHistory, hred]
      simp only [commitH, hs]
      rw [hred] at h2
      simp only [List.length_nil, Nat.add_zero] at h2 ⊢
      split
      · next hlt =>
        rw [List.length_tail]
        simp only [List.length_append, List.length_cons, List.length_nil]
        omega
      · next hge =>
        simp only [List.length_append, List.length_cons, List.length_nil] at hge ⊢
        omega

theorem commitH_len {C D : Type} {N : Nat} {s : CommandHistory C D}
    (h : HistInv N s) : (commitH N s).history.length ≤ N := by
  have := (commitH_inv h).2
  omega

theorem executeH_inv {C D : Type} (spec : CmdSpec C D) {N : Nat}
    {s : CommandHistory C D} (h : HistInv N s)
    (t : String) (c : C) (now mt : Int) :
    HistInv N (executeH spec N s t c now mt) := by
  have hhist : s.history.length + s.redoHistory.length ≤ N := h.2
  simp only [executeH]
  match hs : s.lastExecution with
  | none =>
    simp only [hs]
    simp only [commitH]
    refine ⟨fun _ => rfl, ?_⟩
    simp only [List.length_nil, Nat.add_zero]
    omega
  | some last =>
    simp only [hs]
    by_cases hcond : t = last.title ∧ spec.mergeable c = true ∧
        spec.mergeable last.command = true ∧ now - last.time < mt
    · rw [if_pos hcond]
      match hm : spec.merge last.command c with
      | some m =>
        refine ⟨fun _ => rfl, ?_⟩
        simp only [List.length_nil, Nat.add_zero]
        omega
      | none =>
        refine ⟨fun _ => rfl, ?_⟩
        simp only [commitH, List.length_nil, Nat.add_zero]
        split
        · next hlt =>
          rw [List.length_tail]
          simp only [List.length_append, List.length_cons, List.length_nil]
          omega
        · next hge =>
          simp only [List.length_append, List.length_cons, List.length_nil] at hge ⊢
          omega
    · rw [if_neg hcond]
      refine ⟨fun _ => rfl, ?_⟩
      simp only [commitH, List.length_nil, Nat.add_zero]
      split
      · next hlt =>
        rw [List.length_tail]
        simp only [List.length_append, List.length_cons, List.length_nil]
        omega
      · next hge =>
        simp only [List.length_append, List.length_cons, List.length_nil] at hge ⊢
        omega

theorem undoH_inv {C D : Type} (spec : CmdSpec C D) {N : Nat}
    {s : CommandHistory C D} (h : HistInv N s) :
    HistInv N (undoH spec N s) := by
  simp only [undoH]
  have hc := commitH_inv h
  match hl : (commitH N s).history.getLast? with
  | none => exact hc
  | some cmd =>
    have hne : (commitH N s).history ≠ [] := by
      intro hh; rw [hh] at hl; simp at hl
    have hlen : 1 ≤ (commitH N s).history.length := by
      cases hh : (commitH N s).history with
      | nil => exact absurd hh hne
      | cons a t => simp [hh]
    cases he : spec.entities cmd <;>
    · simp only [he]
      refine ⟨fun hp => ?_, ?_⟩
      · rw [commitH_pend_none] at hp; simp at hp
      · simp only [List.length_dropLast, List.length_append, List.length_cons,
          List.length_nil]
        have := hc.2
        omega

theorem redoH_inv {C D : Type} (spec : CmdSpec C D) {N : Nat}
    {s : CommandHistory C D} (h : HistInv N s) :
    HistInv N (redoH spec s) := by
  simp only [redoH]
  match hl : s.redoHistory.getLast? with
  | none => exact h
  | some cmd =>
    have hne : s.redoHistory ≠ [] := by
      intro hh; rw [hh] at hl; simp at hl
    have hlen : 1 ≤ s.redoHistory.length := by
      cases hh : s.redoHistory with
      | nil => exact absurd hh hne
      | cons a t => simp [hh]
    have hpend : s.lastExecution = none := by
      match hp : s.lastExecution with
      | none => rfl
      | some e =>
        have := h.1 (by simp [hp])
        exact absurd this hne
    cases he : spec.entities cmd <;>
    · simp only [he]
      refine ⟨fun hp => ?_, ?_⟩
      · simp [hpend] at hp
      · simp only [List.length_dropLast, List.length_append, List.length_cons,
          List.length_nil]
        have := h.2
        omega

theorem applyOp_inv {C D : Type} (spec : CmdSpec C D) {N : Nat}
    {s : CommandHistory C D} (h : HistInv N s) (op : HistOp C) :
    HistInv N (applyOp spec N s op) := by
  cases op with
  | execute t c now mt => exact executeH_inv spec h t c now mt
  | commit => exact commitH_inv h
  | undo => exact undoH_inv spec h
  | redo => exact redoH_inv spec h
  | save =>
    have hc := commitH_inv h
    exact ⟨fun hp => hc.1 hp, hc.2⟩
  | isModified => exact commitH_inv h

theorem applyOps_inv {C D : Type} (spec : CmdSpec C D) {N : Nat}
    {s : CommandHistory C D} (h : HistInv N s) (ops : List (HistOp C)) :
    HistInv N (applyOps spec N s ops) := by
  induction ops generalizing s with
  | nil => exact h
  | cons op rest ih => exact ih (applyOp_inv spec h op)

/-- C9: starting from a fresh history, after any sequence of `execute`,
`commit`, `undo`, `redo` (and `save`/`isModified`) calls the undo stack
never holds more than the configured maximum `N`; and committing a
pending entry when the stack is at (or beyond) capacity silently drops
the oldest entry (the head) instead of raising: the new stack is the tail
of the old stack with the command appended, and its length does not
grow. -/
theorem commandHistory_capacity {C D : Type} (spec : CmdSpec C D) (N : Nat)
    (d : D) :
    (∀ ops : List (HistOp C),
      (applyOps spec N { doc := d } ops).history.length ≤ N) ∧
    (∀ (s : CommandHistory C D) (e : Execution C), s.lastExecution = some e →
      N ≤ s.history.length →
      (commitH N s).history = (s.history ++ [e.command]).tail ∧
      (commitH N s).history.length = s.history.length) := by
  constructor
  · intro ops
    have hinv0 : HistInv N ({ doc := d } : CommandHistory C D) := by
      constructor
      · intro hp; simp at hp
      · simp
    have := (applyOps_inv spec hinv0 ops).2
    omega
  · intro s e he hlen
    have hlt : N < (s.history ++ [e.command]).length := by
      simp only [List.length_append, List.length_cons, List.length_nil]
      omega
    constructor
    · simp only [commitH, he]
      rw [if_pos hlt]
    · simp only [commitH, he]
      rw [if_pos hlt, List.length_tail]
      simp only [List.length_append, List.length_cons, List.length_nil]
      omega

def c9WitnessOps : List (HistOp Unit) :=
  [HistOp.execute "a" () 0 500, HistOp.execute "b" () 1000 500,
   HistOp.execute "c" () 2000 500, HistOp.commit, HistOp.undo, HistOp.redo]

def c9WitnessState : CommandHistory Unit Unit where
  lastExecution := some { title := "p", command := (), time := 0, mergeTimeout := 500 }
  history := [(), ()]
  doc := ()

theorem commandHistory_capacity_witness :
    (applyOps unitSpec 2 { doc := () } c9WitnessOps).history.length ≤ 2 ∧
    (commitH 2 c9WitnessState).history =
      (c9WitnessState.history ++ [()]).tail ∧
    (commitH 2 c9WitnessState).history.length = c9WitnessState.history.length := by
  have h := commandHistory_capacity unitSpec 2 ()
  have h2 := h.2 c9WitnessState { title := "p", command := (), time := 0, mergeTimeout := 500 }
    (by decide) (by decide)
  exact ⟨h.1 c9WitnessOps, h2.1, h2.2⟩

/-! ## UpdateInstancesProperties (`Command.tsx` lines 128-172) -/

/-- A `TTarget` document: target uid → property key → value.  Property
keys and values are abstracted to numbers; a JS `Partial<TTarget>` is an
ordered association list with distinct keys. -/
def TDoc : Type := Nat → Nat → Int

def lookupProp (k : Nat) : List (Nat × Int) → Option Int
  | [] => none
  | kv :: rest => if kv.1 = k then some kv.2 else lookupProp k rest

def propKeys (m : List (Nat × Int)) : List Nat := m.map Prod.fst

/-- JS object spread `{...base, ...upd}`: base's keys in base order with
upd's values winning, followed by upd's keys that are new. -/
def spreadMerge (base upd : List (Nat × Int)) : List (Nat × Int) :=
  base.map (fun p => (p.1, (lookupProp p.1 upd).getD p.2)) ++
    upd.filter (fun p => (lookupProp p.1 base).isNone)

def updProp (d : TDoc) (t k : Nat) (v : Int) : TDoc :=
  fun t' k' => if t' = t ∧ k' = k then v else d t' k'

/-- `updatePropertiesForTarget`: for each listed key in order, snapshot
the target's current value into `previousValues`, then overwrite it. -/
def updatePropertiesForTarget (d : TDoc) (target : Nat) :
    List (Nat × Int) → TDoc × List (Nat × Int)
  | [] => (d, [])
  | kv :: rest =>
    let prev0 := d target kv.1
    let r := updatePropertiesForTarget (updProp d target kv.1 kv.2) target rest
    (r.1, (kv.1, prev0) :: r.2)

/-- The per-target loop of `UpdateInstancesProperties.execute`, collecting
one snapshot per target. -/
def uipExecTargets (d : TDoc) (values : List (Nat × Int)) :
    List Nat → TDoc × List (List (Nat × Int))
  | [] => (d, [])
  | t :: rest =>
    let r1 := updatePropertiesForTarget d t values
    let r2 := uipExecTargets r1.1 values rest
    (r2.1, r1.2 :: r2.2)

/-- The loop of `UpdateInstancesProperties.undo`: re-apply the i-th
snapshot to the i-th target. -/
def uipUndoTargets : TDoc → List Nat → List (List (Nat × Int)) → TDoc
  | d, t :: ts, p :: ps => uipUndoTargets (updatePropertiesForTarget d t p).1 ts ps
  | d, _, _ => d

/-- The command's fields: `targets`, `newValues` and the captured
`previousValue` (`none` before `execute` and after `undo`). -/
structure UpdateInstancesProperties where
  targets : List Nat
  newValues : List (Nat × Int)
  previousValue : Option (List (List (Nat × Int))) := none
  deriving DecidableEq, Repr

namespace UpdateInstancesProperties

def execute (c : UpdateInstancesProperties) (d : TDoc) :
    TDoc × UpdateInstancesProperties :=
  let r := uipExecTargets d c.newValues c.targets
  (r.1, { c with previousValue := some r.2 })

def undo (c : UpdateInstancesProperties) (d : TDoc) :
    TDoc × UpdateInstancesProperties :=
  (uipUndoTargets d c.targets (c.previousValue.getD []),
   { c with previousValue := none })

/-- `redo()` simply calls `execute()` again (re-snapshotting). -/
def redo (c : UpdateInstancesProperties) (d : TDoc) :
    TDoc × UpdateInstancesProperties :=
  c.execute d

/-- `merge(latest)`: for each target index, the pending command's snapshot
entries win over the latest's (`{...latest.previousValue![i],
...this.previousValue![i]}` keeps the OLDEST snapshot per property) and
the latest's new values win over the pending ones (`{...this.newValues,
...latest.newValues}`); always returns true.  With an empty target list
the loop body never runs and nothing changes. -/
def merge (c latest : UpdateInstancesProperties) :
    UpdateInstancesProperties × Bool :=
  if c.targets.isEmpty then (c, true)
  else
    let pa := c.previousValue.getD []
    let pb := latest.previousValue.getD []
    ({ c with
        previousValue := some ((List.zip pa pb).map (fun pp => spreadMerge pp.2 pp.1)),
        newValues := spreadMerge c.newValues latest.newValues }, true)

end UpdateInstancesProperties

theorem lookupProp_cons (k : Nat) (kv : Nat × Int) (rest : List (Nat × Int)) :
    lookupProp k (kv :: rest) =
      if kv.1 = k then some kv.2 else lookupProp k rest := rfl

theorem lookupProp_not_mem {k : Nat} {m : List (Nat × Int)}
    (h : k ∉ propKeys m) : lookupProp k m = none := by
  induction m with
  | nil => rfl
  | cons kv rest ih =>
    simp only [propKeys, List.map_cons, List.mem_cons] at h
    push_neg at h
    rw [lookupProp_cons, if_neg (fun he => h.1 he.symm)]
    exact ih (by simpa [propKeys] using h.2)

theorem updatePropertiesForTarget_fst (target : Nat) :
    ∀ (vs : List (Nat × Int)) (d : TDoc), (propKeys vs).Nodup →
      ∀ t' k, (updatePropertiesForTarget d target vs).1 t' k =
        if t' = target then (lookupProp k vs).getD (d t' k) else d t' k
  | [], d, _, t', k => by
    simp [updatePropertiesForTarget, lookupProp]
  | kv :: rest, d, hnd, t', k => by
    simp only [propKeys, List.map_cons, List.nodup_cons] at hnd
    have hkey : kv.1 ∉ propKeys rest := hnd.1
    have hrest : (propKeys rest).Nodup := hnd.2
    simp only [updatePropertiesForTarget]
    rw [updatePropertiesForTarget_fst target rest _ hrest t' k]
    rw [lookupProp_cons]
    by_cases ht : t' = target
    · subst ht
      by_cases hk : kv.1 = k
      · subst hk
        rw [if_pos rfl, lookupProp_not_mem hkey]
        simp [updProp]
      · rw [if_neg hk]
        simp only [if_pos rfl]
        have hk' : k ≠ kv.1 := Ne.symm hk
        have hupd : updProp d t' kv.1 kv.2 t' k = d t' k := by
          simp [updProp, hk']
        rw [hupd]
    · rw [if_neg ht, if_neg ht]
      simp [updProp, ht]

theorem updatePropertiesForTarget_snd (target : Nat) :
    ∀ (vs : List (Nat × Int)) (d : TDoc), (propKeys vs).Nodup →
      (updatePropertiesForTarget d target vs).2 =
        vs.map (fun kv => (kv.1, d target kv.1))
  | [], d, _ => rfl
  | kv :: rest, d, hnd => by
    simp only [propKeys, List.map_cons, List.nodup_cons] at hnd
    simp only [updatePropertiesForTarget, List.map_cons]
    rw [updatePropertiesForTarget_snd target rest _ hnd.2]
    congr 1
    refine List.map_congr_left fun kv' hkv' => ?_
    have hne : kv'.1 ≠ kv.1 := by
      intro he
      exact hnd.1 (he ▸ List.mem_map_of_mem Prod.fst hkv')
    simp [updProp, hne]

theorem uipExecTargets_fst (vs : List (Nat × Int)) (hvs : (propKeys vs).Nodup) :
    ∀ (ts : List Nat) (d : TDoc), ts.Nodup →
      ∀ t' k, (uipExecTargets d vs ts).1 t' k =
        if t' ∈ ts then (lookupProp k vs).getD (d t' k) else d t' k
  | [], d, _, t', k => by simp [uipExecTargets]
  | t :: rest, d, hnd, t', k => by
    rw [List.nodup_cons] at hnd
    simp only [uipExecTargets]
    rw [uipExecTargets_fst vs hvs rest _ hnd.2 t' k]
    by_cases hmem : t' ∈ rest
    · have hne : t' ≠ t := fun he => hnd.1 (he ▸ hmem)
      rw [if_pos hmem, if_pos (List.mem_cons_of_mem t hmem),
        updatePropertiesForTarget_fst t vs d hvs t' k, if_neg hne]
    · rw [if_neg hmem, updatePropertiesForTarget_fst t vs d hvs t' k]
      by_cases ht : t' = t
      · rw [if_pos ht, if_pos (by simp [ht])]
      · rw [if_neg ht, if_neg (by simp [ht, hmem])]

theorem uipExecTargets_snd (vs : List (Nat × Int)) (hvs : (propKeys vs).Nodup) :
    ∀ (ts : List Nat) (d : TDoc), ts.Nodup →
      (uipExecTargets d vs ts).2 =
        ts.map (fun t => vs.map (fun kv => (kv.1, d t kv.1)))
  | [], d, _ => rfl
  | t :: rest, d, hnd => by
    rw [List.nodup_cons] at hnd
    simp only [uipExecTargets, List.map_cons]
    rw [updatePropertiesForTarget_snd t vs d hvs,
      uipExecTargets_snd vs hvs rest _ hnd.2]
    congr 1
    refine List.map_congr_left fun t' ht' => ?_
    have hne : t' ≠ t := fun he => hnd.1 (he ▸ ht')
    refine List.map_congr_left fun kv hkv => ?_
    rw [updatePropertiesForTarget_fst t vs d hvs t' kv.1, if_neg hne]

theorem uipUndoTargets_map (f : Nat → List (Nat × Int)) :
    ∀ (ts : List Nat) (d : TDoc), ts.Nodup →
      (∀ t ∈ ts, (propKeys (f t)).Nodup) →
      ∀ t' k, uipUndoTargets d ts (ts.map f) t' k =
        if t' ∈ ts then (lookupProp k (f t')).getD (d t' k) else d t' k
  | [], d, _, _, t', k => by simp [uipUndoTargets]
  | t :: rest, d, hnd, hf, t', k => by
    rw [List.nodup_cons] at hnd
    simp only [List.map_cons, uipUndoTargets]
    rw [uipUndoTargets_map f rest _ hnd.2
      (fun x hx => hf x (List.mem_cons_of_mem t hx)) t' k]
    by_cases hmem : t' ∈ rest
    · have hne : t' ≠ t := fun he => hnd.1 (he ▸ hmem)
      rw [if_pos hmem, if_pos (List.mem_cons_of_mem t hmem),
        updatePropertiesForTarget_fst t (f t) d (hf t (by simp)) t' k, if_neg hne]
    · rw [if_neg hmem, updatePropertiesForTarget_fst t (f t) d (hf t (by simp)) t' k]
      by_cases ht : t' = t
      · subst ht
        rw [if_pos rfl, if_pos (by simp)]
      · rw [if_neg ht, if_neg (by simp [ht, hmem])]

theorem lookupProp_append (k : Nat) :
    ∀ l1 l2 : List (Nat × Int),
      lookupProp k (l1 ++ l2) = (lookupProp k l1).or (lookupProp k l2)
  | [], l2 => by simp [lookupProp]
  | kv :: rest, l2 => by
    by_cases h : kv.1 = k
    · simp [lookupProp, h]
    · simp [lookupProp, h, lookupProp_append k rest l2]

theorem lookupProp_filter_key (k : Nat) (pred : Nat × Int → Bool)
    (h : ∀ p : Nat × Int, p.1 = k → pred p = true) :
    ∀ l : List (Nat × Int),
      lookupProp k (l.filter pred) = lookupProp k l
  | [] => rfl
  | p :: rest => by
    by_cases hk : p.1 = k
    · rw [List.filter_cons, h p hk]
      simp [lookupProp, hk]
    · rw [List.filter_cons]
      cases hp : pred p with
      | true =>
        simp only [if_true]
        simp [lookupProp, hk, lookupProp_filter_key k pred h rest]
      | false =>
        simp only [Bool.false_eq_true, if_false]
        simp [lookupProp, hk, lookupProp_filter_key k pred h rest]

theorem lookupProp_isSome_of_mem {k : Nat} :
    ∀ {m : List (Nat × Int)}, k ∈ propKeys m → (lookupProp k m).isSome = true := by
  intro m hm
  induction m with
  | nil => simp [propKeys] at hm
  | cons kv rest ih =>
    rw [lookupProp_cons]
    by_cases h : kv.1 = k
    · simp [h]
    · rw [if_neg h]
      simp only [propKeys, List.map_cons, List.mem_cons] at hm
      exact ih (hm.resolve_left (fun he => h he.symm))

/-- Lookup in a JS spread `{...base, ...upd}`: keys of `upd` win, then
keys of `base`. -/
theorem lookupProp_spreadMerge (k : Nat) (base upd : List (Nat × Int)) :
    lookupProp k (spreadMerge base upd) =
      (lookupProp k upd).or (lookupProp k base) := by
  unfold spreadMerge
  rw [lookupProp_append]
  have hmap : ∀ b : List (Nat × Int),
      lookupProp k (b.map (fun p => (p.1, (lookupProp p.1 upd).getD p.2))) =
        (lookupProp k b).map (fun v => (lookupProp k upd).getD v) := by
    intro b
    induction b with
    | nil => rfl
    | cons kv rest ih =>
      by_cases h : kv.1 = k
      · subst h
        simp [lookupProp, ih]
      · simp [lookupProp, h, ih]
  rw [hmap]
  by_cases hmem : k ∈ propKeys base
  · match hb : lookupProp k base with
    | none =>
      have := lookupProp_isSome_of_mem hmem
      rw [hb] at this
      simp at this
    | some v =>
      cases hu : lookupProp k upd <;> simp [hu]
  · have hb : lookupProp k base = none := lookupProp_not_mem hmem
    rw [hb, lookupProp_filter_key k _ (fun p hp => by
      have hpb : lookupProp p.1 base = none := hp ▸ hb
      simp [hpb]) upd]
    cases hu : lookupProp k upd <;> simp [hu]

theorem lookupProp_map_keyed (k : Nat) (h : Nat → Int) :
    ∀ m : List (Nat × Int),
      lookupProp k (m.map (fun kv => (kv.1, h kv.1))) =
        (lookupProp k m).map (fun _ => h k)
  | [] => rfl
  | kv :: rest => by
    by_cases hk : kv.1 = k
    · subst hk
      simp [lookupProp]
    · simp [lookupProp, hk, lookupProp_map_keyed k h rest]

theorem propKeys_map_keyed (h : Nat → Int) (m : List (Nat × Int)) :
    propKeys (m.map (fun kv => (kv.1, h kv.1))) = propKeys m := by
  unfold propKeys
  rw [List.map_map]
  exact List.map_congr_left fun p _ => rfl

theorem propKeys_spreadMerge_nodup {base upd : List (Nat × Int)}
    (hb : (propKeys base).Nodup) (hu : (propKeys upd).Nodup) :
    (propKeys (spreadMerge base upd)).Nodup := by
  unfold spreadMerge propKeys
  rw [List.map_append, List.nodup_append]
  refine ⟨?_, ?_, ?_⟩
  · rw [List.map_map]
    have heq : List.map (Prod.fst ∘ fun p => (p.1, (lookupProp p.1 upd).getD p.2)) base =
        List.map Prod.fst base := List.map_congr_left fun p _ => rfl
    rw [heq]
    exact hb
  · have hsub : (upd.filter (fun p => (lookupProp p.1 base).isNone)).Sublist upd :=
      List.filter_sublist _
    exact List.Nodup.sublist (hsub.map Prod.fst) hu
  · intro a ha ha'
    simp only [List.map_map, List.mem_map] at ha ha'
    obtain ⟨p, hp, hpa⟩ := ha
    obtain ⟨q, hq, hqa⟩ := ha'
    have hqf := List.of_mem_filter hq
    have hqk : (lookupProp q.1 base).isNone = true := by simpa using hqf
    have hpk : p.1 = a := hpa
    have hmem : a ∈ propKeys base := by
      unfold propKeys
      exact hpk ▸ List.mem_map_of_mem Prod.fst hp
    have := lookupProp_isSome_of_mem hmem
    rw [hqa] at hqk
    rw [Option.isNone_iff_eq_none] at hqk
    rw [hqk] at this
    simp at this

/-- C6: after executing A then B (same target list, JS-object property
maps) and folding with `A.merge(B)`, a single `undo` of the merged
command restores the whole document to its state from before A executed
(the merge keeps the oldest snapshot per property), and `redo` re-applies
the newest merged values, reproducing the post-B document. -/
theorem updateInstancesProperties_merge_undo_redo
    (d0 : TDoc) (ts : List Nat) (va vb : List (Nat × Int))
    (hts : ts.Nodup) (hva : (propKeys va).Nodup) (hvb : (propKeys vb).Nodup)
    (A B : UpdateInstancesProperties)
    (hA : A = ⟨ts, va, none⟩) (hB : B = ⟨ts, vb, none⟩) :
    ((A.execute d0).2.merge (B.execute (A.execute d0).1).2).2 = true ∧
    (((A.execute d0).2.merge (B.execute (A.execute d0).1).2).1.undo
        (B.execute (A.execute d0).1).1).1 = d0 ∧
    ((((A.execute d0).2.merge (B.execute (A.execute d0).1).2).1.undo
        (B.execute (A.execute d0).1).1).2.redo d0).1 =
      (B.execute (A.execute d0).1).1 := by
  subst hA hB
  simp only [UpdateInstancesProperties.execute, UpdateInstancesProperties.undo,
    UpdateInstancesProperties.redo, UpdateInstancesProperties.merge]
  set d1 := (uipExecTargets d0 va ts).1 with hd1
  set d2 := (uipExecTargets d1 vb ts).1 with hd2
  have hpa : (uipExecTargets d0 va ts).2 =
      ts.map (fun t => va.map (fun kv => (kv.1, d0 t kv.1))) :=
    uipExecTargets_snd va hva ts d0 hts
  have hpb : (uipExecTargets d1 vb ts).2 =
      ts.map (fun t => vb.map (fun kv => (kv.1, d1 t kv.1))) :=
    uipExecTargets_snd vb hvb ts d1 hts
  have hd1p : ∀ t' k, d1 t' k =
      if t' ∈ ts then (lookupProp k va).getD (d0 t' k) else d0 t' k :=
    uipExecTargets_fst va hva ts d0 hts
  have hd2p : ∀ t' k, d2 t' k =
      if t' ∈ ts then (lookupProp k vb).getD (d1 t' k) else d1 t' k :=
    uipExecTargets_fst vb hvb ts d1 hts
  by_cases hempty : ts.isEmpty
  · have hnil : ts = [] := List.isEmpty_iff.mp hempty
    subst hnil
    refine ⟨by simp [hempty], ?_, ?_⟩
    · simp [uipUndoTargets, hd1, hd2, uipExecTargets]
    · simp [hd1, hd2, uipExecTargets, uipUndoTargets]
  · rw [if_neg (by simpa using hempty)]
    simp only
    refine ⟨by trivial, ?_, ?_⟩
    · -- undo restores d0
      rw [hpa, hpb]
      simp only [Option.getD_some]
      rw [List.zip_map', List.map_map]
      have hlist : List.map ((fun pp : List (Nat × Int) × List (Nat × Int) =>
            spreadMerge pp.2 pp.1) ∘ fun a =>
            (va.map (fun kv => (kv.1, d0 a kv.1)),
             vb.map (fun kv => (kv.1, d1 a kv.1)))) ts =
          ts.map (fun t => spreadMerge (vb.map (fun kv => (kv.1, d1 t kv.1)))
            (va.map (fun kv => (kv.1, d0 t kv.1)))) :=
        List.map_congr_left fun t _ => rfl
      rw [hlist]
      funext t' k
      rw [uipUndoTargets_map _ ts d2 hts (fun t _ => by
        refine propKeys_spreadMerge_nodup ?_ ?_
        · rw [show (fun kv : Nat × Int => (kv.1, d1 t kv.1)) =
              (fun kv : Nat × Int => (kv.1, (fun x => d1 t x) kv.1)) from rfl,
            propKeys_map_keyed]
          exact hvb
        · rw [show (fun kv : Nat × Int => (kv.1, d0 t kv.1)) =
              (fun kv : Nat × Int => (kv.1, (fun x => d0 t x) kv.1)) from rfl,
            propKeys_map_keyed]
          exact hva) t' k]
      by_cases hmem : t' ∈ ts
      · rw [if_pos hmem, lookupProp_spreadMerge]
        rw [show (fun kv : Nat × Int => (kv.1, d0 t' kv.1)) =
            (fun kv : Nat × Int => (kv.1, (fun x => d0 t' x) kv.1)) from rfl,
          lookupProp_map_keyed]
        rw [show (fun kv : Nat × Int => (kv.1, d1 t' kv.1)) =
            (fun kv : Nat × Int => (kv.1, (fun x => d1 t' x) kv.1)) from rfl,
          lookupProp_map_keyed]
        have h1 := hd1p t' k
        have h2 := hd2p t' k
        rw [if_pos hmem] at h1 h2
        cases hu : lookupProp k va with
        | some a => simp [hu]
        | none =>
          cases hv : lookupProp k vb with
          | some b => simp [h1, hu, hv]
          | none => simp [h2, h1, hu, hv]
      · rw [if_neg hmem]
        have h1 := hd1p t' k
        have h2 := hd2p t' k
        rw [if_neg hmem] at h1 h2
        rw [h2, h1]
    · -- redo applies the merged newest values
      funext t' k
      have hnodups : (propKeys (spreadMerge va vb)).Nodup :=
        propKeys_spreadMerge_nodup hva hvb
      rw [uipExecTargets_fst (spreadMerge va vb) hnodups ts d0 hts t' k]
      have h1 := hd1p t' k
      have h2 := hd2p t' k
      by_cases hmem : t' ∈ ts
      · rw [if_pos hmem]
        rw [if_pos hmem] at h1 h2
        rw [lookupProp_spreadMerge]
        cases hv : lookupProp k vb with
        | some b => simp [h2, h1, hv]
        | none =>
          cases hu : lookupProp k va with
          | some a => simp [h2, h1, hv, hu]
          | none => simp [h2, h1, hv, hu]
      · rw [if_neg hmem]
        rw [if_neg hmem] at h1 h2
        rw [h2, h1]

def uipWitnessDoc : TDoc := fun _ _ => 0

def uipA : UpdateInstancesProperties := ⟨[1, 2], [(10, 5)], none⟩

def uipB : UpdateInstancesProperties := ⟨[1, 2], [(10, 7), (11, 3)], none⟩

theorem updateInstancesProperties_merge_undo_redo_witness :
    ((uipA.execute uipWitnessDoc).2.merge
        (uipB.execute (uipA.execute uipWitnessDoc).1).2).2 = true ∧
    (((uipA.execute uipWitnessDoc).2.merge
        (uipB.execute (uipA.execute uipWitnessDoc).1).2).1.undo
        (uipB.execute (uipA.execute uipWitnessDoc).1).1).1 = uipWitnessDoc := by
  have h := updateInstancesProperties_merge_undo_redo uipWitnessDoc [1, 2]
    [(10, 5)] [(10, 7), (11, 3)] (by decide) (by decide) (by decide)
    uipA uipB rfl rfl
  exact ⟨h.1, h.2.1⟩

/-! ## DragControls (`Command.tsx` lines 404-446) -/

def vecOf (c : Control) : ℚ × ℚ := (c.x, c.y)

/-- `Control.setXY`: overwrite the coordinates, keep heading and flags. -/
def setXY (c : Control) (v : ℚ × ℚ) : Control := { c with x := v.1, y := v.2 }

structure DragControls where
  main : Nat
  fromV : ℚ × ℚ
  toV : ℚ × ℚ
  followers : List Nat
  deriving DecidableEq, Repr

/-- `DragControls.execute`: every follower is moved by the same
translation (`to.add(cp.subtract(from))`), then the main control is set
to `to` absolutely. -/
def DragControls.execute (c : DragControls) (h : Nat → Control) : Nat → Control :=
  let h1 := c.followers.foldl
    (fun h cp => Function.update h cp (setXY (h cp) (c.toV + (vecOf (h cp) - c.fromV)))) h
  Function.update h1 c.main (setXY (h1 c.main) c.toV)

/-- `DragControls.undo`: the mirror image, `from.add(cp.subtract(to))`
for followers and `from` for the main control. -/
def DragControls.undo (c : DragControls) (h : Nat → Control) : Nat → Control :=
  let h1 := c.followers.foldl
    (fun h cp => Function.update h cp (setXY (h cp) (c.fromV + (vecOf (h cp) - c.toV)))) h
  Function.update h1 c.main (setXY (h1 c.main) c.fromV)

def DragControls.redo (c : DragControls) (h : Nat → Control) : Nat → Control :=
  c.execute h

/-- `DragControls.merge`: fails unless the follower lists agree
element-wise (by identity) and the main control is the same object; on
success only the destination vector is replaced. -/
def DragControls.merge (c other : DragControls) : DragControls × Bool :=
  if c.followers.length ≠ other.followers.length then (c, false)
  else if c.followers ≠ other.followers then (c, false)
  else if c.main ≠ other.main then (c, false)
  else ({ c with toV := other.toV }, true)

/-- Translating a control `n` times by `δ`. -/
def translateN (c : Control) (δ : ℚ × ℚ) (n : Nat) : Control :=
  { c with x := c.x + n * δ.1, y := c.y + n * δ.2 }

theorem translateN_zero (c : Control) (δ : ℚ × ℚ) : translateN c δ 0 = c := by
  simp [translateN]

theorem translateN_translateN (c : Control) (δ1 δ2 : ℚ × ℚ) (n m : Nat) :
    translateN (translateN c δ1 n) δ2 m =
      { c with x := c.x + n * δ1.1 + m * δ2.1, y := c.y + n * δ1.2 + m * δ2.2 } := rfl

theorem setXY_translate (c : Control) (frm tov : ℚ × ℚ) :
    setXY c (tov + (vecOf c - frm)) = translateN c (tov - frm) 1 := by
  simp only [setXY, translateN, vecOf, Prod.fst_add, Prod.snd_add, Prod.fst_sub,
    Prod.snd_sub, Nat.cast_one, one_mul]
  congr 1 <;> ring

theorem dragFold_apply (frm tov : ℚ × ℚ) :
    ∀ (fs : List Nat) (h : Nat → Control) (cp : Nat),
      (fs.foldl (fun h c =>
          Function.update h c (setXY (h c) (tov + (vecOf (h c) - frm)))) h) cp =
        translateN (h cp) (tov - frm) (fs.count cp)
  | [], h, cp => by simp [translateN_zero]
  | f :: rest, h, cp => by
    simp only [List.foldl_cons]
    rw [dragFold_apply frm tov rest _ cp]
    by_cases hc : cp = f
    · subst hc
      rw [Function.update_same, setXY_translate, List.count_cons_self]
      rw [translateN_translateN, translateN]
      congr 1 <;> push_cast <;> ring
    · rw [Function.update_noteq hc, List.count_cons_of_ne hc]

theorem setXY_vecOf (c : Control) : setXY c (vecOf c) = c := rfl

theorem Control.ext2 (a b : Control) (hx : a.x = b.x) (hy : a.y = b.y)
    (hh : a.heading = b.heading) (he : a.isEndPoint = b.isEndPoint)
    (hv : a.visible = b.visible) (hl : a.lock = b.lock) : a = b := by
  cases a; cases b; simp_all

def dragWitnessHeap : Nat → Control :=
  fun n => if n = 7 then mkControl (0, 0) else if n = 8 then mkControl (3, 4)
    else mkControl (9, 9)

theorem dragExec_apply_ne (c : DragControls) (h : Nat → Control) (cp : Nat)
    (hne : cp ≠ c.main) :
    c.execute h cp = translateN (h cp) (c.toV - c.fromV) (c.followers.count cp) := by
  simp only [DragControls.execute]
  rw [Function.update_noteq hne, dragFold_apply]

theorem dragExec_apply_main (c : DragControls) (h : Nat → Control) :
    c.execute h c.main =
      setXY (translateN (h c.main) (c.toV - c.fromV) (c.followers.count c.main)) c.toV := by
  simp only [DragControls.execute]
  rw [Function.update_same, dragFold_apply]

theorem dragUndo_apply_ne (c : DragControls) (h : Nat → Control) (cp : Nat)
    (hne : cp ≠ c.main) :
    c.undo h cp = translateN (h cp) (c.fromV - c.toV) (c.followers.count cp) := by
  simp only [DragControls.undo]
  rw [Function.update_noteq hne, dragFold_apply]

theorem dragUndo_apply_main (c : DragControls) (h : Nat → Control) :
    c.undo h c.main =
      setXY (translateN (h c.main) (c.fromV - c.toV) (c.followers.count c.main)) c.fromV := by
  simp only [DragControls.undo]
  rw [Function.update_same, dragFold_apply]

/-- C7. `DragControls.merge` succeeds exactly when the other drag has the
same main control and the identical follower list (element-wise object
identity); the merged command keeps the original source position and
adopts the newer destination, and undoing the merged command after the
two drags ran in sequence restores the original control heap exactly
(given that the first drag recorded the main control's true position as
its source). -/
theorem dragControls_merge_undo
    (h0 : Nat → Control) (m : Nat) (p0 p1 p2 : ℚ × ℚ) (fs : List Nat)
    (hmain : vecOf (h0 m) = p0) :
    (DragControls.merge ⟨m, p0, p1, fs⟩ ⟨m, p1, p2, fs⟩).2 = true ∧
    (DragControls.merge ⟨m, p0, p1, fs⟩ ⟨m, p1, p2, fs⟩).1 = ⟨m, p0, p2, fs⟩ ∧
    (∀ B : DragControls, B.followers ≠ fs ∨ B.main ≠ m →
      (DragControls.merge ⟨m, p0, p1, fs⟩ B).2 = false) ∧
    DragControls.undo (DragControls.merge ⟨m, p0, p1, fs⟩ ⟨m, p1, p2, fs⟩).1
      (DragControls.execute ⟨m, p1, p2, fs⟩
        (DragControls.execute ⟨m, p0, p1, fs⟩ h0)) = h0 := by
  have hm : DragControls.merge ⟨m, p0, p1, fs⟩ ⟨m, p1, p2, fs⟩ =
      (⟨m, p0, p2, fs⟩, true) := by
    simp [DragControls.merge]
  refine ⟨by rw [hm], by rw [hm], ?_, ?_⟩
  · intro B hB
    rcases B with ⟨bm, bf, bt, bfs⟩
    simp only [DragControls.merge]
    by_cases hlen : fs.length ≠ bfs.length
    · rw [if_pos hlen]
    · rw [if_neg hlen]
      rcases hB with hfs | hbm
      · rw [if_pos (by simpa using fun hh => hfs hh.symm)]
      · by_cases hfs : fs ≠ bfs
        · rw [if_pos hfs]
        · rw [if_neg hfs, if_pos (by simpa using fun hh => hbm hh.symm)]
  · rw [hm]
    funext cp
    set A : DragControls := ⟨m, p0, p1, fs⟩ with hA
    set B : DragControls := ⟨m, p1, p2, fs⟩ with hB
    set M : DragControls := ⟨m, p0, p2, fs⟩ with hM
    by_cases hc : cp = m
    · subst hc
      have h1 := dragExec_apply_main A h0
      have h2 := dragExec_apply_main B (A.execute h0)
      have h3 := dragUndo_apply_main M (B.execute (A.execute h0))
      simp only [hA, hB, hM] at h1 h2 h3
      rw [h3, h2, h1]
      have hx : (h0 cp).x = p0.1 := congrArg Prod.fst hmain
      have hy : (h0 cp).y = p0.2 := congrArg Prod.snd hmain
      simp only [setXY, translateN]
      exact Control.ext2 _ _ (by rw [hx]) (by rw [hy]) rfl rfl rfl rfl
    · have h1 := dragExec_apply_ne A h0 cp hc
      have h2 := dragExec_apply_ne B (A.execute h0) cp hc
      have h3 := dragUndo_apply_ne M (B.execute (A.execute h0)) cp hc
      simp only [hA, hB, hM] at h1 h2 h3
      rw [h3, h2, h1]
      simp only [translateN_translateN, translateN]
      refine Control.ext2 _ _ ?_ ?_ rfl rfl rfl rfl <;>
        simp only [Prod.fst_sub, Prod.snd_sub, Prod.fst_neg, Prod.snd_neg,
          Prod.fst_add, Prod.snd_add] <;> ring

theorem dragControls_merge_undo_witness :
    (DragControls.merge ⟨7, (0, 0), (1, 2), [7, 8]⟩ ⟨7, (1, 2), (5, 5), [7, 8]⟩).2 = true ∧
    (DragControls.merge ⟨7, (0, 0), (1, 2), [7, 8]⟩ ⟨7, (1, 2), (5, 5), [7, 8]⟩).1 =
      ⟨7, (0, 0), (5, 5), [7, 8]⟩ ∧
    DragControls.undo
      (DragControls.merge ⟨7, (0, 0), (1, 2), [7, 8]⟩ ⟨7, (1, 2), (5, 5), [7, 8]⟩).1
      (DragControls.execute ⟨7, (1, 2), (5, 5), [7, 8]⟩
        (DragControls.execute ⟨7, (0, 0), (1, 2), [7, 8]⟩ dragWitnessHeap)) =
      dragWitnessHeap := by
  have h := dragControls_merge_undo dragWitnessHeap 7 (0, 0) (1, 2) (5, 5) [7, 8]
    rfl
  exact ⟨h.1, h.2.1, h.2.2.2⟩

/-! ## ConvertSegment (`Command.tsx` lines 262-332) and the keyframe
commands (448-567) — claim C4 -/

inductive SegmentVariant where
  | linear
  | cubic
  deriving DecidableEq, Repr

structure ConvertSegment where
  path : Nat
  segment : Nat
  variant : SegmentVariant
  p1Uid : Nat
  p2Uid : Nat
  previousControls : List Nat := []
  newControls : List Nat := []
  deriving DecidableEq, Repr

/-- `convertToLine`: `controls.splice(1, controls.length - 2)` — keep the
first and last control, unconditionally (no membership check). -/
def ConvertSegment.convertToLine (c : ConvertSegment) (st : GeomState) : GeomState :=
  let l := st.segCtrls c.segment
  let sc := Function.update st.segCtrls c.segment (l.take 1 ++ l.drop (1 + (l.length - 2)))
  { st with segCtrls := sc }

/-- `convertToCurve`: locate the segment in the path; early return (no-op)
when it is not found; otherwise build `[p0, p1, p2, p3]` where the new
handles mirror the neighbours' handles (or fall back to the midpoint of
`p0` and `p3`).  The mirror arithmetic (`p0.mirror(q)` =
`2*p0 - q`) is modelled from the spec since `Path.tsx` is not under
`src/`; `p1Uid`/`p2Uid` are the uids of the two freshly allocated
controls. -/
def ConvertSegment.convertToCurve (c : ConvertSegment) (st : GeomState) : GeomState :=
  let segs := st.pathSegs c.path
  if c.segment ∈ segs then
    let index := segs.indexOf c.segment
    let l := st.segCtrls c.segment
    let p0u := l.headI
    let p3u := l.getLastD 0
    let p0 := st.ctrl p0u
    let p3 := st.ctrl p3u
    let p1 : Control :=
      if 0 < index then
        let prev := segs.getD (index - 1) 0
        let q := st.ctrl ((st.segCtrls prev).getD ((st.segCtrls prev).length - 2) 0)
        mkControl (2 * p0.x - q.x, 2 * p0.y - q.y)
      else mkControl (midXY p0 p3)
    let p2 : Control :=
      if index + 1 < segs.length then
        let next := segs.getD (index + 1) 0
        let q := st.ctrl ((st.segCtrls next).getD 1 0)
        mkControl (2 * p3.x - q.x, 2 * p3.y - q.y)
      else mkControl (midXY p0 p3)
    { st with
      ctrl := Function.update (Function.update st.ctrl c.p1Uid p1) c.p2Uid p2,
      segCtrls := Function.update st.segCtrls c.segment [p0u, c.p1Uid, c.p2Uid, p3u] }
  else st

def ConvertSegment.execute (c : ConvertSegment) (st : GeomState) :
    GeomState × ConvertSegment :=
  let prev := st.segCtrls c.segment
  let st1 := match c.variant with
    | SegmentVariant.linear => c.convertToLine st
    | SegmentVariant.cubic => c.convertToCurve st
  (st1, { c with previousControls := prev, newControls := st1.segCtrls c.segment })

def ConvertSegment.undoC (c : ConvertSegment) (st : GeomState) : GeomState :=
  { st with segCtrls := Function.update st.segCtrls c.segment c.previousControls }

def ConvertSegment.redoC (c : ConvertSegment) (st : GeomState) : GeomState :=
  { st with segCtrls := Function.update st.segCtrls c.segment c.newControls }

/-- `get entities()`: `controls.slice(1, -1)` — the interior controls of
the segment, read at call time and regardless of whether the conversion
found the segment in the path. -/
def ConvertSegment.entities (c : ConvertSegment) (st : GeomState) : List Nat :=
  ((st.segCtrls c.segment).drop 1).dropLast

structure KeyframePos where
  segment : Nat
  xPos : ℚ
  yPos : ℚ
  deriving DecidableEq, Repr

/-- Stable insertion of a keyframe uid into a list sorted by `xPos`: the
new element lands after all elements with a key `≤` its own, exactly
where a stable `sort((a, b) => a.xPos - b.xPos)` of `push`ed input puts
it. -/
def insertByX (k : Nat → Keyframe) (x : Nat) : List Nat → List Nat
  | [] => [x]
  | y :: t => if (k x).xPos < (k y).xPos then x :: y :: t else y :: insertByX k x t

/-- Stable insertion sort by `xPos` (JS `Array.prototype.sort` is
stable). -/
def sortByX (k : Nat → Keyframe) (l : List Nat) : List Nat :=
  l.foldl (fun acc x => insertByX k x acc) []

/-- First segment of the list whose keyframe list contains `k` —
the search loop shared by `MoveKeyframe.execute` and
`RemoveKeyframe.execute`. -/
def findKfSeg (k : Nat) (kfs : Nat → List Nat) : List Nat → Option Nat
  | [] => none
  | s :: t => if k ∈ kfs s then some s else findKfSeg k kfs t

structure MoveKeyframe where
  path : Nat
  newPos : KeyframePos
  kf : Nat
  oldPos : Option KeyframePos := none
  deriving DecidableEq, Repr

/-- `MoveKeyframe.addKeyframe(pos)`: set the keyframe's position, push it
onto `pos.segment.speedProfiles` and sort by `xPos`.  Runs
unconditionally. -/
def MoveKeyframe.addKeyframe (c : MoveKeyframe) (pos : KeyframePos) (st : GeomState) :
    GeomState :=
  let k1 := Function.update st.kf c.kf { xPos := pos.xPos, yPos := pos.yPos }
  let sk := Function.update st.segKfs pos.segment (sortByX k1 (st.segKfs pos.segment ++ [c.kf]))
  { st with kf := k1, segKfs := sk }

/-- `MoveKeyframe.removeKeyframe(pos)`: splice the keyframe out of
`pos.segment.speedProfiles`, or do nothing when it is absent. -/
def MoveKeyframe.removeKeyframe (c : MoveKeyframe) (pos : KeyframePos) (st : GeomState) :
    GeomState :=
  let l := st.segKfs pos.segment
  if c.kf ∈ l then
    let sk := Function.update st.segKfs pos.segment (l.eraseIdx (l.indexOf c.kf))
    { st with segKfs := sk }
  else st

/-- `MoveKeyframe.execute`: search the path's segments for the keyframe;
when found, splice it out and record `oldPos`; then — found or not —
`addKeyframe(newPos)` runs. -/
def MoveKeyframe.execute (c : MoveKeyframe) (st : GeomState) : GeomState × MoveKeyframe :=
  match findKfSeg c.kf st.segKfs (st.pathSegs c.path) with
  | some s =>
    let l := st.segKfs s
    let sk := Function.update st.segKfs s (l.eraseIdx (l.indexOf c.kf))
    let st1 := { st with segKfs := sk }
    let c1 := { c with oldPos := some ⟨s, (st.kf c.kf).xPos, (st.kf c.kf).yPos⟩ }
    (c1.addKeyframe c.newPos st1, c1)
  | none => (c.addKeyframe c.newPos st, c)

def MoveKeyframe.undoK (c : MoveKeyframe) (st : GeomState) : GeomState :=
  match c.oldPos with
  | none => st
  | some op => c.addKeyframe op (c.removeKeyframe c.newPos st)

def MoveKeyframe.redoK (c : MoveKeyframe) (st : GeomState) : GeomState :=
  match c.oldPos with
  | none => st
  | some op => c.addKeyframe c.newPos (c.removeKeyframe op st)

structure RemoveKeyframe where
  path : Nat
  kf : Nat
  segment : Option Nat := none
  oldIdx : Int := -1
  deriving DecidableEq, Repr

def RemoveKeyframe.execute (c : RemoveKeyframe) (st : GeomState) :
    GeomState × RemoveKeyframe :=
  match findKfSeg c.kf st.segKfs (st.pathSegs c.path) with
  | some s =>
    let l := st.segKfs s
    let idx := l.indexOf c.kf
    ({ st with segKfs := Function.update st.segKfs s (l.eraseIdx idx) },
     { c with segment := some s, oldIdx := (idx : Int) })
  | none => (st, c)

def RemoveKeyframe.undoK (c : RemoveKeyframe) (st : GeomState) : GeomState :=
  match c.segment with
  | none => st
  | some s =>
    if c.oldIdx = -1 then st
    else
      let sk := Function.update st.segKfs s ((st.segKfs s).insertIdx c.oldIdx.toNat c.kf)
      { st with segKfs := sk }

def RemoveKeyframe.redoK (c : RemoveKeyframe) (st : GeomState) : GeomState :=
  match c.segment with
  | none => st
  | some s =>
    if c.oldIdx = -1 then st
    else
      let sk := Function.update st.segKfs s ((st.segKfs s).eraseIdx c.oldIdx.toNat)
      { st with segKfs := sk }

theorem findKfSeg_eq_none (k : Nat) (kfs : Nat → List Nat) :
    ∀ l : List Nat, (∀ s ∈ l, k ∉ kfs s) → findKfSeg k kfs l = none
  | [], _ => rfl
  | s :: t, h => by
    rw [findKfSeg, if_neg (h s (List.mem_cons_self s t))]
    exact findKfSeg_eq_none k kfs t fun x hx => h x (List.mem_cons_of_mem s hx)

theorem insertByX_perm (k : Nat → Keyframe) (x : Nat) :
    ∀ l : List Nat, (insertByX k x l).Perm (x :: l)
  | [] => List.Perm.refl _
  | y :: t => by
    rw [insertByX]
    by_cases hc : (k x).xPos < (k y).xPos
    · rw [if_pos hc]
    · rw [if_neg hc]
      exact ((insertByX_perm k x t).cons y).trans (List.Perm.swap x y t)

theorem sortByX_aux_perm (k : Nat → Keyframe) :
    ∀ (l acc : List Nat),
      (l.foldl (fun acc x => insertByX k x acc) acc).Perm (acc ++ l)
  | [], acc => by simp
  | x :: t, acc => by
    rw [List.foldl_cons]
    refine (sortByX_aux_perm k t (insertByX k x acc)).trans ?_
    have h1 : (insertByX k x acc ++ t).Perm ((x :: acc) ++ t) :=
      (insertByX_perm k x acc).append_right t
    refine h1.trans ?_
    exact List.perm_middle.symm

theorem mem_sortByX (k : Nat → Keyframe) (a : Nat) (l : List Nat) :
    a ∈ sortByX k l ↔ a ∈ l := by
  have h := sortByX_aux_perm k l []
  rw [sortByX]
  simpa using h.mem_iff

theorem list_len4 {α : Type} : ∀ l : List α, l.length = 4 → ∃ a b c d, l = [a, b, c, d]
  | [a, b, c, d], _ => ⟨a, b, c, d, rfl⟩
  | [], h => by simp at h
  | [_], h => by simp at h
  | [_, _], h => by simp at h
  | [_, _, _], h => by simp at h
  | _ :: _ :: _ :: _ :: _ :: _, h => by
    simp only [List.length_cons] at h
    omega

/-- C4 (amended).  "Structural not-found" is NOT uniformly a no-op.
What actually holds: (i) `ConvertSegment` with the CUBIC variant whose
segment is not in the path leaves the geometry unchanged, but its
`entities` getter still reports the segment's interior controls (a
4-control segment yields a nonempty entity list), contradicting the
claim's "reports no affected entities"; (ii) `ConvertSegment` with the
LINEAR variant truncates the segment's control list to first-and-last
with no membership check at all, so execute mutates the segment even
when it is not in the path; (iii) `MoveKeyframe` whose keyframe is in
none of the path's segments throws no exception but is not a no-op:
`addKeyframe(newPos)` still runs, so the keyframe is inserted into the
destination segment and the state genuinely changes, while `oldPos`
stays unset so a subsequent undo cannot revert the insertion; (iv)
`RemoveKeyframe` not-found is a true no-op with an untouched record. -/
theorem catalog_notFound_behaviour
    (st : GeomState) (cs cl : ConvertSegment) (mk : MoveKeyframe) (rk : RemoveKeyframe)
    (hvar : cs.variant = SegmentVariant.cubic)
    (hcsOut : cs.segment ∉ st.pathSegs cs.path)
    (hclvar : cl.variant = SegmentVariant.linear)
    (hclOut : cl.segment ∉ st.pathSegs cl.path)
    (hclLen : (st.segCtrls cl.segment).length = 4)
    (hmkOut : ∀ s ∈ st.pathSegs mk.path, mk.kf ∉ st.segKfs s)
    (hmkNew : mk.kf ∉ st.segKfs mk.newPos.segment)
    (hmkOld : mk.oldPos = none)
    (hrkOut : ∀ s ∈ st.pathSegs rk.path, rk.kf ∉ st.segKfs s) :
    (cs.execute st).1 = st ∧
    ((st.segCtrls cs.segment).length = 4 → ConvertSegment.entities cs st ≠ []) ∧
    (cl.execute st).1.segCtrls cl.segment =
      [(st.segCtrls cl.segment).headI, (st.segCtrls cl.segment).getLastD 0] ∧
    (cl.execute st).1 ≠ st ∧
    (mk.execute st).1 = mk.addKeyframe mk.newPos st ∧
    mk.kf ∈ (mk.execute st).1.segKfs mk.newPos.segment ∧
    (mk.execute st).1 ≠ st ∧
    (mk.execute st).2 = mk ∧
    MoveKeyframe.undoK (mk.execute st).2 (mk.execute st).1 = (mk.execute st).1 ∧
    (rk.execute st).1 = st ∧ (rk.execute st).2 = rk := by
  have hcs1 : (cs.execute st).1 = st := by
    simp only [ConvertSegment.execute, hvar, ConvertSegment.convertToCurve]
    rw [if_neg hcsOut]
  have h2 : (st.segCtrls cs.segment).length = 4 → ConvertSegment.entities cs st ≠ [] := by
    intro h4 hnil
    have hlen := congrArg List.length hnil
    simp only [ConvertSegment.entities, List.length_dropLast, List.length_drop, h4,
      List.length_nil] at hlen
    omega
  obtain ⟨a, b, c, d, hlist⟩ := list_len4 _ hclLen
  have hcl1 : (cl.execute st).1 = cl.convertToLine st := by
    simp only [ConvertSegment.execute, hclvar]
  have hclseg : (cl.execute st).1.segCtrls cl.segment = [a, d] := by
    rw [hcl1]
    simp only [ConvertSegment.convertToLine]
    rw [Function.update_same, hlist]
    rfl
  have h3 : (cl.execute st).1.segCtrls cl.segment =
      [(st.segCtrls cl.segment).headI, (st.segCtrls cl.segment).getLastD 0] := by
    rw [hclseg, hlist]
    rfl
  have h4 : (cl.execute st).1 ≠ st := by
    intro heq
    rw [heq, hlist] at hclseg
    exact absurd hclseg (by simp)
  have hfind : findKfSeg mk.kf st.segKfs (st.pathSegs mk.path) = none :=
    findKfSeg_eq_none _ _ _ hmkOut
  have hmk1 : mk.execute st = (mk.addKeyframe mk.newPos st, mk) := by
    simp only [MoveKeyframe.execute, hfind]
  have hmem : mk.kf ∈ (mk.execute st).1.segKfs mk.newPos.segment := by
    rw [hmk1]
    simp only [MoveKeyframe.addKeyframe]
    rw [Function.update_same, mem_sortByX]
    simp
  have hneq : (mk.execute st).1 ≠ st := by
    intro heq
    rw [heq] at hmem
    exact hmkNew hmem
  have hrec : (mk.execute st).2 = mk := by rw [hmk1]
  have hundo : MoveKeyframe.undoK (mk.execute st).2 (mk.execute st).1 = (mk.execute st).1 := by
    rw [hrec]
    simp only [MoveKeyframe.undoK, hmkOld]
  have hfindr : findKfSeg rk.kf st.segKfs (st.pathSegs rk.path) = none :=
    findKfSeg_eq_none _ _ _ hrkOut
  have hrk : rk.execute st = (st, rk) := by
    simp only [RemoveKeyframe.execute, hfindr]
  refine ⟨hcs1, h2, h3, h4, by rw [hmk1], hmem, hneq, hrec, hundo, by rw [hrk], by rw [hrk]⟩

def c4State : GeomState :=
  { ctrl := fun _ => mkControl (0, 0),
    segCtrls := fun s => if s = 10 then [100, 101, 102, 103]
      else if s = 77 then [300, 301, 302, 303]
      else if s = 78 then [400, 401, 402, 403] else [],
    segKfs := fun _ => [],
    kf := fun _ => { xPos := 0, yPos := 0 },
    pathSegs := fun p => if p = 1 then [10] else [],
    paths := [1] }

theorem catalog_notFound_behaviour_witness :
    (ConvertSegment.execute ⟨1, 77, SegmentVariant.cubic, 200, 201, [], []⟩ c4State).1 =
      c4State ∧
    (ConvertSegment.execute ⟨1, 78, SegmentVariant.linear, 0, 0, [], []⟩ c4State).1 ≠
      c4State ∧
    (MoveKeyframe.execute ⟨1, ⟨10, 1/2, 3⟩, 55, none⟩ c4State).1 ≠ c4State ∧
    (RemoveKeyframe.execute ⟨1, 66, none, -1⟩ c4State).1 = c4State := by
  have h := catalog_notFound_behaviour c4State
    ⟨1, 77, SegmentVariant.cubic, 200, 201, [], []⟩
    ⟨1, 78, SegmentVariant.linear, 0, 0, [], []⟩
    ⟨1, ⟨10, 1/2, 3⟩, 55, none⟩ ⟨1, 66, none, -1⟩
    rfl (by decide) rfl (by decide) (by decide) (by decide) (by decide) rfl (by decide)
  exact ⟨h.1, h.2.2.2.1, h.2.2.2.2.2.2.1, h.2.2.2.2.2.2.2.2.2.1⟩

/-! ## Claim C2: the sharing invariant across the whole catalog.
Remaining commands of the catalog: AddKeyframe (`Command.tsx` 448-475),
AddSegment (193-260), AddPath (569-592). -/

structure AddKeyframe where
  path : Nat
  pos : KeyframePos
  kfUid : Nat
  deriving DecidableEq, Repr

/-- `AddKeyframe.execute`: allocate the keyframe at the requested
position, push it onto the segment's `speedProfiles` and sort by
`xPos`. -/
def AddKeyframe.executeK (c : AddKeyframe) (st : GeomState) : GeomState :=
  let k1 := Function.update st.kf c.kfUid { xPos := c.pos.xPos, yPos := c.pos.yPos }
  let sk := Function.update st.segKfs c.pos.segment
    (sortByX k1 (st.segKfs c.pos.segment ++ [c.kfUid]))
  { st with kf := k1, segKfs := sk }

/-- `AddKeyframe.undo`: `splice(indexOf(kf), 1)`; JS `indexOf` yields
`-1` when absent and `splice(-1, 1)` then removes the last element. -/
def AddKeyframe.undoA (c : AddKeyframe) (st : GeomState) : GeomState :=
  let l := st.segKfs c.pos.segment
  let sk := Function.update st.segKfs c.pos.segment
    (if c.kfUid ∈ l then l.eraseIdx (l.indexOf c.kfUid) else l.dropLast)
  { st with segKfs := sk }

/-- `AddKeyframe.redo`: push the same keyframe object back and sort. -/
def AddKeyframe.redoA (c : AddKeyframe) (st : GeomState) : GeomState :=
  let sk := Function.update st.segKfs c.pos.segment
    (sortByX st.kf (st.segKfs c.pos.segment ++ [c.kfUid]))
  { st with segKfs := sk }

/-- `AddSegment`: constructor arguments (`path`, `end`, `variant`) plus
uids for the objects `addLine`/`addCurve` allocate: the new `Segment`
(`segUid`), the `EndPointControl(0, 0, 0)` of the empty-path case
(`zeroUid`) and the two cubic handles (`p1Uid`, `p2Uid`). -/
structure AddSegment where
  path : Nat
  endU : Nat
  variant : SegmentVariant
  segUid : Nat
  zeroUid : Nat
  p1Uid : Nat
  p2Uid : Nat
  deriving DecidableEq, Repr

/-- `AddSegment.addLine`: an empty path gets a segment from a fresh
origin control to `end`; otherwise the segment starts at the previous
segment's last control (shared by reference) and the new segment is
pushed onto the path. -/
def AddSegment.addLine (c : AddSegment) (st : GeomState) : GeomState :=
  let segs := st.pathSegs c.path
  if segs.length = 0 then
    let cc := Function.update st.ctrl c.zeroUid
      { x := 0, y := 0, heading := 0, isEndPoint := true }
    let sc := Function.update st.segCtrls c.segUid [c.zeroUid, c.endU]
    let ps := Function.update st.pathSegs c.path (segs ++ [c.segUid])
    { st with ctrl := cc, segCtrls := sc, pathSegs := ps }
  else
    let lastSeg := segs.getLastD 0
    let firstU := lastCu st.segCtrls lastSeg
    let sc := Function.update st.segCtrls c.segUid [firstU, c.endU]
    let ps := Function.update st.pathSegs c.path (segs ++ [c.segUid])
    { st with segCtrls := sc, pathSegs := ps }

/-- `AddSegment.addCurve`: as `addLine` but with two interior handles;
`p0.mirror(...)` and the midpoint fallback are modelled from the spec
(`Path.tsx` is not under `src/`).  The handle uids are interior controls
and do not affect the sharing invariant. -/
def AddSegment.addCurve (c : AddSegment) (st : GeomState) : GeomState :=
  let segs := st.pathSegs c.path
  let p3 := st.ctrl c.endU
  if segs.length = 0 then
    let p0 : Control := { x := 0, y := 0, heading := 0, isEndPoint := true }
    let p1 := mkControl (p0.x, p0.y + 24)
    let p2 := mkControl (p3.x, p3.y - 24)
    let cc := Function.update (Function.update (Function.update st.ctrl c.zeroUid p0)
      c.p1Uid p1) c.p2Uid p2
    let sc := Function.update st.segCtrls c.segUid [c.zeroUid, c.p1Uid, c.p2Uid, c.endU]
    let ps := Function.update st.pathSegs c.path (segs ++ [c.segUid])
    { st with ctrl := cc, segCtrls := sc, pathSegs := ps }
  else
    let lastSeg := segs.getLastD 0
    let p0u := lastCu st.segCtrls lastSeg
    let p0 := st.ctrl p0u
    let lctrls := st.segCtrls lastSeg
    let cq := st.ctrl (if lctrls.length < 4 then lctrls.getD 0 0 else lctrls.getD 2 0)
    let p1 := mkControl (2 * p0.x - cq.x, 2 * p0.y - cq.y)
    let p2 := mkControl (midXY p0 p3)
    let cc := Function.update (Function.update st.ctrl c.p1Uid p1) c.p2Uid p2
    let sc := Function.update st.segCtrls c.segUid [p0u, c.p1Uid, c.p2Uid, c.endU]
    let ps := Function.update st.pathSegs c.path (segs ++ [c.segUid])
    { st with ctrl := cc, segCtrls := sc, pathSegs := ps }

def AddSegment.executeS (c : AddSegment) (st : GeomState) : GeomState :=
  match c.variant with
  | SegmentVariant.linear => c.addLine st
  | SegmentVariant.cubic => c.addCurve st

/-- `AddSegment.undo`: `path.segments.pop()`. -/
def AddSegment.undoS (c : AddSegment) (st : GeomState) : GeomState :=
  let ps := Function.update st.pathSegs c.path (st.pathSegs c.path).dropLast
  { st with pathSegs := ps }

/-- `AddSegment.redo`: push the recorded segment object back. -/
def AddSegment.redoS (c : AddSegment) (st : GeomState) : GeomState :=
  let ps := Function.update st.pathSegs c.path (st.pathSegs c.path ++ [c.segUid])
  { st with pathSegs := ps }

structure AddPath where
  pathU : Nat
  deriving DecidableEq, Repr

/-- `AddPath.execute`: `paths.push(path)`. -/
def AddPath.executeP (c : AddPath) (st : GeomState) : GeomState :=
  { st with paths := st.paths ++ [c.pathU] }

/-- `AddPath.undo`: `paths.splice(paths.indexOf(path), 1)`; JS `indexOf`
yields `-1` when absent and `splice(-1, 1)` removes the last element. -/
def AddPath.undoP (c : AddPath) (st : GeomState) : GeomState :=
  if c.pathU ∈ st.paths then
    { st with paths := st.paths.eraseIdx (st.paths.indexOf c.pathU) }
  else { st with paths := st.paths.dropLast }

def AddPath.redoP (c : AddPath) (st : GeomState) : GeomState :=
  { st with paths := st.paths ++ [c.pathU] }

/-- The claim's invariant: within every live path, every adjacent pair
of segments shares its endpoint control by reference. -/
def LinkedInv (st : GeomState) : Prop :=
  ∀ p ∈ st.paths, Linked st.segCtrls (st.pathSegs p)

instance (st : GeomState) : Decidable (LinkedInv st) := by
  unfold LinkedInv; infer_instance

theorem linkedInv_of_components {a b : GeomState}
    (hp : b.paths = a.paths) (hps : b.pathSegs = a.pathSegs)
    (hsc : b.segCtrls = a.segCtrls) (h : LinkedInv a) : LinkedInv b := by
  intro p hmem
  rw [hps, hsc]
  exact h p (hp ▸ hmem)

theorem wf_linkedInv {st : GeomState} (h : WF st) : LinkedInv st := h.2.2.2.2

theorem linked_congr_ends {sc sc' : Nat → List Nat} {l : List Nat}
    (h : ∀ x ∈ l, firstCu sc' x = firstCu sc x ∧ lastCu sc' x = lastCu sc x) :
    Linked sc' l ↔ Linked sc l :=
  chain'_congr_of_mem fun x hx y hy => by
    rw [(h x hx).2, (h y hy).1]

theorem getLastD_indep {l : List Nat} (h : l ≠ []) (d1 d2 : Nat) :
    l.getLastD d1 = l.getLastD d2 := by
  rw [List.getLastD_eq_getLast?, List.getLastD_eq_getLast?,
    List.getLast?_eq_getLast l h, Option.getD_some, Option.getD_some]

theorem getLastD_cons_cons (a b : Nat) (t : List Nat) (d : Nat) :
    (a :: b :: t).getLastD d = (b :: t).getLastD d := by
  rw [List.getLastD_cons]
  exact getLastD_indep (by simp) a d

theorem drop_length_sub_one : ∀ (l : List Nat), l ≠ [] → l.drop (l.length - 1) = [l.getLastD 0]
  | [_], _ => rfl
  | a :: b :: t, _ => by
    have ih := drop_length_sub_one (b :: t) (by simp)
    simp only [List.length_cons, Nat.add_sub_cancel] at ih ⊢
    rw [List.drop_succ_cons, ih, getLastD_cons_cons]

theorem convertLine_ends (l : List Nat) :
    (l.take 1 ++ l.drop (1 + (l.length - 2))).headI = l.headI ∧
    (l.take 1 ++ l.drop (1 + (l.length - 2))).getLastD 0 = l.getLastD 0 := by
  match l with
  | [] => simp
  | [a] => simp
  | a :: b :: t =>
    have hd : (a :: b :: t).drop (1 + ((a :: b :: t).length - 2)) =
        (b :: t).drop ((b :: t).length - 1) := by
      simp only [List.length_cons]
      rw [show 1 + (t.length + 1 + 1 - 2) = t.length + 1 by omega, List.drop_succ_cons]
      simp
    rw [hd, drop_length_sub_one (b :: t) (by simp)]
    refine ⟨rfl, ?_⟩
    simp only [List.take_cons_succ, List.take_zero, List.cons_append, List.nil_append]
    rw [getLastD_cons_cons]
    exact (getLastD_cons_cons a b t 0).symm

/-- Re-pointing one segment's control list while keeping its first and
last control fixed preserves the sharing invariant of every path. -/
theorem linkedInv_update_ends {st : GeomState} {seg : Nat} {v : List Nat}
    (hh : v.headI = (st.segCtrls seg).headI)
    (hl : v.getLastD 0 = (st.segCtrls seg).getLastD 0)
    (h : LinkedInv st) :
    ∀ p ∈ st.paths, Linked (Function.update st.segCtrls seg v) (st.pathSegs p) := by
  intro p hp
  refine (linked_congr_ends ?_).mpr (h p hp)
  intro x _
  by_cases hxs : x = seg
  · subst hxs
    refine ⟨?_, ?_⟩
    · rw [firstCu, firstCu, Function.update_same, hh]
    · rw [lastCu, lastCu, Function.update_same, hl]
  · refine ⟨?_, ?_⟩
    · rw [firstCu, firstCu, Function.update_noteq hxs]
    · rw [lastCu, lastCu, Function.update_noteq hxs]

theorem convertSegment_exec_struct (c : ConvertSegment) (st : GeomState) :
    (c.execute st).1.paths = st.paths ∧ (c.execute st).1.pathSegs = st.pathSegs := by
  cases hv : c.variant
  · simp [ConvertSegment.execute, hv, ConvertSegment.convertToLine]
  · simp only [ConvertSegment.execute, hv, ConvertSegment.convertToCurve]
    split <;> exact ⟨rfl, rfl⟩

theorem convertSegment_exec_segCtrls (c : ConvertSegment) (st : GeomState) :
    ∃ v, (c.execute st).1.segCtrls = Function.update st.segCtrls c.segment v ∧
      v.headI = (st.segCtrls c.segment).headI ∧
      v.getLastD 0 = (st.segCtrls c.segment).getLastD 0 := by
  cases hv : c.variant
  · refine ⟨(st.segCtrls c.segment).take 1 ++
      (st.segCtrls c.segment).drop (1 + ((st.segCtrls c.segment).length - 2)), ?_,
      (convertLine_ends _).1, (convertLine_ends _).2⟩
    simp [ConvertSegment.execute, hv, ConvertSegment.convertToLine]
  · simp only [ConvertSegment.execute, hv, ConvertSegment.convertToCurve]
    split
    · exact ⟨[(st.segCtrls c.segment).headI, c.p1Uid, c.p2Uid,
        (st.segCtrls c.segment).getLastD 0], rfl, rfl, rfl⟩
    · exact ⟨st.segCtrls c.segment, (Function.update_eq_self _ _).symm, rfl, rfl⟩

theorem convertSegment_exec_prev (c : ConvertSegment) (st : GeomState) :
    (c.execute st).2.previousControls = st.segCtrls c.segment := by
  cases hv : c.variant <;> simp [ConvertSegment.execute, hv]

theorem convertSegment_exec_new (c : ConvertSegment) (st : GeomState) :
    (c.execute st).2.newControls = (c.execute st).1.segCtrls c.segment := by
  cases hv : c.variant <;> simp [ConvertSegment.execute, hv]

theorem convertSegment_exec_seg (c : ConvertSegment) (st : GeomState) :
    (c.execute st).2.segment = c.segment := by
  cases hv : c.variant <;> simp [ConvertSegment.execute, hv]

theorem moveKf_addKeyframe_struct (c : MoveKeyframe) (pos : KeyframePos) (st : GeomState) :
    (c.addKeyframe pos st).paths = st.paths ∧
      (c.addKeyframe pos st).pathSegs = st.pathSegs ∧
      (c.addKeyframe pos st).segCtrls = st.segCtrls := ⟨rfl, rfl, rfl⟩

theorem moveKf_removeKeyframe_struct (c : MoveKeyframe) (pos : KeyframePos)
    (st : GeomState) :
    (c.removeKeyframe pos st).paths = st.paths ∧
      (c.removeKeyframe pos st).pathSegs = st.pathSegs ∧
      (c.removeKeyframe pos st).segCtrls = st.segCtrls := by
  simp only [MoveKeyframe.removeKeyframe]
  split <;> exact ⟨rfl, rfl, rfl⟩

theorem moveKf_exec_struct (c : MoveKeyframe) (st : GeomState) :
    (c.execute st).1.paths = st.paths ∧ (c.execute st).1.pathSegs = st.pathSegs ∧
      (c.execute st).1.segCtrls = st.segCtrls := by
  cases hf : findKfSeg c.kf st.segKfs (st.pathSegs c.path) <;>
    simp only [MoveKeyframe.execute, hf] <;>
    exact moveKf_addKeyframe_struct _ _ _

theorem moveKf_undo_struct (c : MoveKeyframe) (st : GeomState) :
    (c.undoK st).paths = st.paths ∧ (c.undoK st).pathSegs = st.pathSegs ∧
      (c.undoK st).segCtrls = st.segCtrls := by
  cases ho : c.oldPos
  · simp [MoveKeyframe.undoK, ho]
  · simp only [MoveKeyframe.undoK, ho]
    obtain ⟨h1, h2, h3⟩ := moveKf_removeKeyframe_struct c c.newPos st
    obtain ⟨g1, g2, g3⟩ := moveKf_addKeyframe_struct c _ (c.removeKeyframe c.newPos st)
    exact ⟨g1.trans h1, g2.trans h2, g3.trans h3⟩

theorem moveKf_redo_struct (c : MoveKeyframe) (st : GeomState) :
    (c.redoK st).paths = st.paths ∧ (c.redoK st).pathSegs = st.pathSegs ∧
      (c.redoK st).segCtrls = st.segCtrls := by
  cases ho : c.oldPos
  · simp [MoveKeyframe.redoK, ho]
  · simp only [MoveKeyframe.redoK, ho]
    obtain ⟨h1, h2, h3⟩ := moveKf_removeKeyframe_struct c _ st
    obtain ⟨g1, g2, g3⟩ := moveKf_addKeyframe_struct c c.newPos (c.removeKeyframe _ st)
    exact ⟨g1.trans h1, g2.trans h2, g3.trans h3⟩

theorem removeKf_exec_struct (c : RemoveKeyframe) (st : GeomState) :
    (c.execute st).1.paths = st.paths ∧ (c.execute st).1.pathSegs = st.pathSegs ∧
      (c.execute st).1.segCtrls = st.segCtrls := by
  cases hf : findKfSeg c.kf st.segKfs (st.pathSegs c.path) <;>
    simp [RemoveKeyframe.execute, hf]

theorem removeKf_undo_struct (c : RemoveKeyframe) (st : GeomState) :
    (c.undoK st).paths = st.paths ∧ (c.undoK st).pathSegs = st.pathSegs ∧
      (c.undoK st).segCtrls = st.segCtrls := by
  cases hs : c.segment
  · simp [RemoveKeyframe.undoK, hs]
  · simp only [RemoveKeyframe.undoK, hs]
    split <;> simp

theorem removeKf_redo_struct (c : RemoveKeyframe) (st : GeomState) :
    (c.redoK st).paths = st.paths ∧ (c.redoK st).pathSegs = st.pathSegs ∧
      (c.redoK st).segCtrls = st.segCtrls := by
  cases hs : c.segment
  · simp [RemoveKeyframe.redoK, hs]
  · simp only [RemoveKeyframe.redoK, hs]
    split <;> simp

theorem insertIdx_succ_append (A B : List Nat) (s n : Nat) :
    (A ++ s :: B).insertIdx (A.length + 1) n = A ++ s :: n :: B := by
  induction A with
  | nil => rfl
  | cons x xs ih =>
    simp only [List.cons_append, List.length_cons, List.insertIdx_succ_cons, ih]

/-- Chain surgery for `SplitSegment`: replacing segment `s` by the pair
`s, n` (inserted right after it) keeps a path linked when `s` keeps its
first control, hands its last control `X` to `n`'s first, and `n` ends
at `s`'s former last control. -/
theorem linked_insert_split {sc sc' : Nat → List Nat} {l : List Nat} {s n : Nat} (X : Nat)
    (hmem : s ∈ l) (hnodup : l.Nodup) (hn : n ∉ l)
    (hfirst : firstCu sc' s = firstCu sc s)
    (hlast : lastCu sc' s = X)
    (hnfirst : firstCu sc' n = X)
    (hnlast : lastCu sc' n = lastCu sc s)
    (hother : ∀ x, x ≠ s → x ≠ n → sc' x = sc x)
    (hlink : Linked sc l) :
    Linked sc' (l.insertIdx (l.indexOf s + 1) n) := by
  have hidx : l.indexOf s < l.length := List.indexOf_lt_length.mpr hmem
  have hget : l[l.indexOf s] = s := List.getElem_indexOf hidx
  have hdecomp : l = l.take (l.indexOf s) ++ s :: l.drop (l.indexOf s + 1) := by
    conv_lhs => rw [← List.take_append_drop (l.indexOf s) l]
    congr 1
    rw [List.drop_eq_getElem_cons hidx, hget]
  have hlenA : (l.take (l.indexOf s)).length = l.indexOf s := by
    rw [List.length_take]; omega
  have hins : l.insertIdx (l.indexOf s + 1) n =
      l.take (l.indexOf s) ++ s :: n :: l.drop (l.indexOf s + 1) := by
    have h1 : (l.take (l.indexOf s) ++ s :: l.drop (l.indexOf s + 1)).insertIdx
        ((l.take (l.indexOf s)).length + 1) n =
        l.take (l.indexOf s) ++ s :: n :: l.drop (l.indexOf s + 1) :=
      insertIdx_succ_append _ _ _ _
    rw [hlenA] at h1
    rw [← hdecomp] at h1
    exact h1
  set A := l.take (l.indexOf s) with hA
  set B := l.drop (l.indexOf s + 1) with hB
  have hnd : (A ++ s :: B).Nodup := hdecomp ▸ hnodup
  have hsA : s ∉ A := by
    intro hmemA
    exact List.disjoint_of_nodup_append hnd hmemA (by simp)
  have hsB : s ∉ B := by
    have := (List.nodup_append.mp hnd).2.1
    simp only [List.nodup_cons] at this
    exact this.1
  have hnA : n ∉ A := fun hmemA => hn (hdecomp ▸ List.mem_append_left _ hmemA)
  have hnB : n ∉ B := fun hmemB =>
    hn (hdecomp ▸ List.mem_append_right _ (List.mem_cons_of_mem s hmemB))
  have hlink' : Linked sc (A ++ s :: B) := hdecomp ▸ hlink
  rw [hins, Linked, List.chain'_append]
  rw [Linked, List.chain'_append] at hlink'
  obtain ⟨hchA, hchSB, hbridge⟩ := hlink'
  rw [List.chain'_cons'] at hchSB
  obtain ⟨hheadB, hchB⟩ := hchSB
  have hcongrA : ∀ x ∈ A, sc' x = sc x := fun x hx =>
    hother x (fun h => hsA (h ▸ hx)) (fun h => hnA (h ▸ hx))
  have hcongrB : ∀ x ∈ B, sc' x = sc x := fun x hx =>
    hother x (fun h => hsB (h ▸ hx)) (fun h => hnB (h ▸ hx))
  refine ⟨(linked_congr hcongrA).mpr hchA, ?_, ?_⟩
  · rw [List.chain'_cons]
    refine ⟨by rw [hlast, hnfirst], ?_⟩
    rw [List.chain'_cons']
    refine ⟨?_, (linked_congr hcongrB).mpr hchB⟩
    intro y hy
    have hyB : y ∈ B := List.mem_of_mem_head? hy
    have h2 : firstCu sc' y = firstCu sc y := by
      rw [firstCu, firstCu, hcongrB y hyB]
    rw [hnlast, h2]
    exact hheadB y hy
  · intro x hx y hy
    have hxA : x ∈ A := List.mem_of_mem_getLast? hx
    have hy' : s = y := by simpa using hy
    subst hy'
    have h1 : lastCu sc' x = lastCu sc x := by
      rw [lastCu, lastCu, hcongrA x hxA]
    rw [h1, hfirst]
    exact hbridge x hx s (by simp)

theorem headI_eq_getD_zero (l : List Nat) (h : l ≠ []) : l.headI = l.getD 0 0 := by
  cases l with
  | nil => simp at h
  | cons a t => rfl

theorem split_exec_len2 (c : SplitSegment) (st : GeomState)
    (hmem : c.originalSegment ∈ st.pathSegs c.path)
    (hlen : (st.segCtrls c.originalSegment).length = 2) :
    (c.execute st).1.segCtrls =
      Function.update (Function.update st.segCtrls c.originalSegment
          (setLast (st.segCtrls c.originalSegment) c.point))
        c.newSegUid [c.point, lastCu st.segCtrls c.originalSegment] ∧
    (c.execute st).1.pathSegs = Function.update st.pathSegs c.path
      ((st.pathSegs c.path).insertIdx
        ((st.pathSegs c.path).indexOf c.originalSegment + 1) c.newSegUid) ∧
    (c.execute st).1.paths = st.paths ∧
    (c.execute st).2.previousOriginalSegmentControls = st.segCtrls c.originalSegment ∧
    (c.execute st).2.newOriginalSegmentControls =
      setLast (st.segCtrls c.originalSegment) c.point ∧
    (c.execute st).2.newSegment = some c.newSegUid := by
  refine ⟨?_, ?_, ?_, ?_, ?_, ?_⟩ <;> simp [SplitSegment.execute, hmem, hlen]

theorem split_exec_len4 (c : SplitSegment) (st : GeomState)
    (hmem : c.originalSegment ∈ st.pathSegs c.path)
    (hlen : (st.segCtrls c.originalSegment).length = 4) :
    (c.execute st).1.segCtrls =
      Function.update (Function.update st.segCtrls c.originalSegment
          [(st.segCtrls c.originalSegment).getD 0 0, (st.segCtrls c.originalSegment).getD 1 0,
           c.aUid, c.point])
        c.newSegUid [c.point, c.cUid, (st.segCtrls c.originalSegment).getD 2 0,
          (st.segCtrls c.originalSegment).getD 3 0] ∧
    (c.execute st).1.pathSegs = Function.update st.pathSegs c.path
      ((st.pathSegs c.path).insertIdx
        ((st.pathSegs c.path).indexOf c.originalSegment + 1) c.newSegUid) ∧
    (c.execute st).1.paths = st.paths ∧
    (c.execute st).2.previousOriginalSegmentControls = st.segCtrls c.originalSegment ∧
    (c.execute st).2.newOriginalSegmentControls =
      [(st.segCtrls c.originalSegment).getD 0 0, (st.segCtrls c.originalSegment).getD 1 0,
       c.aUid, c.point] ∧
    (c.execute st).2.newSegment = some c.newSegUid := by
  refine ⟨?_, ?_, ?_, ?_, ?_, ?_⟩ <;> simp [SplitSegment.execute, hmem, hlen]

theorem split_undo_redo_comps (c : SplitSegment) (st : GeomState)
    (newv nlist : List Nat)
    (hmem : c.originalSegment ∈ st.pathSegs c.path)
    (hfresh : c.newSegUid ∉ st.pathSegs c.path)
    (hne : c.originalSegment ≠ c.newSegUid)
    (hsc : (c.execute st).1.segCtrls =
      Function.update (Function.update st.segCtrls c.originalSegment newv) c.newSegUid nlist)
    (hps : (c.execute st).1.pathSegs = Function.update st.pathSegs c.path
      ((st.pathSegs c.path).insertIdx
        ((st.pathSegs c.path).indexOf c.originalSegment + 1) c.newSegUid))
    (hrec : (c.execute st).2.previousOriginalSegmentControls = st.segCtrls c.originalSegment)
    (hrecn : (c.execute st).2.newOriginalSegmentControls = newv)
    (hrecs : (c.execute st).2.newSegment = some c.newSegUid) :
    (c.undo (c.execute st).2 (c.execute st).1).segCtrls =
        Function.update st.segCtrls c.newSegUid nlist ∧
    (c.undo (c.execute st).2 (c.execute st).1).pathSegs = st.pathSegs ∧
    (c.undo (c.execute st).2 (c.execute st).1).paths = (c.execute st).1.paths ∧
    (c.redo (c.execute st).2 (c.undo (c.execute st).2 (c.execute st).1)).segCtrls =
        (c.execute st).1.segCtrls ∧
    (c.redo (c.execute st).2 (c.undo (c.execute st).2 (c.execute st).1)).pathSegs =
        (c.execute st).1.pathSegs ∧
    (c.redo (c.execute st).2 (c.undo (c.execute st).2 (c.execute st).1)).paths =
        (c.execute st).1.paths := by
  have hidx : (st.pathSegs c.path).indexOf c.originalSegment + 1 ≤
      (st.pathSegs c.path).length := List.indexOf_lt_length.mpr hmem
  have hmem2 : c.newSegUid ∈ (st.pathSegs c.path).insertIdx
      ((st.pathSegs c.path).indexOf c.originalSegment + 1) c.newSegUid :=
    (List.mem_insertIdx hidx).mpr (Or.inl rfl)
  have hio : ((st.pathSegs c.path).insertIdx
      ((st.pathSegs c.path).indexOf c.originalSegment + 1) c.newSegUid).indexOf
      c.newSegUid = (st.pathSegs c.path).indexOf c.originalSegment + 1 :=
    indexOf_insertIdx_self hfresh hidx
  have hundo : c.undo (c.execute st).2 (c.execute st).1 =
      { (c.execute st).1 with
          segCtrls := Function.update st.segCtrls c.newSegUid nlist,
          pathSegs := st.pathSegs } := by
    simp only [SplitSegment.undo, hrecs]
    simp only [hrec, hsc, hps, Function.update_same, hmem2, if_true, hio,
      List.eraseIdx_insertIdx]
    refine GeomState.ext rfl ?_ rfl rfl ?_ rfl
    · first
      | rw [Function.update_comm hne, Function.update_idem, Function.update_eq_self]
      | rw [Function.update_comm (Ne.symm hne), Function.update_idem,
          Function.update_eq_self]
    · rw [Function.update_idem]
      exact Function.update_eq_self _ _
  have hredo : c.redo (c.execute st).2 (c.undo (c.execute st).2 (c.execute st).1) =
      { c.undo (c.execute st).2 (c.execute st).1 with
          segCtrls := (c.execute st).1.segCtrls,
          pathSegs := (c.execute st).1.pathSegs } := by
    rw [hundo]
    simp only [SplitSegment.redo, hrecs, hrecn, hmem, if_true, hsc, hps]
    refine GeomState.ext rfl ?_ rfl rfl rfl rfl
    first
    | rw [Function.update_comm hne]
    | rw [Function.update_comm (Ne.symm hne)]
  refine ⟨by rw [hundo], by rw [hundo], by rw [hundo], by rw [hredo], by rw [hredo],
    by rw [hredo, hundo]⟩

theorem split_exec_linked_path {sc : Nat → List Nat} {l : List Nat} {s n : Nat}
    {newv nlist : List Nat} (X : Nat)
    (hmem : s ∈ l) (hnodup : l.Nodup) (hn : n ∉ l) (hne : s ≠ n)
    (hv1 : newv.headI = (sc s).headI) (hv2 : newv.getLastD 0 = X)
    (hn1 : nlist.headI = X) (hn2 : nlist.getLastD 0 = (sc s).getLastD 0)
    (hlink : Linked sc l) :
    Linked (Function.update (Function.update sc s newv) n nlist)
      (l.insertIdx (l.indexOf s + 1) n) := by
  refine linked_insert_split X hmem hnodup hn ?_ ?_ ?_ ?_ ?_ hlink
  · simp only [firstCu]
    rw [Function.update_noteq hne, Function.update_same, hv1]
  · simp only [lastCu]
    rw [Function.update_noteq hne, Function.update_same, hv2]
  · simp only [firstCu]
    rw [Function.update_same, hn1]
  · simp only [lastCu]
    rw [Function.update_same, hn2]
  · intro x h1 h2
    rw [Function.update_noteq h2, Function.update_noteq h1]

theorem linked_update2_notmem {sc : Nat → List Nat} {l : List Nat} {a b : Nat}
    {v w : List Nat} (ha : a ∉ l) (hb : b ∉ l) :
    Linked (Function.update (Function.update sc a v) b w) l ↔ Linked sc l := by
  rw [linked_update_notmem hb, linked_update_notmem ha]

theorem split_linkedInv (c : SplitSegment) (st : GeomState) (hwf : WF st)
    (hpath : c.path ∈ st.paths)
    (hmem : c.originalSegment ∈ st.pathSegs c.path)
    (hfreshAll : ∀ q ∈ st.paths, c.newSegUid ∉ st.pathSegs q)
    (hne : c.originalSegment ≠ c.newSegUid) :
    LinkedInv (c.execute st).1 ∧
    LinkedInv (c.undo (c.execute st).2 (c.execute st).1) ∧
    LinkedInv (c.redo (c.execute st).2 (c.undo (c.execute st).2 (c.execute st).1)) := by
  obtain ⟨hndP, hndSeg, hshare, hseglen, hlinked⟩ := hwf
  have hfresh : c.newSegUid ∉ st.pathSegs c.path := hfreshAll c.path hpath
  have hlen : (st.segCtrls c.originalSegment).length = 2 ∨
      (st.segCtrls c.originalSegment).length = 4 := hseglen c.path hpath _ hmem
  obtain ⟨newv, nlist, hsc, hps, hpa, hrec, hrecn, hrecs, hends⟩ :
      ∃ newv nlist,
        (c.execute st).1.segCtrls = Function.update (Function.update st.segCtrls
          c.originalSegment newv) c.newSegUid nlist ∧
        (c.execute st).1.pathSegs = Function.update st.pathSegs c.path
          ((st.pathSegs c.path).insertIdx
            ((st.pathSegs c.path).indexOf c.originalSegment + 1) c.newSegUid) ∧
        (c.execute st).1.paths = st.paths ∧
        (c.execute st).2.previousOriginalSegmentControls = st.segCtrls c.originalSegment ∧
        (c.execute st).2.newOriginalSegmentControls = newv ∧
        (c.execute st).2.newSegment = some c.newSegUid ∧
        (newv.headI = (st.segCtrls c.originalSegment).headI ∧
          newv.getLastD 0 = c.point ∧
          nlist.headI = c.point ∧
          nlist.getLastD 0 = (st.segCtrls c.originalSegment).getLastD 0) := by
    rcases hlen with h2 | h4
    · obtain ⟨e1, e2, e3, e4, e5, e6⟩ := split_exec_len2 c st hmem h2
      exact ⟨setLast (st.segCtrls c.originalSegment) c.point,
        [c.point, lastCu st.segCtrls c.originalSegment], e1, e2, e3, e4, e5, e6,
        headI_setLast (by omega) c.point, getLastD_setLast _ _, rfl, rfl⟩
    · obtain ⟨e1, e2, e3, e4, e5, e6⟩ := split_exec_len4 c st hmem h4
      obtain ⟨a, b, d, e, hlist⟩ := list_len4 _ h4
      refine ⟨[(st.segCtrls c.originalSegment).getD 0 0,
        (st.segCtrls c.originalSegment).getD 1 0, c.aUid, c.point],
        [c.point, c.cUid, (st.segCtrls c.originalSegment).getD 2 0,
         (st.segCtrls c.originalSegment).getD 3 0], e1, e2, e3, e4, e5, e6, ?_, rfl, rfl, ?_⟩
      · rw [hlist]
        rfl
      · rw [hlist]
        rfl
  have hnodup : (st.pathSegs c.path).Nodup := hndSeg c.path hpath
  have hlinkP : Linked st.segCtrls (st.pathSegs c.path) := hlinked c.path hpath
  have hexecInv : LinkedInv (c.execute st).1 := by
    intro p hp
    rw [hpa] at hp
    rw [hsc, hps]
    by_cases hpc : p = c.path
    · subst hpc
      rw [Function.update_same]
      exact split_exec_linked_path c.point hmem hnodup hfresh hne hends.1 hends.2.1
        hends.2.2.1 hends.2.2.2 hlinkP
    · rw [Function.update_noteq hpc]
      have hOrigNot : c.originalSegment ∉ st.pathSegs p :=
        hshare c.path hpath p hp (fun h => hpc h.symm) _ hmem
      have hNNot : c.newSegUid ∉ st.pathSegs p := hfreshAll p hp
      exact (linked_update2_notmem hOrigNot hNNot).mpr (hlinked p hp)
  obtain ⟨u1, u2, u3, r1, r2, r3⟩ :=
    split_undo_redo_comps c st newv nlist hmem hfresh hne hsc hps hrec hrecn hrecs
  refine ⟨hexecInv, ?_, ?_⟩
  · intro p hp
    rw [u3, hpa] at hp
    rw [u1, u2]
    exact (linked_update_notmem (hfreshAll p hp)).mpr (hlinked p hp)
  · exact linkedInv_of_components r3 r2 r1 hexecInv

theorem addSeg_exec_comps (c : AddSegment) (st : GeomState) :
    ∃ v, (c.executeS st).segCtrls = Function.update st.segCtrls c.segUid v ∧
      (c.executeS st).pathSegs = Function.update st.pathSegs c.path
        (st.pathSegs c.path ++ [c.segUid]) ∧
      (c.executeS st).paths = st.paths ∧
      (st.pathSegs c.path ≠ [] →
        v.headI = lastCu st.segCtrls ((st.pathSegs c.path).getLastD 0)) := by
  by_cases hlen : (st.pathSegs c.path).length = 0
  · have hnil : st.pathSegs c.path = [] := List.length_eq_zero.mp hlen
    cases hv : c.variant
    · exact ⟨[c.zeroUid, c.endU],
        by simp [AddSegment.executeS, hv, AddSegment.addLine, hlen],
        by simp [AddSegment.executeS, hv, AddSegment.addLine, hlen],
        by simp [AddSegment.executeS, hv, AddSegment.addLine, hlen],
        fun h => absurd hnil h⟩
    · exact ⟨[c.zeroUid, c.p1Uid, c.p2Uid, c.endU],
        by simp [AddSegment.executeS, hv, AddSegment.addCurve, hlen],
        by simp [AddSegment.executeS, hv, AddSegment.addCurve, hlen],
        by simp [AddSegment.executeS, hv, AddSegment.addCurve, hlen],
        fun h => absurd hnil h⟩
  · cases hv : c.variant
    · exact ⟨[lastCu st.segCtrls ((st.pathSegs c.path).getLastD 0), c.endU],
        by simp [AddSegment.executeS, hv, AddSegment.addLine, hlen],
        by simp [AddSegment.executeS, hv, AddSegment.addLine, hlen],
        by simp [AddSegment.executeS, hv, AddSegment.addLine, hlen],
        fun _ => rfl⟩
    · exact ⟨[lastCu st.segCtrls ((st.pathSegs c.path).getLastD 0), c.p1Uid, c.p2Uid, c.endU],
        by simp [AddSegment.executeS, hv, AddSegment.addCurve, hlen],
        by simp [AddSegment.executeS, hv, AddSegment.addCurve, hlen],
        by simp [AddSegment.executeS, hv, AddSegment.addCurve, hlen],
        fun _ => rfl⟩

theorem linked_append_fresh {sc : Nat → List Nat} {l : List Nat} {n : Nat} {v : List Nat}
    (hn : n ∉ l)
    (hbridge : l ≠ [] → v.headI = lastCu sc (l.getLastD 0))
    (hlink : Linked sc l) :
    Linked (Function.update sc n v) (l ++ [n]) := by
  rw [Linked, List.chain'_append]
  refine ⟨(linked_update_notmem hn).mpr hlink, List.chain'_singleton n, ?_⟩
  intro x hx y hy
  have hy' : n = y := by simpa using hy
  subst hy'
  have hxl : x ∈ l := List.mem_of_mem_getLast? hx
  have hlne : l ≠ [] := List.ne_nil_of_mem hxl
  have hxlast : x = l.getLastD 0 := by
    rw [List.getLastD_eq_getLast?, Option.mem_def.mp hx, Option.getD_some]
  have hxne : x ≠ n := fun h => hn (h ▸ hxl)
  rw [lastCu, Function.update_noteq hxne, firstCu, Function.update_same,
    hbridge hlne, hxlast, lastCu]

theorem addSeg_linkedInv (c : AddSegment) (st : GeomState)
    (hInv : LinkedInv st)
    (hfreshAll : ∀ q ∈ st.paths, c.segUid ∉ st.pathSegs q) :
    LinkedInv (c.executeS st) ∧
    LinkedInv (c.undoS (c.executeS st)) ∧
    LinkedInv (c.redoS (c.undoS (c.executeS st))) := by
  obtain ⟨v, hsc, hps, hpa, hbridge⟩ := addSeg_exec_comps c st
  have hexecInv : LinkedInv (c.executeS st) := by
    intro p hp
    rw [hpa] at hp
    rw [hsc, hps]
    by_cases hpc : p = c.path
    · subst hpc
      rw [Function.update_same]
      exact linked_append_fresh (hfreshAll c.path hp) hbridge (hInv c.path hp)
    · rw [Function.update_noteq hpc]
      exact (linked_update_notmem (hfreshAll p hp)).mpr (hInv p hp)
  have hundoPs : (c.undoS (c.executeS st)).pathSegs = st.pathSegs := by
    simp only [AddSegment.undoS, hps, Function.update_same, List.dropLast_concat,
      Function.update_idem]
    exact Function.update_eq_self _ _
  have hundoSc : (c.undoS (c.executeS st)).segCtrls = Function.update st.segCtrls c.segUid v := by
    simp only [AddSegment.undoS, hsc]
  have hundoPa : (c.undoS (c.executeS st)).paths = st.paths := by
    simp only [AddSegment.undoS, hpa]
  have hundoInv : LinkedInv (c.undoS (c.executeS st)) := by
    intro p hp
    rw [hundoPa] at hp
    rw [hundoSc, hundoPs]
    exact (linked_update_notmem (hfreshAll p hp)).mpr (hInv p hp)
  refine ⟨hexecInv, hundoInv, ?_⟩
  refine linkedInv_of_components ?_ ?_ ?_ hexecInv
  · simp only [AddSegment.redoS, hundoPa, hpa]
  · simp only [AddSegment.redoS, hundoPs, hps, Function.update_same, Function.update_idem]
  · simp only [AddSegment.redoS, hundoSc, hsc]

theorem addPath_linkedInv (c : AddPath) (st : GeomState)
    (hInv : LinkedInv st)
    (hlinkNew : Linked st.segCtrls (st.pathSegs c.pathU))
    (hnotmem : c.pathU ∉ st.paths) :
    LinkedInv (c.executeP st) ∧
    LinkedInv (c.undoP (c.executeP st)) ∧
    LinkedInv (c.redoP (c.undoP (c.executeP st))) := by
  have hexecInv : LinkedInv (c.executeP st) := by
    intro p hp
    simp only [AddPath.executeP] at hp ⊢
    rcases List.mem_append.mp hp with h | h
    · exact hInv p h
    · have : p = c.pathU := by simpa using h
      subst this
      exact hlinkNew
  have hmem : c.pathU ∈ (c.executeP st).paths := by
    simp [AddPath.executeP]
  have hio : ((c.executeP st).paths).indexOf c.pathU = st.paths.length := by
    simp only [AddPath.executeP]
    rw [← List.insertIdx_length_self st.paths c.pathU]
    exact indexOf_insertIdx_self hnotmem (Nat.le_refl _)
  have hundo : c.undoP (c.executeP st) = st := by
    simp only [AddPath.undoP, hmem, if_true, hio]
    refine GeomState.ext rfl rfl rfl rfl rfl ?_
    simp only [AddPath.executeP]
    rw [← List.insertIdx_length_self st.paths c.pathU, List.eraseIdx_insertIdx]
  refine ⟨hexecInv, ?_, ?_⟩
  · rw [hundo]
    exact hInv
  · rw [hundo]
    exact linkedInv_of_components rfl rfl rfl hexecInv

theorem findRemoveIdxAux_sound (sc : Nat → List Nat) (control : Nat) :
    ∀ (l : List Nat) (k i : Nat), findRemoveIdxAux sc control l k = some i →
      k ≤ i ∧ i - k < l.length ∧
        (firstCu sc (l.getD (i - k) 0) = control ∨
          (i - k = l.length - 1 ∧ lastCu sc (l.getD (i - k) 0) = control))
  | [], k, i, h => by simp [findRemoveIdxAux] at h
  | s :: rest, k, i, h => by
    rw [findRemoveIdxAux] at h
    split at h
    · rename_i hcond
      have hik : i = k := by
        have := Option.some.inj h
        omega
      subst hik
      refine ⟨Nat.le_refl _, by simp, ?_⟩
      simp only [Nat.sub_self, List.getD_cons_zero]
      rcases hcond with h1 | ⟨h1, h2⟩
      · exact Or.inl h1
      · subst h1
        exact Or.inr ⟨by simp, h2⟩
    · have ih := findRemoveIdxAux_sound sc control rest (k + 1) i h
      obtain ⟨hk, hlt, hc⟩ := ih
      have hik : 1 ≤ i - k := by omega
      refine ⟨by omega, ?_, ?_⟩
      · simp only [List.length_cons]
        omega
      · have hg : (s :: rest).getD (i - k) 0 = rest.getD (i - k - 1) 0 := by
          obtain ⟨m, hm⟩ : ∃ m, i - k = m + 1 := ⟨i - k - 1, by omega⟩
          rw [hm, List.getD_cons_succ, Nat.add_sub_cancel]
        have hik1 : i - k - 1 = i - (k + 1) := by omega
        rcases hc with h1 | ⟨h1, h2⟩
        · exact Or.inl (by rw [hg, hik1]; exact h1)
        · refine Or.inr ⟨?_, by rw [hg, hik1]; exact h2⟩
          simp only [List.length_cons]
          omega

theorem linked_adjacent {sc : Nat → List Nat} {l : List Nat} (h : Linked sc l)
    {i : Nat} (h1 : 1 ≤ i) (h2 : i < l.length) :
    lastCu sc (l.getD (i - 1) 0) = firstCu sc (l.getD i 0) := by
  rw [Linked, List.chain'_iff_get] at h
  have hx := h (i - 1) (by omega)
  rw [List.getD_eq_getElem _ _ (by omega : i - 1 < l.length),
    List.getD_eq_getElem _ _ h2]
  have hi1 : i - 1 + 1 = i := by omega
  simp only [List.get_eq_getElem] at hx
  convert hx using 3 <;> omega

theorem getD_eraseIdx_lt : ∀ (l : List Nat) (i j : Nat), j < i →
    (l.eraseIdx i).getD j 0 = l.getD j 0
  | [], _, _, _ => by simp
  | x :: xs, 0, j, h => by omega
  | x :: xs, i + 1, 0, _ => by simp [List.eraseIdx_cons_succ]
  | x :: xs, i + 1, j + 1, h => by
    rw [List.eraseIdx_cons_succ, List.getD_cons_succ, List.getD_cons_succ]
    exact getD_eraseIdx_lt xs i j (by omega)

theorem mem_eraseIdx_indexOf : ∀ {l : List Nat} {p q : Nat}, q ≠ p → q ∈ l →
    q ∈ l.eraseIdx (l.indexOf p)
  | [], _, _, _, hq => by simp at hq
  | x :: xs, p, q, hne, hq => by
    by_cases hxp : x = p
    · subst hxp
      rw [List.indexOf_cons_self, List.eraseIdx_zero]
      rcases List.mem_cons.mp hq with h | h
      · exact absurd h hne
      · simpa using h
    · rw [List.indexOf_cons_ne _ (fun h => hxp h), List.eraseIdx_cons_succ]
      rcases List.mem_cons.mp hq with h | h
      · exact h ▸ List.mem_cons_self _ _
      · exact List.mem_cons_of_mem _ (mem_eraseIdx_indexOf hne h)

theorem length_setLast {l : List Nat} (h : l ≠ []) (c : Nat) :
    (setLast l c).length = l.length := by
  rw [setLast, List.length_append, List.length_dropLast, List.length_singleton]
  have : 1 ≤ l.length := List.length_pos.mpr h
  omega

theorem eraseIdx_last_eq_dropLast {l : List Nat} (h : l ≠ []) :
    l.eraseIdx (l.length - 1) = l.dropLast := by
  rw [List.eraseIdx_eq_take_drop_succ, List.dropLast_eq_take]
  have : 1 ≤ l.length := List.length_pos.mpr h
  rw [show l.length - 1 + 1 = l.length by omega, List.drop_length, List.append_nil]

theorem removeControlStep_none (st : GeomState) (p control : Nat)
    (hfind : findRemoveIdxAux st.segCtrls control (st.pathSegs p) 0 = none) :
    removeControlStep st p control = (st, none) := by
  simp [removeControlStep, hfind]

theorem removeControlStep_some_link (st : GeomState) (p control i : Nat)
    (hfind : findRemoveIdxAux st.segCtrls control (st.pathSegs p) 0 = some i)
    (hfirst : firstCu st.segCtrls ((st.pathSegs p).getD i 0) = control)
    (hne0 : i ≠ 0) :
    removeControlStep st p control =
      ({ st with
          segCtrls := Function.update st.segCtrls ((st.pathSegs p).getD (i - 1) 0)
            (setLast (st.segCtrls ((st.pathSegs p).getD (i - 1) 0))
              (lastCu st.segCtrls ((st.pathSegs p).getD i 0))),
          pathSegs := Function.update st.pathSegs p ((st.pathSegs p).eraseIdx i) },
       some ⟨i, (st.pathSegs p).getD i 0, p, true⟩) := by
  have hcond : (decide (firstCu st.segCtrls ((st.pathSegs p).getD i 0) = control) &&
      decide (i ≠ 0)) = true := by
    rw [hfirst]
    simp [hne0]
  simp only [removeControlStep, hfind]
  rw [hcond]
  simp

theorem removeControlStep_some_nolink (st : GeomState) (p control i : Nat)
    (hfind : findRemoveIdxAux st.segCtrls control (st.pathSegs p) 0 = some i)
    (hcond : ¬(firstCu st.segCtrls ((st.pathSegs p).getD i 0) = control ∧ i ≠ 0)) :
    removeControlStep st p control =
      ({ st with pathSegs := Function.update st.pathSegs p ((st.pathSegs p).eraseIdx i) },
       some ⟨i, (st.pathSegs p).getD i 0, p, false⟩) := by
  have hc : (decide (firstCu st.segCtrls ((st.pathSegs p).getD i 0) = control) &&
      decide (i ≠ 0)) = false := by
    rw [Bool.and_eq_false_iff]
    rcases not_and_or.mp hcond with h | h
    · exact Or.inl (by simpa using h)
    · exact Or.inr (by simpa using h)
  simp only [removeControlStep, hfind]
  rw [hc]
  simp

theorem removeUndoStep_inverts_link (st : GeomState) (p control i : Nat)
    (hi : i < (st.pathSegs p).length) (h1 : 1 ≤ i)
    (hfirst : firstCu st.segCtrls ((st.pathSegs p).getD i 0) = control)
    (hshared : lastCu st.segCtrls ((st.pathSegs p).getD (i - 1) 0) = control)
    (hnodup : (st.pathSegs p).Nodup)
    (hplen : 2 ≤ (st.segCtrls ((st.pathSegs p).getD (i - 1) 0)).length) :
    removeUndoStep
      ({ st with
          segCtrls := Function.update st.segCtrls ((st.pathSegs p).getD (i - 1) 0)
            (setLast (st.segCtrls ((st.pathSegs p).getD (i - 1) 0))
              (lastCu st.segCtrls ((st.pathSegs p).getD i 0))),
          pathSegs := Function.update st.pathSegs p ((st.pathSegs p).eraseIdx i) })
      ⟨i, (st.pathSegs p).getD i 0, p, true⟩ = st := by
  have hi1 : i - 1 < (st.pathSegs p).length := by omega
  have hne : (st.pathSegs p).getD (i - 1) 0 ≠ (st.pathSegs p).getD i 0 := by
    rw [List.getD_eq_getElem _ 0 hi1, List.getD_eq_getElem _ 0 hi]
    intro h
    have := (List.Nodup.getElem_inj_iff hnodup).mp h
    omega
  have hsegs' : (Function.update st.pathSegs p ((st.pathSegs p).eraseIdx i)) p =
      (st.pathSegs p).eraseIdx i := Function.update_same _ _ _
  have hins : List.insertIdx i ((st.pathSegs p).getD i 0)
      ((st.pathSegs p).eraseIdx i) = st.pathSegs p := insertIdx_eraseIdx_getD hi
  have hv : setLast
      (setLast (st.segCtrls ((st.pathSegs p).getD (i - 1) 0))
        (lastCu st.segCtrls ((st.pathSegs p).getD i 0))) control =
      st.segCtrls ((st.pathSegs p).getD (i - 1) 0) := by
    rw [setLast, dropLast_setLast, ← setLast, ← hshared, lastCu, setLast_getLastD]
    intro hempty
    rw [hempty] at hplen
    simp at hplen
  have hfc : firstCu (Function.update st.segCtrls ((st.pathSegs p).getD (i - 1) 0)
      (setLast (st.segCtrls ((st.pathSegs p).getD (i - 1) 0))
        (lastCu st.segCtrls ((st.pathSegs p).getD i 0))))
      ((st.pathSegs p).getD i 0) = control := by
    rw [firstCu, Function.update_noteq (Ne.symm hne)]
    exact hfirst
  have hbig : (List.insertIdx i ((st.pathSegs p).getD i 0)
      (Function.update st.pathSegs p ((st.pathSegs p).eraseIdx i) p)).getD (i - 1) 0 =
      (st.pathSegs p).getD (i - 1) 0 := by
    rw [hsegs', hins]
  simp only [removeUndoStep, hbig, hsegs', hins, Function.update_same, if_true]
  refine GeomState.ext rfl ?_ rfl rfl ?_ rfl
  · rw [hbig]
    simp only [Function.update_same, hfc, hv, Function.update_idem]
    exact Function.update_eq_self _ _
  · simp only [Function.update_idem]
    exact Function.update_eq_self _ _

theorem removeUndoStep_inverts_nolink (st : GeomState) (p i : Nat)
    (hi : i < (st.pathSegs p).length) :
    removeUndoStep
      ({ st with pathSegs := Function.update st.pathSegs p ((st.pathSegs p).eraseIdx i) })
      ⟨i, (st.pathSegs p).getD i 0, p, false⟩ = st := by
  have hsegs' : (Function.update st.pathSegs p ((st.pathSegs p).eraseIdx i)) p =
      (st.pathSegs p).eraseIdx i := Function.update_same _ _ _
  have hins : List.insertIdx i ((st.pathSegs p).getD i 0)
      ((st.pathSegs p).eraseIdx i) = st.pathSegs p := insertIdx_eraseIdx_getD hi
  simp only [removeUndoStep, hsegs', hins]
  rw [if_neg (by simp)]
  refine GeomState.ext rfl rfl rfl rfl ?_ rfl
  simp only [Function.update_idem]
  exact Function.update_eq_self _ _

theorem removeRedoStep_link (st : GeomState) (p i : Nat)
    (h1 : 1 ≤ i) :
    removeRedoStep st ⟨i, (st.pathSegs p).getD i 0, p, true⟩ =
      { st with
          segCtrls := Function.update st.segCtrls ((st.pathSegs p).getD (i - 1) 0)
            (setLast (st.segCtrls ((st.pathSegs p).getD (i - 1) 0))
              (lastCu st.segCtrls ((st.pathSegs p).getD i 0))),
          pathSegs := Function.update st.pathSegs p ((st.pathSegs p).eraseIdx i) } := by
  have hprev : ((st.pathSegs p).eraseIdx i).getD (i - 1) 0 =
      (st.pathSegs p).getD (i - 1) 0 := getD_eraseIdx_lt _ i (i - 1) (by omega)
  simp only [removeRedoStep, hprev]
  rw [if_pos trivial]

theorem removeRedoStep_nolink (st : GeomState) (p i s : Nat) :
    removeRedoStep st ⟨i, s, p, false⟩ =
      { st with pathSegs := Function.update st.pathSegs p ((st.pathSegs p).eraseIdx i) } := by
  simp only [removeRedoStep]
  rw [if_neg (by simp)]

theorem removeControlStep_bundle (st : GeomState) (p control : Nat)
    (hwf : WF st) (hp : p ∈ st.paths) :
    WF (removeControlStep st p control).1 ∧
    (removeControlStep st p control).1.paths = st.paths ∧
    (removeControlStep st p control).1.ctrl = st.ctrl ∧
    (removeControlStep st p control).1.kf = st.kf ∧
    (removeControlStep st p control).1.segKfs = st.segKfs ∧
    (match (removeControlStep st p control).2 with
     | some r => removeUndoStep (removeControlStep st p control).1 r = st ∧
         removeRedoStep st r = (removeControlStep st p control).1
     | none => (removeControlStep st p control).1 = st) := by
  obtain ⟨hndP, hndSeg, hshare, hseglen, hlinked⟩ := hwf
  cases hfind : findRemoveIdxAux st.segCtrls control (st.pathSegs p) 0 with
  | none =>
    rw [removeControlStep_none st p control hfind]
    exact ⟨⟨hndP, hndSeg, hshare, hseglen, hlinked⟩, rfl, rfl, rfl, rfl, rfl⟩
  | some i =>
    obtain ⟨-, hilt, hcase⟩ := findRemoveIdxAux_sound st.segCtrls control (st.pathSegs p) 0 i
      hfind
    simp only [Nat.sub_zero] at hilt hcase
    have hsubq : ∀ q, (Function.update st.pathSegs p ((st.pathSegs p).eraseIdx i) q).Sublist
        (st.pathSegs q) := by
      intro q
      by_cases hq : q = p
      · subst hq
        rw [Function.update_same]
        exact List.eraseIdx_sublist _ _
      · rw [Function.update_noteq hq]
    by_cases hlinkc : firstCu st.segCtrls ((st.pathSegs p).getD i 0) = control ∧ i ≠ 0
    · -- the link-repair case
      have h1 : 1 ≤ i := by omega
      have hi1 : i - 1 < (st.pathSegs p).length := by omega
      have hprevmem : (st.pathSegs p).getD (i - 1) 0 ∈ st.pathSegs p := by
        rw [List.getD_eq_getElem _ 0 hi1]
        exact List.getElem_mem _
      have hplen : 2 ≤ (st.segCtrls ((st.pathSegs p).getD (i - 1) 0)).length := by
        rcases hseglen p hp _ hprevmem with h | h <;> omega
      have hprevne : (st.segCtrls ((st.pathSegs p).getD (i - 1) 0)) ≠ [] := by
        intro h
        rw [h] at hplen
        simp at hplen
      have hstep := removeControlStep_some_link st p control i hfind hlinkc.1 hlinkc.2
      have hshared : lastCu st.segCtrls ((st.pathSegs p).getD (i - 1) 0) = control := by
        rw [linked_adjacent (hlinked p hp) h1 hilt]
        exact hlinkc.1
      rw [hstep]
      dsimp only
      refine ⟨⟨hndP, ?_, ?_, ?_, ?_⟩, rfl, rfl, rfl, rfl,
        removeUndoStep_inverts_link st p control i hilt h1 hlinkc.1 hshared
          (hndSeg p hp) hplen,
        removeRedoStep_link st p i h1⟩
      · exact fun q hq => ((hsubq q).nodup (hndSeg q hq))
      · intro q hq q' hq' hne x hx
        exact fun hx' => hshare q hq q' hq' hne x ((hsubq q).subset hx) ((hsubq q').subset hx')
      · intro q hq x hx
        have hxq : x ∈ st.pathSegs q := (hsubq q).subset hx
        dsimp only
        by_cases hxp : x = (st.pathSegs p).getD (i - 1) 0
        · subst hxp
          unfold SegLenOk
          rw [Function.update_same, length_setLast hprevne]
          exact hseglen p hp _ hprevmem
        · unfold SegLenOk
          rw [Function.update_noteq hxp]
          exact hseglen q hq _ hxq
      · intro q hq
        dsimp only
        by_cases hqp : q = p
        · subst hqp
          rw [Function.update_same]
          exact linked_eraseIdx_repair hilt h1 (hndSeg q hq) (hlinked q hq) hplen
        · rw [Function.update_noteq hqp]
          have hnotq : (st.pathSegs p).getD (i - 1) 0 ∉ st.pathSegs q :=
            hshare p hp q hq (fun h => hqp h.symm) _ hprevmem
          exact (linked_update_notmem hnotq).mpr (hlinked q hq)
    · -- no link repair: head removal or last-segment removal
      have hstep := removeControlStep_some_nolink st p control i hfind hlinkc
      rw [hstep]
      have hlinkp : Linked st.segCtrls ((st.pathSegs p).eraseIdx i) := by
        rcases Decidable.not_and_iff_or_not.mp hlinkc with h | h
        · -- first control did not match: the find matched the last segment
          rcases hcase with hc | ⟨hc1, _⟩
          · exact absurd hc h
          · rw [hc1, eraseIdx_last_eq_dropLast (by
              intro hnil
              rw [hnil] at hilt
              simp at hilt)]
            exact linked_dropLast (hlinked p hp)
        · -- i = 0: the first segment is removed
          have h0 : i = 0 := by omega
          subst h0
          rw [List.eraseIdx_zero]
          have := hlinked p hp
          cases hsegs : st.pathSegs p with
          | nil => simp [Linked]
          | cons a t =>
            rw [hsegs] at this
            simpa using linked_tail this
      dsimp only
      refine ⟨⟨hndP, ?_, ?_, ?_, ?_⟩, rfl, rfl, rfl, rfl,
        removeUndoStep_inverts_nolink st p i hilt,
        removeRedoStep_nolink st p i _⟩
      · exact fun q hq => ((hsubq q).nodup (hndSeg q hq))
      · intro q hq q' hq' hne x hx
        exact fun hx' => hshare q hq q' hq' hne x ((hsubq q).subset hx) ((hsubq q').subset hx')
      · intro q hq x hx
        exact hseglen q hq x ((hsubq q).subset hx)
      · intro q hq
        dsimp only
        by_cases hqp : q = p
        · subst hqp
          rw [Function.update_same]
          exact hlinkp
        · rw [Function.update_noteq hqp]
          exact hlinked q hq

theorem removePathStep_none2 (st : GeomState) (p : Nat) (h : p ∉ st.paths) :
    removePathStep st p = (st, none) := by
  simp [removePathStep, h]

theorem removePathStep_some2 (st : GeomState) (p : Nat) (h : p ∈ st.paths) :
    removePathStep st p =
      ({ st with paths := st.paths.eraseIdx (st.paths.indexOf p) },
       some (st.paths.indexOf p, p)) := by
  simp [removePathStep, h]

theorem wf_paths_sublist {st st' : GeomState}
    (hps : st'.pathSegs = st.pathSegs) (hsc : st'.segCtrls = st.segCtrls)
    (hsub : st'.paths.Sublist st.paths) (hwf : WF st) : WF st' := by
  obtain ⟨h1, h2, h3, h4, h5⟩ := hwf
  refine ⟨h1.sublist hsub, ?_, ?_, ?_, ?_⟩
  · intro q hq
    rw [hps]
    exact h2 q (hsub.subset hq)
  · intro q hq q' hq' hne x hx
    rw [hps] at hx ⊢
    exact h3 q (hsub.subset hq) q' (hsub.subset hq') hne x hx
  · intro q hq x hx
    rw [hps] at hx
    unfold SegLenOk
    rw [hsc]
    exact h4 q (hsub.subset hq) x hx
  · intro q hq
    rw [hps, hsc]
    exact h5 q (hsub.subset hq)

theorem removePathsPhase_acc : ∀ (ps : List Nat) (st : GeomState) (acc : List (Nat × Nat)),
    ps.foldl (fun acc p =>
      match removePathStep acc.1 p with
      | (st', some r) => (st', acc.2 ++ [r])
      | (st', none) => (st', acc.2)) (st, acc) =
    ((removePathsPhase st ps).1, acc ++ (removePathsPhase st ps).2)
  | [], st, acc => by simp [removePathsPhase]
  | p :: ps', st, acc => by
    rw [List.foldl_cons]
    rcases hstep : removePathStep st p with ⟨st1, ro⟩
    cases ro with
    | some r =>
      simp only [hstep]
      rw [removePathsPhase_acc ps' st1 (acc ++ [r])]
      have hr : removePathsPhase st (p :: ps') =
          ((removePathsPhase st1 ps').1, [r] ++ (removePathsPhase st1 ps').2) := by
        have h0 : (p :: ps').foldl (fun acc p =>
            match removePathStep acc.1 p with
            | (st', some r) => (st', acc.2 ++ [r])
            | (st', none) => (st', acc.2)) (st, []) =
            ((removePathsPhase st1 ps').1,
              ([] ++ [r]) ++ (removePathsPhase st1 ps').2) := by
          rw [List.foldl_cons]
          simp only [hstep]
          exact removePathsPhase_acc ps' st1 ([] ++ [r])
        simpa using h0
      rw [hr]
      simp
    | none =>
      simp only [hstep]
      rw [removePathsPhase_acc ps' st1 acc]
      have hr : removePathsPhase st (p :: ps') = removePathsPhase st1 ps' := by
        have h0 : (p :: ps').foldl (fun acc p =>
            match removePathStep acc.1 p with
            | (st', some r) => (st', acc.2 ++ [r])
            | (st', none) => (st', acc.2)) (st, []) =
            ((removePathsPhase st1 ps').1, [] ++ (removePathsPhase st1 ps').2) := by
          rw [List.foldl_cons]
          simp only [hstep]
          exact removePathsPhase_acc ps' st1 []
        simpa using h0
      rw [hr]

theorem removePathsPhase_cons_mem (st : GeomState) (p : Nat) (ps' : List Nat)
    (hp : p ∈ st.paths) :
    removePathsPhase st (p :: ps') =
      ((removePathsPhase { st with paths := st.paths.eraseIdx (st.paths.indexOf p) } ps').1,
        (st.paths.indexOf p, p) ::
          (removePathsPhase
            { st with paths := st.paths.eraseIdx (st.paths.indexOf p) } ps').2) := by
  have h0 : (p :: ps').foldl (fun acc p =>
      match removePathStep acc.1 p with
      | (st', some r) => (st', acc.2 ++ [r])
      | (st', none) => (st', acc.2)) (st, []) =
      ((removePathsPhase { st with paths := st.paths.eraseIdx (st.paths.indexOf p) } ps').1,
        ([] ++ [(st.paths.indexOf p, p)]) ++
          (removePathsPhase
            { st with paths := st.paths.eraseIdx (st.paths.indexOf p) } ps').2) := by
    rw [List.foldl_cons]
    simp only [removePathStep_some2 st p hp]
    exact removePathsPhase_acc ps' _ _
  simpa using h0

theorem removePathsPhase_cons_notmem (st : GeomState) (p : Nat) (ps' : List Nat)
    (hp : p ∉ st.paths) :
    removePathsPhase st (p :: ps') = removePathsPhase st ps' := by
  have h0 : (p :: ps').foldl (fun acc p =>
      match removePathStep acc.1 p with
      | (st', some r) => (st', acc.2 ++ [r])
      | (st', none) => (st', acc.2)) (st, []) =
      ((removePathsPhase st ps').1, [] ++ (removePathsPhase st ps').2) := by
    rw [List.foldl_cons]
    simp only [removePathStep_none2 st p hp]
    exact removePathsPhase_acc ps' st []
  simpa using h0

theorem pathsPhase_bundle : ∀ (ps : List Nat) (st : GeomState), WF st →
    WF (removePathsPhase st ps).1 ∧
    (removePathsPhase st ps).1.pathSegs = st.pathSegs ∧
    (removePathsPhase st ps).1.segCtrls = st.segCtrls ∧
    (removePathsPhase st ps).1.ctrl = st.ctrl ∧
    (removePathsPhase st ps).1.kf = st.kf ∧
    (removePathsPhase st ps).1.segKfs = st.segKfs ∧
    (∀ q, q ∈ st.paths → q ∉ ps → q ∈ (removePathsPhase st ps).1.paths) ∧
    ((removePathsPhase st ps).2.reverse.foldl
        (fun st pr => { st with paths := st.paths.insertIdx pr.1 pr.2 })
        (removePathsPhase st ps).1 = st) ∧
    ((removePathsPhase st ps).2.foldl
        (fun st pr => { st with paths := st.paths.eraseIdx pr.1 }) st =
      (removePathsPhase st ps).1)
  | [], st, hwf => ⟨hwf, rfl, rfl, rfl, rfl, rfl, fun _ hq _ => hq, rfl, rfl⟩
  | p :: ps', st, hwf => by
    by_cases hp : p ∈ st.paths
    · have hidx : st.paths.indexOf p < st.paths.length := List.indexOf_lt_length.mpr hp
      have hwf1 : WF ({ st with
          paths := st.paths.eraseIdx (st.paths.indexOf p) } : GeomState) :=
        @wf_paths_sublist st { st with paths := st.paths.eraseIdx (st.paths.indexOf p) }
          rfl rfl (List.eraseIdx_sublist _ _) hwf
      obtain ⟨ih1, ih2, ih3, ih4, ih5, ih6, ih7, ih8, ih9⟩ :=
        pathsPhase_bundle ps' { st with paths := st.paths.eraseIdx (st.paths.indexOf p) } hwf1
      rw [removePathsPhase_cons_mem st p ps' hp]
      refine ⟨ih1, ih2, ih3, ih4, ih5, ih6, ?_, ?_, ?_⟩
      · intro q hq hqn
        have hqne : q ≠ p := fun h => hqn (h ▸ List.mem_cons_self _ _)
        exact ih7 q (mem_eraseIdx_indexOf hqne hq) (fun h => hqn (List.mem_cons_of_mem _ h))
      · show (List.reverse (_ :: _)).foldl _ _ = st
        rw [List.reverse_cons, List.foldl_append, ih8]
        simp only [List.foldl_cons, List.foldl_nil]
        have hgd : st.paths.getD (st.paths.indexOf p) 0 = p := by
          rw [List.getD_eq_getElem _ 0 hidx, List.getElem_indexOf hidx]
        have hins := insertIdx_eraseIdx_getD (l := st.paths) (i := st.paths.indexOf p) hidx
        rw [hgd] at hins
        refine GeomState.ext rfl rfl rfl rfl rfl ?_
        exact hins
      · rw [List.foldl_cons]
        exact ih9
    · rw [removePathsPhase_cons_notmem st p ps' hp]
      obtain ⟨ih1, ih2, ih3, ih4, ih5, ih6, ih7, ih8, ih9⟩ := pathsPhase_bundle ps' st hwf
      exact ⟨ih1, ih2, ih3, ih4, ih5, ih6,
        fun q hq hqn => ih7 q hq (fun h => hqn (List.mem_cons_of_mem _ h)), ih8, ih9⟩

theorem removeControlsPhase_acc : ∀ (cs : List (Nat × Nat)) (st : GeomState)
    (acc : List RemoveRecord),
    cs.foldl (fun acc pc =>
      match removeControlStep acc.1 pc.1 pc.2 with
      | (st', some r) => (st', acc.2 ++ [r])
      | (st', none) => (st', acc.2)) (st, acc) =
    ((removeControlsPhase st cs).1, acc ++ (removeControlsPhase st cs).2)
  | [], st, acc => by simp [removeControlsPhase]
  | pc :: cs', st, acc => by
    rw [List.foldl_cons]
    rcases hstep : removeControlStep st pc.1 pc.2 with ⟨st1, ro⟩
    cases ro with
    | some r =>
      simp only [hstep]
      rw [removeControlsPhase_acc cs' st1 (acc ++ [r])]
      have hr : removeControlsPhase st (pc :: cs') =
          ((removeControlsPhase st1 cs').1, [r] ++ (removeControlsPhase st1 cs').2) := by
        have h0 : (pc :: cs').foldl (fun acc pc =>
            match removeControlStep acc.1 pc.1 pc.2 with
            | (st', some r) => (st', acc.2 ++ [r])
            | (st', none) => (st', acc.2)) (st, []) =
            ((removeControlsPhase st1 cs').1,
              ([] ++ [r]) ++ (removeControlsPhase st1 cs').2) := by
          rw [List.foldl_cons]
          simp only [hstep]
          exact removeControlsPhase_acc cs' st1 ([] ++ [r])
        simpa using h0
      rw [hr]
      simp
    | none =>
      simp only [hstep]
      rw [removeControlsPhase_acc cs' st1 acc]
      have hr : removeControlsPhase st (pc :: cs') = removeControlsPhase st1 cs' := by
        have h0 : (pc :: cs').foldl (fun acc pc =>
            match removeControlStep acc.1 pc.1 pc.2 with
            | (st', some r) => (st', acc.2 ++ [r])
            | (st', none) => (st', acc.2)) (st, []) =
            ((removeControlsPhase st1 cs').1, [] ++ (removeControlsPhase st1 cs').2) := by
          rw [List.foldl_cons]
          simp only [hstep]
          exact removeControlsPhase_acc cs' st1 []
        simpa using h0
      rw [hr]

theorem removeControlsPhase_cons_some (st : GeomState) (pc : Nat × Nat)
    (cs' : List (Nat × Nat)) (st1 : GeomState) (r : RemoveRecord)
    (hstep : removeControlStep st pc.1 pc.2 = (st1, some r)) :
    removeControlsPhase st (pc :: cs') =
      ((removeControlsPhase st1 cs').1, r :: (removeControlsPhase st1 cs').2) := by
  have h0 : (pc :: cs').foldl (fun acc pc =>
      match removeControlStep acc.1 pc.1 pc.2 with
      | (st', some r) => (st', acc.2 ++ [r])
      | (st', none) => (st', acc.2)) (st, []) =
      ((removeControlsPhase st1 cs').1, ([] ++ [r]) ++ (removeControlsPhase st1 cs').2) := by
    rw [List.foldl_cons]
    simp only [hstep]
    exact removeControlsPhase_acc cs' st1 ([] ++ [r])
  simpa using h0

theorem removeControlsPhase_cons_none (st : GeomState) (pc : Nat × Nat)
    (cs' : List (Nat × Nat)) (st1 : GeomState)
    (hstep : removeControlStep st pc.1 pc.2 = (st1, none)) :
    removeControlsPhase st (pc :: cs') = removeControlsPhase st1 cs' := by
  have h0 : (pc :: cs').foldl (fun acc pc =>
      match removeControlStep acc.1 pc.1 pc.2 with
      | (st', some r) => (st', acc.2 ++ [r])
      | (st', none) => (st', acc.2)) (st, []) =
      ((removeControlsPhase st1 cs').1, [] ++ (removeControlsPhase st1 cs').2) := by
    rw [List.foldl_cons]
    simp only [hstep]
    exact removeControlsPhase_acc cs' st1 []
  simpa using h0

theorem controlsPhase_bundle : ∀ (cs : List (Nat × Nat)) (st : GeomState), WF st →
    (∀ pc ∈ cs, pc.1 ∈ st.paths) →
    WF (removeControlsPhase st cs).1 ∧
    (removeControlsPhase st cs).1.paths = st.paths ∧
    (removeControlsPhase st cs).1.ctrl = st.ctrl ∧
    (removeControlsPhase st cs).1.kf = st.kf ∧
    (removeControlsPhase st cs).1.segKfs = st.segKfs ∧
    ((removeControlsPhase st cs).2.reverse.foldl removeUndoStep
      (removeControlsPhase st cs).1 = st) ∧
    ((removeControlsPhase st cs).2.foldl removeRedoStep st = (removeControlsPhase st cs).1)
  | [], st, hwf, _ => ⟨hwf, rfl, rfl, rfl, rfl, rfl, rfl⟩
  | pc :: cs', st, hwf, hlive => by
    have hb := removeControlStep_bundle st pc.1 pc.2 hwf (hlive pc (List.mem_cons_self _ _))
    rcases hstep : removeControlStep st pc.1 pc.2 with ⟨st1, ro⟩
    rw [hstep] at hb
    obtain ⟨hbwf, hbpaths, hbctrl, hbkf, hbkfs, hbmatch⟩ := hb
    cases ro with
    | some r =>
      have hbmatch' : removeUndoStep st1 r = st ∧ removeRedoStep st r = st1 := hbmatch
      obtain ⟨hbundo, hbredo⟩ := hbmatch'
      have hlive1 : ∀ qc ∈ cs', qc.1 ∈ st1.paths := by
        intro qc hqc
        have hserve : st1.paths = st.paths := hbpaths
        rw [hserve]
        exact hlive qc (List.mem_cons_of_mem _ hqc)
      obtain ⟨ih1, ih2, ih3, ih4, ih5, ih6, ih7⟩ := controlsPhase_bundle cs' st1 hbwf hlive1
      rw [removeControlsPhase_cons_some st pc cs' st1 r hstep]
      refine ⟨ih1, ?_, ?_, ?_, ?_, ?_, ?_⟩
      · exact ih2.trans hbpaths
      · exact ih3.trans hbctrl
      · exact ih4.trans hbkf
      · exact ih5.trans hbkfs
      · show ((r :: (removeControlsPhase st1 cs').2).reverse).foldl removeUndoStep
          (removeControlsPhase st1 cs').1 = st
        rw [List.reverse_cons, List.foldl_append, ih6]
        simp only [List.foldl_cons, List.foldl_nil]
        exact hbundo
      · show (r :: (removeControlsPhase st1 cs').2).foldl removeRedoStep st =
          (removeControlsPhase st1 cs').1
        rw [List.foldl_cons, hbredo]
        exact ih7
    | none =>
      have hst1 : st1 = st := hbmatch
      rw [removeControlsPhase_cons_none st pc cs' st1 hstep, hst1]
      exact controlsPhase_bundle cs' st hwf
        (fun qc hqc => hlive qc (List.mem_cons_of_mem _ hqc))

theorem insertPathsFold_paths : ∀ (rs : List (Nat × Nat)) (st : GeomState),
    rs.foldl (fun st pr => { st with paths := st.paths.insertIdx pr.1 pr.2 }) st =
      { st with paths := rs.foldl (fun l pr => l.insertIdx pr.1 pr.2) st.paths }
  | [], _ => rfl
  | r :: rs', st => by
    rw [List.foldl_cons, List.foldl_cons]
    exact insertPathsFold_paths rs' _

theorem removeUndoStep_paths_comm (st : GeomState) (Q : List Nat) (r : RemoveRecord) :
    removeUndoStep { st with paths := Q } r = { removeUndoStep st r with paths := Q } := by
  simp only [removeUndoStep]
  split <;> rfl

theorem removeUndoFold_paths_comm : ∀ (rs : List RemoveRecord) (st : GeomState) (Q : List Nat),
    rs.foldl removeUndoStep { st with paths := Q } =
      { rs.foldl removeUndoStep st with paths := Q }
  | [], _, _ => rfl
  | r :: rs', st, Q => by
    rw [List.foldl_cons, List.foldl_cons, removeUndoStep_paths_comm]
    exact removeUndoFold_paths_comm rs' _ Q

theorem removePec_full (c : RemovePathsAndEndControls) (st : GeomState)
    (hwf : WF st)
    (hreq : ∀ pr ∈ c.removalEndControls, pr.1 ∈ st.paths ∧ pr.1 ∉ c.removalPaths) :
    WF (c.execute st).1 ∧
    RemovePathsAndEndControls.undo (c.execute st).2 (c.execute st).1 = st ∧
    RemovePathsAndEndControls.redo (c.execute st).2
      (RemovePathsAndEndControls.undo (c.execute st).2 (c.execute st).1) =
      (c.execute st).1 := by
  obtain ⟨pw, pcomp2, pcomp3, pcomp4, pcomp5, pcomp6, pmem, pundo, predo⟩ :=
    pathsPhase_bundle c.removalPaths st hwf
  set st1 := (removePathsPhase st c.removalPaths).1 with hst1
  have hlive : ∀ pc ∈ c.removalEndControls, pc.1 ∈ st1.paths := fun pc hpc =>
    pmem pc.1 (hreq pc hpc).1 (hreq pc hpc).2
  obtain ⟨cw, ccomp2, ccomp3, ccomp4, ccomp5, cundo, credo⟩ :=
    controlsPhase_bundle c.removalEndControls st1 pw hlive
  have hPfold : (removePathsPhase st c.removalPaths).2.reverse.foldl
      (fun st pr => { st with paths := st.paths.insertIdx pr.1 pr.2 })
      (removeControlsPhase st1 c.removalEndControls).1 =
      { (removeControlsPhase st1 c.removalEndControls).1 with paths := st.paths } := by
    rw [insertPathsFold_paths]
    have h1 := pundo
    rw [insertPathsFold_paths] at h1
    have h2 : (removePathsPhase st c.removalPaths).2.reverse.foldl
        (fun l pr => l.insertIdx pr.1 pr.2) st1.paths = st.paths :=
      congrArg GeomState.paths h1
    rw [ccomp2, h2]
  have hundo : RemovePathsAndEndControls.undo (c.execute st).2 (c.execute st).1 = st := by
    show (removeControlsPhase st1 c.removalEndControls).2.reverse.foldl removeUndoStep
      ((removePathsPhase st c.removalPaths).2.reverse.foldl
        (fun st pr => { st with paths := st.paths.insertIdx pr.1 pr.2 })
        (removeControlsPhase st1 c.removalEndControls).1) = st
    rw [hPfold, removeUndoFold_paths_comm, cundo]
    exact GeomState.ext pcomp4 pcomp3 pcomp6 pcomp5 pcomp2 rfl
  have hredo : RemovePathsAndEndControls.redo (c.execute st).2 st = (c.execute st).1 := by
    show (removeControlsPhase st1 c.removalEndControls).2.foldl removeRedoStep
      ((removePathsPhase st c.removalPaths).2.foldl
        (fun st pr => { st with paths := st.paths.eraseIdx pr.1 }) st) =
      (removeControlsPhase st1 c.removalEndControls).1
    rw [predo]
    exact credo
  refine ⟨cw, hundo, ?_⟩
  rw [hundo]
  exact hredo

theorem convert_linkedInv (c : ConvertSegment) (st : GeomState) (hInv : LinkedInv st) :
    LinkedInv (c.execute st).1 ∧
    LinkedInv (ConvertSegment.undoC (c.execute st).2 (c.execute st).1) ∧
    LinkedInv (ConvertSegment.redoC (c.execute st).2
      (ConvertSegment.undoC (c.execute st).2 (c.execute st).1)) := by
  obtain ⟨v, hsc, hh, hl⟩ := convertSegment_exec_segCtrls c st
  obtain ⟨hpa, hps⟩ := convertSegment_exec_struct c st
  have hexecInv : LinkedInv (c.execute st).1 := by
    intro p hp
    rw [hpa] at hp
    rw [hps, hsc]
    exact linkedInv_update_ends hh hl hInv p hp
  have hu : ConvertSegment.undoC (c.execute st).2 (c.execute st).1 =
      { (c.execute st).1 with segCtrls := st.segCtrls } := by
    simp only [ConvertSegment.undoC, convertSegment_exec_prev, convertSegment_exec_seg,
      hsc, Function.update_idem]
    refine GeomState.ext rfl ?_ rfl rfl rfl rfl
    exact Function.update_eq_self c.segment st.segCtrls
  have hundoInv : LinkedInv (ConvertSegment.undoC (c.execute st).2 (c.execute st).1) := by
    refine linkedInv_of_components ?_ ?_ ?_ hInv
    · rw [hu]
      exact hpa
    · rw [hu]
      exact hps
    · rw [hu]
  have hnew : (c.execute st).2.newControls = v := by
    rw [convertSegment_exec_new, hsc, Function.update_same]
  refine ⟨hexecInv, hundoInv, ?_⟩
  refine linkedInv_of_components ?_ ?_ ?_ hexecInv
  · simp only [ConvertSegment.redoC]
    rw [hu]
  · simp only [ConvertSegment.redoC]
    rw [hu]
  · simp only [ConvertSegment.redoC, hnew, convertSegment_exec_seg]
    rw [hu]
    show Function.update st.segCtrls c.segment v = (c.execute st).1.segCtrls
    rw [hsc]

/-- The full command catalog, acting on the geometry graph.  An
`UpdateInstancesProperties` acts on the separate property document, so
its geometric action is the identity. -/
inductive CatalogCommand where
  | updateProps (c : UpdateInstancesProperties)
  | drag (c : DragControls)
  | addKeyframeCmd (c : AddKeyframe)
  | moveKeyframeCmd (c : MoveKeyframe)
  | removeKeyframeCmd (c : RemoveKeyframe)
  | convertSegmentCmd (c : ConvertSegment)
  | splitSegmentCmd (c : SplitSegment)
  | addSegmentCmd (c : AddSegment)
  | addPathCmd (c : AddPath)
  | removeCmd (c : RemovePathsAndEndControls)

def CatalogCommand.exec : CatalogCommand → GeomState → GeomState
  | .updateProps _, st => st
  | .drag c, st => { st with ctrl := c.execute st.ctrl }
  | .addKeyframeCmd c, st => c.executeK st
  | .moveKeyframeCmd c, st => (c.execute st).1
  | .removeKeyframeCmd c, st => (c.execute st).1
  | .convertSegmentCmd c, st => (c.execute st).1
  | .splitSegmentCmd c, st => (c.execute st).1
  | .addSegmentCmd c, st => c.executeS st
  | .addPathCmd c, st => c.executeP st
  | .removeCmd c, st => (c.execute st).1

/-- Undo immediately after execute, with the record execute produced. -/
def CatalogCommand.undoE : CatalogCommand → GeomState → GeomState
  | .updateProps _, st => st
  | .drag c, st => { st with ctrl := c.undo (c.execute st.ctrl) }
  | .addKeyframeCmd c, st => c.undoA (c.executeK st)
  | .moveKeyframeCmd c, st => MoveKeyframe.undoK (c.execute st).2 (c.execute st).1
  | .removeKeyframeCmd c, st => RemoveKeyframe.undoK (c.execute st).2 (c.execute st).1
  | .convertSegmentCmd c, st => ConvertSegment.undoC (c.execute st).2 (c.execute st).1
  | .splitSegmentCmd c, st => c.undo (c.execute st).2 (c.execute st).1
  | .addSegmentCmd c, st => c.undoS (c.executeS st)
  | .addPathCmd c, st => c.undoP (c.executeP st)
  | .removeCmd c, st => RemovePathsAndEndControls.undo (c.execute st).2 (c.execute st).1

/-- Redo after undo after execute. -/
def CatalogCommand.redoE : CatalogCommand → GeomState → GeomState
  | .updateProps _, st => st
  | .drag c, st => { st with ctrl := c.redo (c.undo (c.execute st.ctrl)) }
  | .addKeyframeCmd c, st => c.redoA (c.undoA (c.executeK st))
  | .moveKeyframeCmd c, st =>
    MoveKeyframe.redoK (c.execute st).2
      (MoveKeyframe.undoK (c.execute st).2 (c.execute st).1)
  | .removeKeyframeCmd c, st =>
    RemoveKeyframe.redoK (c.execute st).2
      (RemoveKeyframe.undoK (c.execute st).2 (c.execute st).1)
  | .convertSegmentCmd c, st =>
    ConvertSegment.redoC (c.execute st).2
      (ConvertSegment.undoC (c.execute st).2 (c.execute st).1)
  | .splitSegmentCmd c, st =>
    c.redo (c.execute st).2 (c.undo (c.execute st).2 (c.execute st).1)
  | .addSegmentCmd c, st => c.redoS (c.undoS (c.executeS st))
  | .addPathCmd c, st => c.redoP (c.undoP (c.executeP st))
  | .removeCmd c, st =>
    RemovePathsAndEndControls.redo (c.execute st).2
      (RemovePathsAndEndControls.undo (c.execute st).2 (c.execute st).1)

/-- "Given well-formed inputs": the command's targets are live members of
the referenced collections and freshly allocated objects are fresh. -/
def ValidFor : CatalogCommand → GeomState → Prop
  | .updateProps _, _ => True
  | .drag _, _ => True
  | .addKeyframeCmd _, _ => True
  | .moveKeyframeCmd _, _ => True
  | .removeKeyframeCmd _, _ => True
  | .convertSegmentCmd _, _ => True
  | .splitSegmentCmd c, st =>
      c.path ∈ st.paths ∧ c.originalSegment ∈ st.pathSegs c.path ∧
        (∀ q ∈ st.paths, c.newSegUid ∉ st.pathSegs q) ∧ c.originalSegment ≠ c.newSegUid
  | .addSegmentCmd c, st => c.path ∈ st.paths ∧ (∀ q ∈ st.paths, c.segUid ∉ st.pathSegs q)
  | .addPathCmd c, st => Linked st.segCtrls (st.pathSegs c.pathU) ∧ c.pathU ∉ st.paths
  | .removeCmd c, st => ∀ pr ∈ c.removalEndControls, pr.1 ∈ st.paths ∧ pr.1 ∉ c.removalPaths

instance (cmd : CatalogCommand) (st : GeomState) : Decidable (ValidFor cmd st) := by
  cases cmd <;> simp only [ValidFor] <;> infer_instance

/-- C2. Every catalog command, given a well-formed geometry graph and
well-formed inputs (targets are live members of the referenced
collections, allocated uids fresh), preserves the sharing invariant —
within every live path adjacent segments share their endpoint control by
reference — under execute, under undo-after-execute, and under
redo-after-undo: the sharing is either untouched (property updates,
drags, keyframe edits), deliberately extended (add/split/convert keep
or re-establish the shared endpoints), or re-established by link-repair
(`RemovePathsAndEndControls`). -/
theorem catalogCommand_preserves_sharing (cmd : CatalogCommand) (st : GeomState)
    (hwf : WF st) (hv : ValidFor cmd st) :
    LinkedInv (cmd.exec st) ∧ LinkedInv (cmd.undoE st) ∧ LinkedInv (cmd.redoE st) := by
  have hInv : LinkedInv st := wf_linkedInv hwf
  cases cmd with
  | updateProps c => exact ⟨hInv, hInv, hInv⟩
  | drag c =>
    exact ⟨linkedInv_of_components rfl rfl rfl hInv,
      linkedInv_of_components rfl rfl rfl hInv,
      linkedInv_of_components rfl rfl rfl hInv⟩
  | addKeyframeCmd c =>
    exact ⟨linkedInv_of_components rfl rfl rfl hInv,
      linkedInv_of_components rfl rfl rfl hInv,
      linkedInv_of_components rfl rfl rfl hInv⟩
  | moveKeyframeCmd c =>
    obtain ⟨e1, e2, e3⟩ := moveKf_exec_struct c st
    obtain ⟨u1, u2, u3⟩ := moveKf_undo_struct (c.execute st).2 (c.execute st).1
    obtain ⟨r1, r2, r3⟩ := moveKf_redo_struct (c.execute st).2
      (MoveKeyframe.undoK (c.execute st).2 (c.execute st).1)
    exact ⟨linkedInv_of_components e1 e2 e3 hInv,
      linkedInv_of_components (u1.trans e1) (u2.trans e2) (u3.trans e3) hInv,
      linkedInv_of_components (r1.trans (u1.trans e1)) (r2.trans (u2.trans e2))
        (r3.trans (u3.trans e3)) hInv⟩
  | removeKeyframeCmd c =>
    obtain ⟨e1, e2, e3⟩ := removeKf_exec_struct c st
    obtain ⟨u1, u2, u3⟩ := removeKf_undo_struct (c.execute st).2 (c.execute st).1
    obtain ⟨r1, r2, r3⟩ := removeKf_redo_struct (c.execute st).2
      (RemoveKeyframe.undoK (c.execute st).2 (c.execute st).1)
    exact ⟨linkedInv_of_components e1 e2 e3 hInv,
      linkedInv_of_components (u1.trans e1) (u2.trans e2) (u3.trans e3) hInv,
      linkedInv_of_components (r1.trans (u1.trans e1)) (r2.trans (u2.trans e2))
        (r3.trans (u3.trans e3)) hInv⟩
  | convertSegmentCmd c => exact convert_linkedInv c st hInv
  | splitSegmentCmd c =>
    obtain ⟨h1, h2, h3, h4⟩ := hv
    exact split_linkedInv c st hwf h1 h2 h3 h4
  | addSegmentCmd c =>
    obtain ⟨h1, h2⟩ := hv
    exact addSeg_linkedInv c st hInv h2
  | addPathCmd c =>
    obtain ⟨h1, h2⟩ := hv
    exact addPath_linkedInv c st hInv h1 h2
  | removeCmd c =>
    obtain ⟨hwf2, hundo, hredo⟩ := removePec_full c st hwf hv
    refine ⟨wf_linkedInv hwf2, ?_, ?_⟩
    · show LinkedInv (RemovePathsAndEndControls.undo (c.execute st).2 (c.execute st).1)
      rw [hundo]
      exact hInv
    · show LinkedInv (RemovePathsAndEndControls.redo (c.execute st).2
        (RemovePathsAndEndControls.undo (c.execute st).2 (c.execute st).1))
      rw [hredo]
      exact wf_linkedInv hwf2

def c2WitnessState : GeomState :=
  { ctrl := fun _ => mkControl (0, 0),
    segCtrls := fun n => if n = 10 then [100, 101] else if n = 11 then [101, 102] else [],
    segKfs := fun _ => [],
    kf := fun _ => default,
    pathSegs := fun n => if n = 1 then [10, 11] else [],
    paths := [1] }

theorem catalogCommand_preserves_sharing_witness :
    LinkedInv (CatalogCommand.exec
      (CatalogCommand.removeCmd ⟨[], [(1, 101)]⟩) c2WitnessState) ∧
    LinkedInv (CatalogCommand.undoE
      (CatalogCommand.removeCmd ⟨[], [(1, 101)]⟩) c2WitnessState) ∧
    LinkedInv (CatalogCommand.redoE
      (CatalogCommand.removeCmd ⟨[], [(1, 101)]⟩) c2WitnessState) :=
  catalogCommand_preserves_sharing (CatalogCommand.removeCmd ⟨[], [(1, 101)]⟩)
    c2WitnessState (by decide) (by decide)

/-- C4 counterexample: a `MoveKeyframe` whose keyframe is in none of the
path's segments is NOT a no-op as the claim demands — the keyframe 55 is
absent from every segment of path 1, yet execute inserts it into the
destination segment 10 and the state changes; undo then does nothing
(`oldPos` was never set), so the spurious insertion sticks. -/
theorem moveKeyframe_notFound_mutates :
    (∀ s ∈ c4State.pathSegs 1, 55 ∉ c4State.segKfs s) ∧
    55 ∈ (MoveKeyframe.execute ⟨1, ⟨10, 1/2, 3⟩, 55, none⟩ c4State).1.segKfs 10 ∧
    (MoveKeyframe.execute ⟨1, ⟨10, 1/2, 3⟩, 55, none⟩ c4State).1 ≠ c4State ∧
    MoveKeyframe.undoK (MoveKeyframe.execute ⟨1, ⟨10, 1/2, 3⟩, 55, none⟩ c4State).2
      (MoveKeyframe.execute ⟨1, ⟨10, 1/2, 3⟩, 55, none⟩ c4State).1 =
      (MoveKeyframe.execute ⟨1, ⟨10, 1/2, 3⟩, 55, none⟩ c4State).1 := by
  refine ⟨by decide, by decide, ?_, ?_⟩
  · intro heq
    have h1 : 55 ∈ (MoveKeyframe.execute ⟨1, ⟨10, 1/2, 3⟩, 55, none⟩ c4State).1.segKfs 10 :=
      by decide
    rw [heq] at h1
    exact absurd h1 (by decide)
  · have hrec : (MoveKeyframe.execute ⟨1, ⟨10, 1/2, 3⟩, 55, none⟩ c4State).2 =
        ⟨1, ⟨10, 1/2, 3⟩, 55, none⟩ := rfl
    rw [hrec]
    rfl
